import Mathlib

/-!
# dlfs: the in-memory namespace tree

A shallow embedding of the tree code of `fs.go`, `util.go`, `blob.go` and `9p.go`:
`NewTree`, `NewChild`, `Search`/`recurseSearch`, `Insert`, `Delete`, `Sync`,
`LoadChildren`, `lookup`, `WriteAt`, `ReadAt`, `Size`, `Readdir` and the request
handlers of `Serve9P`, followed by theorems about them.

Conventions of the embedding.

* A Go `string` is a list of characters (`Str`).
* A `*File` is modelled by the location of the node (the child indices on the way
  down from the root) together with the node found there.  The `parent` field of a
  node is the node at the location with the last index dropped.
* Functions that mutate the tree return the tree after the call.
* A Go `error` is `Option Str`: `none` is `nil`, `some m` is `errors.New(m)`.
* Fields that hold time stamps (`last`) and the server back pointer (`srv`) are left
  out.  The `Readdir` channel (`info`) of a directory is kept beside the tree: it is an
  argument and a result of `Readdir`.
* Calls to the remote share are answered by arguments of the functions that make them:
  a `Listing` for each `Ls`, a `DownloadOutcome` for each download, an `UploadAnswer`
  for an upload, an error or `none` for a delete.  A function that takes a `Listing` is
  the Go function from the return of `Ls` on; the functions named `...Ends` start
  before the call of `Ls`, which ends the process when the listing fails.
* Every `File` carries a `Blob`: `NewChild` allocates one for each child, and `main`
  assigns the root's when the share exists.
-/

namespace Dlfs

/-- Go strings, as sequences of characters. -/
abbrev Str := List Char

/-- Location of a node: the child indices on the way down from the root. -/
abbrev Loc := List Nat

/-! ## The pieces of the Go standard library that the tree code calls -/

namespace strings

/-- Go `strings.Split(s, "/")`: the pieces of `s` between the slashes; always at
least one piece. -/
def Split : Str → List Str
  | [] => [[]]
  | c :: cs =>
    if c = '/' then [] :: Split cs
    else
      match Split cs with
      | [] => [[c]]
      | h :: t => (c :: h) :: t

/-- Go `strings.Join(elems, "/")`. -/
def Join : List Str → Str
  | [] => []
  | [e] => e
  | e :: es => e ++ '/' :: Join es

end strings

namespace path

/-- Go `path.Split`: splits right after the final slash; with no slash the directory
part is empty. -/
def Split : Str → Str × Str
  | [] => ([], [])
  | c :: cs =>
    match Split cs with
    | ([], f) => if c = '/' then (['/'], f) else ([], c :: f)
    | (d, f) => (c :: d, f)

/-- One element of the path handled by the loop of `path.Clean`; `out` holds the
elements written so far, last one first.  Empty and `.` elements are dropped, `..`
removes the element before it when there is one to remove (a rooted path drops the
`..` otherwise, an unrooted path keeps it), any other element is written. -/
def cleanStep (rooted : Bool) (out : List Str) (e : Str) : List Str :=
  if e = [] ∨ e = ['.'] then out
  else if e = ['.', '.'] then
    match out with
    | top :: rest =>
      if top = ['.', '.'] then (if rooted then out else e :: out) else rest
    | [] => if rooted then [] else [e]
  else e :: out

/-- Go `path.Clean`, computed element by element. -/
def Clean (p : Str) : Str :=
  if p = [] then ['.']
  else
    let rooted : Bool := decide (p.head? = some '/')
    let out := ((strings.Split p).foldl (cleanStep rooted) []).reverse
    if rooted then '/' :: strings.Join out
    else if out = [] then ['.'] else strings.Join out

end path

/-! ## Data model -/

/-- An `azfile` URL, as the path elements below the share. -/
abbrev URL := List Str

/-- The call `u.NewFileURL(name)` of `azfile.DirectoryURL`. -/
def NewFileURL (u : URL) (name : Str) : URL := u ++ [name]

/-- The call `u.NewDirectoryURL(name)` of `azfile.DirectoryURL`. -/
def NewDirectoryURL (u : URL) (name : Str) : URL := u ++ [name]

/-- The struct `Blob` of `blob.go`; `body` is the byte buffer. -/
structure Blob where
  body : List Nat
  isDir : Bool
  tracked : Bool
  fileURL : URL
  dirURL : URL
  parent : URL
  deriving DecidableEq, Repr

/-- The struct `File` of `fs.go`. -/
structure File where
  name : Str
  isDir : Bool
  Blob : Blob
  Children : List File

/-- A `*File` into a tree: where the node is, and the node. -/
abbrev Ptr := Loc × File

namespace File

/-- The node at a location of the tree, if there is one. -/
def get? : File → Loc → Option File
  | t, [] => some t
  | t, i :: l =>
    match t.Children[i]? with
    | some c => get? c l
    | none => none

/-- The tree with the node at a location replaced by `f` of it. -/
def modifyAt (f : File → File) : File → Loc → File
  | t, [] => f t
  | t, i :: l => { t with Children := t.Children.modify (fun c => modifyAt f c l) i }

/-- The names of the nodes passed on the way down to a location, the root's left out. -/
def namesAlong : File → Loc → Option (List Str)
  | _, [] => some []
  | t, i :: l =>
    match t.Children[i]? with
    | some c => (namesAlong c l).map (fun ns => c.name :: ns)
    | none => none

/-- The absolute path of the node at a location: the names on the parent chain from
the root, joined by slashes; the root is `/`. -/
def pathOf (t : File) (l : Loc) : Option Str :=
  (namesAlong t l).map (fun ns => '/' :: strings.Join ns)

end File

/-! ## `blob.go` -/

/-- The function `NewBlob` of `blob.go`. -/
def NewBlob (parent : URL) (name : Str) (isDir : Bool) : Blob :=
  { parent := parent
    isDir := isDir
    tracked := false
    fileURL := if isDir then NewFileURL parent name else []
    dirURL := if isDir then [] else NewDirectoryURL parent name
    body := [] }

/-- What the remote store answers to a download request. -/
inductive DownloadOutcome where
  | ok (content : List Nat)
  | requestFailed (e : Str)
  | copyFailed (got : List Nat) (e : Str)
  deriving DecidableEq, Repr

/-- The method `Blob.Download` of `blob.go`, against a store `dl`. -/
def Blob.Download (dl : URL → DownloadOutcome) (b : Blob) : Option Str × Blob :=
  if b.isDir then (none, b)
  else
    match dl b.fileURL with
    | .requestFailed e => (some ("file download failed → ".toList ++ e), b)
    | .copyFailed got e => (some ("copy to body failed → ".toList ++ e), { b with body := got })
    | .ok content => (none, { b with body := content })

/-! ## `fs.go` -/

/-- The blob that `main` gives the root directory. -/
def rootBlob : Blob :=
  { body := [], isDir := true, tracked := false, fileURL := [], dirURL := [], parent := [] }

/-- The function `NewTree` of `fs.go`, with the root blob of `main`. -/
def NewTree : File :=
  { name := ['/'], isDir := true, Blob := rootBlob, Children := [] }

/-- The method `File.NewChild`: the receiver after the call and the child made. -/
def NewChild (t : File) (name : Str) (isDir : Bool) : File × File :=
  let blob := NewBlob t.Blob.dirURL name isDir
  let blob :=
    if isDir then { blob with dirURL := NewDirectoryURL t.Blob.dirURL name }
    else { blob with fileURL := NewFileURL t.Blob.dirURL name }
  let child : File := { name := name, isDir := isDir, Blob := blob, Children := [] }
  ({ t with Children := t.Children ++ [child] }, child)

/-- The loop `for _, child := range Children` that stops at the first child called
`name`: its index and the child. -/
def findChild (name : Str) : List File → Option (Nat × File)
  | [] => none
  | c :: cs =>
    if c.name = name then some (0, c)
    else (findChild name cs).map (fun r => (r.1 + 1, r.2))

/-- The function `recurseSearch` of `fs.go`; `none` is the nil pointer. -/
def recurseSearch : File → List Str → Option Ptr
  | t, [] => some ([], t)
  | t, n :: rest =>
    if rest.length = 0 ∧ n = t.name then some ([], t)
    else
      match findChild n t.Children with
      | some (i, child) => (recurseSearch child rest).map (fun r => (i :: r.1, r.2))
      | none => none

/-- The method `File.Search`: the pointer found and the error. -/
def Search (t : File) (full : Str) : Option Ptr × Option Str :=
  let cleaned := path.Clean full
  let parts := (strings.Split cleaned).drop 1
  match recurseSearch t parts with
  | some found => (some found, none)
  | none => (none, some "could not find file".toList)

/-- The method `File.Insert`: the pointer returned, the error, the tree afterwards. -/
def Insert (t : File) (full : Str) (isDir : Bool) : Ptr × Option Str × File :=
  let (parentName, name) := path.Split full
  let found : Option Ptr × Option Str :=
    if parentName = ['/'] then (some ([], t), none) else Search t parentName
  match found with
  | (_, some err) =>
    (([], t),
      some ("could not find parent directory: \"".toList ++ parentName ++ "\" → ".toList ++ err),
      t)
  | (none, none) => (([], t), none, t)
  | (some (ploc, parent), none) =>
    match findChild name parent.Children with
    | some _ => (([], t), some ("file \"".toList ++ full ++ "\" exists".toList), t)
    | none =>
      let f := (NewChild parent name isDir).2
      ((ploc ++ [parent.Children.length], f),
        none,
        t.modifyAt (fun p => (NewChild p name isDir).1) ploc)

/-- The children left when `Delete` cuts the child with index `i` out of the slice. -/
def cut (children : List File) (i : Nat) : List File :=
  let left := children.take i
  if i < children.length - 1 then left ++ children.drop (i + 1) else left

/-- The method `File.Delete`: the error and the tree afterwards. -/
def Delete (t : File) (full : Str) : Option Str × File :=
  let (parentName, name) := path.Split full
  let found : Option Ptr × Option Str :=
    if parentName = ['/'] then (some ([], t), none) else Search t parentName
  match found with
  | (_, some err) =>
    (some ("could not find parent directory: \"".toList ++ parentName ++ "\" - ".toList ++ err), t)
  | (none, none) => (none, t)
  | (some (ploc, parent), none) =>
    match findChild name parent.Children with
    | some (i, _) =>
      (none, t.modifyAt (fun p => { p with Children := cut p.Children i }) ploc)
    | none => (some ("could not find child \"".toList ++ name ++ "\"".toList), t)

/-! ## `util.go` and the remote listing -/

/-- The orders in which `for key := range rCounts` may visit the keys of the map built
from `remote`: every name of `remote` exactly once. -/
def RangeOrder (remote keys : List Str) : Prop :=
  keys.Nodup ∧ (∀ k ∈ keys, k ∈ remote) ∧ (∀ k ∈ remote, k ∈ keys)

instance (remote keys : List Str) : Decidable (RangeOrder remote keys) :=
  inferInstanceAs (Decidable (_ ∧ _ ∧ _))

/-- The function `missingLocally` of `util.go`; `keys` is the order in which the range
over `rCounts` visits its keys. -/
def missingLocally (keys : List Str) («local» remote : List Str) : List Str :=
  keys.filter (fun key => decide (key ∉ «local»))

/-- The closure `isADir` of `Sync`. -/
def isADir (dirs : List Str) (n : Str) : Bool :=
  dirs.any (fun name => decide (name = n))

/-- The method `File.Sync` on a node, for the listing `(files, dirs)` that `Ls`
returned; it always returns the nil error, so only the node afterwards is given. -/
def Sync (t : File) (files dirs keys : List Str) : File :=
  let remotes := files ++ dirs
  let locals := t.Children.map File.name
  let diff := missingLocally keys locals remotes
  diff.foldl (fun t name => (NewChild t name (isADir dirs name)).1) t

/-- The closure `exists` of `LoadChildren`. -/
def «exists» (t : File) (n : Str) : Bool :=
  t.Children.any (fun child => decide (n = child.name))

/-- One of the two loops of `LoadChildren` over the names of a list: the error and the
node afterwards.  The child is in `Children` before its download runs, and the
download writes the body of that child. -/
def loadLoop (dl : URL → DownloadOutcome) (isDir : Bool) (msg : Str) :
    File → List Str → Option Str × File
  | t, [] => (none, t)
  | t, name :: rest =>
    if «exists» t name then loadLoop dl isDir msg t rest
    else
      let (t1, f) := NewChild t name isDir
      let (err, b) := f.Blob.Download dl
      let t2 : File := { t1 with Children := t1.Children.set t.Children.length { f with Blob := b } }
      match err with
      | some e => (some (msg ++ e), t2)
      | none => loadLoop dl isDir msg t2 rest

/-- The method `File.LoadChildren` on a node, for the listing that `Ls` returned. -/
def LoadChildren (dl : URL → DownloadOutcome) (t : File) (files dirs : List Str) :
    Option Str × File :=
  if !t.isDir then (some "is a file, not a dir".toList, t)
  else
    match loadLoop dl false "could not new child file → ".toList t files with
    | (some e, t1) => (some e, t1)
    | (none, t1) => loadLoop dl true "could not new child dir → ".toList t1 dirs

/-! ## `9p.go` -/

/-- The function `lookup` of `9p.go`: the pointer returned, the error, and the tree
after the root sync. -/
def lookup (t : File) (files dirs keys : List Str) (full : Str) : Ptr × Option Str × File :=
  let t1 := Sync t files dirs keys
  let cleaned := path.Clean full
  if cleaned = ['/'] then (([], t1), none, t1)
  else
    match Search t1 cleaned with
    | (none, err) => (([], t1), err, t1)
    | (some f, err) => (f, err, t1)

/-! ## Reachable trees -/

/-- The trees that `NewTree` followed by calls of `Insert` and `Delete` on the root and
of `Sync` and `LoadChildren` on any node produces, for any remote listing, any order
of the range over the listing and any outcome of the downloads. -/
inductive Reachable : File → Prop where
  | newTree : Reachable NewTree
  | insert (t : File) (full : Str) (isDir : Bool) :
      Reachable t → Reachable (Insert t full isDir).2.2
  | delete (t : File) (full : Str) :
      Reachable t → Reachable (Delete t full).2
  | sync (t : File) (l : Loc) (files dirs keys : List Str) :
      Reachable t → RangeOrder (files ++ dirs) keys →
      Reachable (t.modifyAt (fun d => Sync d files dirs keys) l)
  | loadChildren (t : File) (l : Loc) (dl : URL → DownloadOutcome) (files dirs : List Str) :
      Reachable t → Reachable (t.modifyAt (fun d => (LoadChildren dl d files dirs).2) l)

/-- The parent directory of `full` resolves to the pointer `p`, the way `Insert` and
`Delete` resolve it: the root itself when the directory part of `full` is `/`, and
what `Search` finds for the directory part otherwise. -/
def ParentResolves (t : File) (full : Str) (p : Ptr) : Prop :=
  ((path.Split full).1 = ['/'] ∧ p = ([], t)) ∨
    ((path.Split full).1 ≠ ['/'] ∧ Search t (path.Split full).1 = (some p, none))

/-- The tree with the one directory `/a`. -/
def treeA : File := (Insert NewTree ['/', 'a'] true).2.2

/-- The tree with the directory `/a` and the file `/a/a` in it. -/
def treeAA : File := (Insert treeA ['/', 'a', '/', 'a'] false).2.2

/-- The tree with the file `/f` and a file `/f/x` inserted under it. -/
def treeFX : File := (Insert (Insert NewTree ['/', 'f'] false).2.2 ['/', 'f', '/', 'x'] false).2.2

/-- Every node of the tree satisfies `P`. -/
def AllNodes (P : File → Prop) (t : File) : Prop :=
  ∀ l n, t.get? l = some n → P n

/-- The names of the children of the node are pairwise distinct. -/
def DistinctChildren (n : File) : Prop := (n.Children.map File.name).Nodup

/-- Sibling names are unique throughout the tree. -/
def SiblingsDistinct (t : File) : Prop := AllNodes DistinctChildren t

/-- The order that the specification gives the names that `Sync` adds: the names of
`files` that the node lacks, in listing order, then those of `dirs`, in listing order. -/
def listingOrder (lcl files dirs : List Str) : List Str :=
  files.filter (fun n => decide (n ∉ lcl)) ++ dirs.filter (fun n => decide (n ∉ lcl))

/-- The node after a loop of `LoadChildren` has made the child `name` and run its
download: the child is the last of the children, with the blob the download left. -/
def withLoaded (dl : URL → DownloadOutcome) (t : File) (name : Str) (isDir : Bool) : File :=
  { t with
    Children :=
      t.Children ++ [File.mk name isDir ((NewChild t name isDir).2.Blob.Download dl).2 []] }

/-! ## The remote share and the content of a file -/

/-- What one call of `Ls` returns, and the order in which the range over the map of the
names it returned then runs. -/
structure Listing where
  files : List Str
  dirs : List Str
  keys : List Str

/-- The call `srv.File.Sync()`, on the root of the tree. -/
def syncRoot (t : File) (ls : Listing) : File := Sync t ls.files ls.dirs ls.keys

/-- A request that reaches the remote share. -/
inductive Call where
  | createDir (u : URL)
  | createFile (u : URL) (size : Nat)
  | uploadRange (u : URL) (data : List Nat)
  | deleteDir (u : URL)
  | deleteFile (u : URL)
  deriving DecidableEq, Repr

/-- The errors with which the share answers the requests of one `Upload`, the one to
`Create` and the one to `UploadRange`; `none` is success. -/
structure UploadAnswer where
  create : Option Str
  range : Option Str

namespace io

/-- Go `io.EOF`. -/
def EOF : Str := "EOF".toList

end io

/-- The method `Blob.Contents` of `blob.go`. -/
def Blob.Contents (b : Blob) : List Nat := b.body

/-- The method `Blob.Upload` of `blob.go`: the error and the requests made. -/
def Blob.Upload (ans : UploadAnswer) (b : Blob) : Option Str × List Call :=
  let size := b.body.length
  if size < 1 ∧ b.isDir = false then (none, [])
  else if b.isDir then (ans.create, [Call.createDir b.dirURL])
  else
    match ans.create with
    | some e => (some e, [Call.createFile b.fileURL size])
    | none => (ans.range, [Call.createFile b.fileURL size, Call.uploadRange b.fileURL b.body])

/-- The method `Blob.Delete` of `blob.go`, `ans` being the answer of the share: the
error and the requests made. -/
def Blob.Delete (ans : Option Str) (b : Blob) : Option Str × List Call :=
  if b.isDir then (ans, [Call.deleteDir b.dirURL])
  else if b.body.length < 1 then (none, [])
  else (ans, [Call.deleteFile b.fileURL])

/-- The tree with the blob of the node at `l` replaced. -/
def setBlob (t : File) (l : Loc) (b : Blob) : File :=
  t.modifyAt (fun f => { f with Blob := b }) l

/-- What `WriteAt` returns, with the tree afterwards and the requests made. -/
structure Written where
  n : Nat
  err : Option Str
  tree : File
  calls : List Call

/-- The method `File.WriteAt` of the node at `l`; `none` is a panic.

`cap` is the capacity of the array under the `bytes.Buffer` of the blob when the call
starts.  `buf := f.Blob.Contents()` is a slice of that array.  `Truncate` shortens the
buffer and leaves the array alone; `Write` puts `p` after the bytes kept, into the same
array when `p` fits in its capacity and into a new array otherwise.  When the upload
fails, `buf` is written back: it then holds what the array under it holds at that
moment, which is `bufNow`. -/
def WriteAt (t : File) (l : Loc) (ls : Listing) (cap : Nat) (ans : UploadAnswer)
    (p : List Nat) (off : Int) : Option Written :=
  let t1 := syncRoot t ls
  match t1.get? l with
  | none => none
  | some f =>
    let b0 : Blob := { f.Blob with tracked := true }
    let buf := b0.Contents
    if off > (buf.length : Int) then some ⟨0, some io.EOF, setBlob t1 l b0, []⟩
    else if off < 0 then none
    else
      let kept := if off < (buf.length : Int) then buf.take off.toNat else buf
      let inPlace : Bool := decide (kept.length + p.length ≤ cap)
      let b1 : Blob := { b0 with body := kept ++ p }
      match Blob.Upload ans b1 with
      | (none, calls) => some ⟨p.length, none, setBlob t1 l b1, calls⟩
      | (some e, calls) =>
        let bufNow :=
          if inPlace then
            (buf.take off.toNat ++ p ++ buf.drop (off.toNat + p.length)).take buf.length
          else buf
        some ⟨0, some e, setBlob t1 l { b1 with body := bufNow }, calls⟩

/-- The method `File.IsDir` of the node at `l`: what it returns and the tree after its
root sync. -/
def IsDir (t : File) (l : Loc) (ls : Listing) : Option (Bool × File) :=
  match t.get? l with
  | none => none
  | some f => some (f.isDir, syncRoot t ls)

/-- The method `File.Size` of the node at `l`: what it returns and the tree afterwards.
The receiver is a copy of the node made when the call starts; the blob is reached
through its pointer. -/
def Size (t : File) (l : Loc) (ls₁ ls₂ : Listing) : Option (Int × File) :=
  match t.get? l with
  | none => none
  | some f =>
    let t1 := syncRoot t ls₁
    let t2 := t1.modifyAt (fun g => { g with Blob := { g.Blob with tracked := true } }) l
    let t3 := syncRoot t2 ls₂
    if f.isDir then some ((f.Children.length : Int), t3)
    else some ((f.Blob.Contents.length : Int), t3)

/-- What `ReadAt` returns: the count, the error and the bytes copied into `p`, with the
tree afterwards. -/
structure ReadResult where
  n : Nat
  err : Option Str
  data : List Nat
  tree : File

/-- The method `File.ReadAt` of the node at `l`, for a destination `p` of length `plen`;
`none` is a panic.  The error of the download is dropped, as in the source. -/
def ReadAt (t : File) (l : Loc) (ls₀ ls₁ ls₂ : Listing) (dl : URL → DownloadOutcome)
    (plen : Nat) (offset : Int) : Option ReadResult :=
  let t1 := syncRoot t ls₀
  match t1.get? l with
  | none => none
  | some f =>
    let b1 := (Blob.Download dl { f.Blob with tracked := true }).2
    let t2 := setBlob t1 l b1
    match Size t2 l ls₁ ls₂ with
    | none => none
    | some (size, t3) =>
      if offset ≥ size then some ⟨0, some io.EOF, [], t3⟩
      else if offset < 0 then none
      else
        let buf := b1.Contents
        let data := (buf.drop offset.toNat).take plen
        some ⟨data.length, none, data, t3⟩

/-- A remote share that keeps what is uploaded: the content of each file that is there. -/
abbrev Share := URL → Option (List Nat)

/-- The share after a request. -/
def Share.apply (s : Share) : Call → Share
  | Call.createFile u size => fun v => if v = u then some (List.replicate size 0) else s v
  | Call.uploadRange u data =>
    fun v => if v = u then some (data ++ ((s u).getD []).drop data.length) else s v
  | Call.deleteFile u => fun v => if v = u then none else s v
  | Call.createDir _ => s
  | Call.deleteDir _ => s

/-- The share after a sequence of requests. -/
def Share.run (s : Share) (calls : List Call) : Share := calls.foldl Share.apply s

/-- The answers of the share to download requests: the whole content of the file. -/
def Share.dl (s : Share) : URL → DownloadOutcome := fun u =>
  match s u with
  | some content => DownloadOutcome.ok content
  | none => DownloadOutcome.requestFailed "ResourceNotFound".toList

/-- A listing that reports nothing. -/
def noListing : Listing := ⟨[], [], []⟩

/-- The bytes of `hello`. -/
def hello : List Nat := [104, 101, 108, 108, 111]

/-- The bytes of `XY`. -/
def XY : List Nat := [88, 89]

/-- The tree with the one empty file `/f`. -/
def treeF : File := (Insert NewTree ['/', 'f'] false).2.2

/-- The tree with the one file `/f`, its cached content `hello`. -/
def treeHello : File :=
  setBlob treeF [0] { (NewChild NewTree ['f'] false).2.Blob with body := hello }

/-- What `WriteAt` of `hello` at offset 0 of the empty file `/f` returns when the share
accepts the upload. -/
def wroteHello : Written :=
  ⟨5, none,
    setBlob treeF [0]
      { (NewChild NewTree ['f'] false).2.Blob with tracked := true, body := hello },
    [Call.createFile [['f']] 5, Call.uploadRange [['f']] hello]⟩

/-! ## Listing a directory -/

/-- The constant `infoBuf` of `fs.go`: the size of the buffer of the channel `info`. -/
def infoBuf : Nat := 10

/-- The channel `info` of a directory together with the goroutines that send on it.
`queue` holds the entries sent and not yet received, `closed` tells whether the channel
has been closed.  While the channel is open, `i` is the loop variable of the goroutine
that the call of `reloadInfo` which made the channel has started.  The closure of that
goroutine reads the field `f.info` at each send and at the close, so a goroutine of an
earlier call of `reloadInfo` that still runs sends on this channel too: `others` holds
the loop variables of those, and of every goroutine that runs while the channel is
closed. -/
structure Info where
  i : Nat
  queue : List File
  closed : Bool
  others : List Nat

/-- The channel that `reloadInfo` makes when no earlier goroutine runs, before its own
goroutine has run. -/
def Info.fresh : Info := ⟨0, [], false, []⟩

/-- One step of one of the goroutines, for a directory whose children are `cs`: it
sends the child at its loop variable when the buffer has room, and closes the channel
when its loop is over.  A send on a closed channel and the close of a closed channel
panic and end the process: the relation has no step for them. -/
inductive Feed (cs : List File) : Info → Info → Prop where
  | send (ch : Info) (c : File) :
      ch.closed = false → cs[ch.i]? = some c → ch.queue.length < infoBuf →
      Feed cs ch ⟨ch.i + 1, ch.queue ++ [c], false, ch.others⟩
  | close (ch : Info) :
      ch.closed = false → cs.length ≤ ch.i → Feed cs ch ⟨ch.i, ch.queue, true, ch.others⟩
  | sendOther (ch : Info) (j k : Nat) (c : File) :
      ch.closed = false → ch.others[j]? = some k → cs[k]? = some c →
      ch.queue.length < infoBuf →
      Feed cs ch ⟨ch.i, ch.queue ++ [c], false, ch.others.set j (k + 1)⟩
  | closeOther (ch : Info) (j k : Nat) :
      ch.closed = false → ch.others[j]? = some k → cs.length ≤ k →
      Feed cs ch ⟨ch.i, ch.queue, true, ch.others.eraseIdx j ++ [ch.i]⟩

/-- Any number of steps of the goroutine. -/
inductive Feeds (cs : List File) : Info → Info → Prop where
  | refl (ch : Info) : Feeds cs ch ch
  | step (ch ch' ch'' : Info) : Feed cs ch ch' → Feeds cs ch' ch'' → Feeds cs ch ch''

/-- The receive `s, ok := <-f.info` at a moment when it does not block: it takes the
first entry of the buffer, or finds the channel closed and empty (`none` is
`ok = false`). -/
inductive Take : Info → Option File → Info → Prop where
  | item (ch : Info) (c : File) (q : List File) :
      ch.queue = c :: q → Take ch (some c) ⟨ch.i, q, ch.closed, ch.others⟩
  | closed (ch : Info) : ch.queue = [] → ch.closed = true → Take ch none ch

/-- The loop `for i := 0; i < n; i++` of `Readdir` with `n` turns to go, the goroutine
running in between as it likes: the entries appended to `fi`, the error, and the
channel afterwards. -/
inductive Drain (cs : List File) : Nat → Info → List File → Option Str → Info → Prop where
  | done (ch : Info) : Drain cs 0 ch [] none ch
  | recv (n : Nat) (ch ch₁ ch₂ ch₃ : Info) (c : File) (fi : List File) (err : Option Str) :
      Feeds cs ch ch₁ → Take ch₁ (some c) ch₂ → Drain cs n ch₂ fi err ch₃ →
      Drain cs (n + 1) ch (c :: fi) err ch₃
  | eof (n : Nat) (ch ch₁ ch₂ : Info) :
      Feeds cs ch ch₁ → Take ch₁ none ch₂ → Drain cs (n + 1) ch [] (some io.EOF) ch₂

/-- What `Readdir` returns, with the channel and the tree afterwards. -/
structure Listed where
  fi : List File
  err : Option Str
  info : Option Info
  tree : File

/-- The method `File.Readdir` of the node at `l`; `info` is the field `info` of the node
(`none` is the nil channel).  `ls` is the listing of the root sync of `Readdir`, `ls'`
that of the root sync that `reloadInfo` runs through `f.Name()`. -/
inductive Readdir (t : File) (l : Loc) (ls ls' : Listing) (info : Option Info) (n : Int) :
    Listed → Prop where
  | empty (f : File) :
      (syncRoot t ls).get? l = some f → f.Children = [] →
      Readdir t l ls ls' info n ⟨[], some io.EOF, info, syncRoot t ls⟩
  | drain (f : File) (ch ch' : Info) (fi : List File) (err : Option Str) :
      (syncRoot t ls).get? l = some f → f.Children ≠ [] → info = some ch →
      Drain f.Children n.toNat ch fi err ch' →
      Readdir t l ls ls' info n ⟨fi, err, some ch', syncRoot t ls⟩
  | reload (f f' : File) (ch' : Info) (fi : List File) (err : Option Str) :
      (syncRoot t ls).get? l = some f → f.Children ≠ [] → info = none →
      (syncRoot (syncRoot t ls) ls').get? l = some f' →
      Drain f'.Children n.toNat Info.fresh fi err ch' →
      Readdir t l ls ls' info n ⟨fi, err, some ch', syncRoot (syncRoot t ls) ls'⟩

/-- Successive calls of `Readdir(n)` on the node at `l`, one for each pair of listings:
what they return, in order, and the tree and the channel after the last. -/
inductive ReaddirCalls (l : Loc) (n : Int) :
    File → Option Info → List (Listing × Listing) → List (List File × Option Str) →
    File → Option Info → Prop where
  | nil (t : File) (info : Option Info) : ReaddirCalls l n t info [] [] t info
  | cons (t : File) (info : Option Info) (lsp : Listing × Listing)
      (rest : List (Listing × Listing)) (r : Listed) (rs : List (List File × Option Str))
      (t' : File) (info' : Option Info) :
      Readdir t l lsp.1 lsp.2 info n r → ReaddirCalls l n r.tree r.info rest rs t' info' →
      ReaddirCalls l n t info (lsp :: rest) ((r.fi, r.err) :: rs) t' info'

/-- The loop variables of the goroutines that run. -/
def Info.running (ch : Info) : List Nat :=
  (if ch.closed then [] else [ch.i]) ++ ch.others

/-- The assignment and the `go` statement of `reloadInfo`, for a directory whose
children are `cs` and whose field `info` is `info`: a new channel, and a new goroutine
with loop variable 0.  A goroutine that runs goes on with the new channel, which is
what it finds in `f.info` at its next step.  The one exception is a goroutine that is
blocked in a send on the former channel; there it stays, as nothing receives from that
channel any more.  A goroutine can be blocked only when the former channel is open, its
buffer is full and the loop of the goroutine is not over; `keep` holds the loop
variables of the goroutines that go on. -/
inductive reloadInfo (cs : List File) : Option Info → Info → Prop where
  | first : reloadInfo cs none Info.fresh
  | again (ch : Info) (keep : List Nat) :
      keep.Sublist ch.running →
      (ch.running.filter
        (fun k => decide (ch.closed = true ∨ ch.queue.length < infoBuf ∨ cs.length ≤ k))).Sublist
        keep →
      reloadInfo cs (some ch) ⟨0, [], false, keep⟩

/-- What `Close` leaves: the field `info` and the tree. -/
structure Closed where
  info : Option Info
  tree : File

/-- The method `File.Close` of the node at `l`; `info` is its field `info`.  `ls` is the
listing of the root sync of `IsDir`, `ls'` that of the root sync that `reloadInfo` runs
through `f.Name()`. -/
inductive Close (t : File) (l : Loc) (ls ls' : Listing) (info : Option Info) :
    Closed → Prop where
  | file (f : File) :
      t.get? l = some f → f.isDir = false →
      Close t l ls ls' info
        ⟨info,
          (syncRoot t ls).modifyAt (fun g => { g with Blob := { g.Blob with tracked := true } })
            l⟩
  | dir (f f' : File) (ch' : Info) :
      t.get? l = some f → f.isDir = true →
      (syncRoot (syncRoot t ls) ls').get? l = some f' → reloadInfo f'.Children info ch' →
      Close t l ls ls' info
        ⟨some ch',
          (syncRoot (syncRoot t ls) ls').modifyAt
            (fun g => { g with Blob := { g.Blob with tracked := true } }) l⟩

/-- The listing names nothing that the root lacks: `missingLocally` finds no name, and
the root sync adds no child. -/
def Listing.quiet (t : File) (ls : Listing) : Prop :=
  missingLocally ls.keys (t.Children.map File.name) (ls.files ++ ls.dirs) = []

instance (t : File) (ls : Listing) : Decidable (ls.quiet t) :=
  inferInstanceAs (Decidable (_ = _))

/-- The listings of a run of calls, two for each call. -/
def listingsOf (lss : List (Listing × Listing)) : List Listing :=
  lss.flatMap (fun lsp => [lsp.1, lsp.2])

/-- The directory at `l` has the children `cs`, and when it is the root, the listings
in `Q` add nothing to it. -/
def Stable (l : Loc) (cs : List File) (Q : Listing → Prop) (t : File) : Prop :=
  ∃ d, t.get? l = some d ∧ d.Children = cs ∧ d.isDir = true ∧
    (l = [] → ∀ ls, Q ls → ls.quiet t)

/-- The entries that a channel will still hand out, for a directory whose children
are `cs`, while no earlier goroutine runs. -/
def Info.pending (cs : List File) (ch : Info) : List File :=
  ch.queue ++ (if ch.closed then [] else cs.drop ch.i)

/-- The entries that the field `info` of a directory with children `cs` will still hand
out: all the children when the channel is still to be made. -/
def pendingOf (cs : List File) : Option Info → List File
  | none => cs
  | some ch => Info.pending cs ch

/-- Batch number `j` of a drain of `q` in batches of `n`: the entries and the error. -/
def batch (q : List File) (n j : Nat) : List File × Option Str :=
  ((q.drop (j * n)).take n, if (q.drop (j * n)).length < n then some io.EOF else none)

/-- The first `m` batches of a drain of `q` in batches of `n`. -/
def batches (q : List File) (n m : Nat) : List (List File × Option Str) :=
  (List.range m).map (batch q n)

/-- The tree with the directory `/d`, five files in it, and the empty directory `/e`. -/
def treeD5 : File :=
  (Insert (Insert (Insert (Insert (Insert (Insert (Insert NewTree ['/', 'd'] true).2.2
    ['/', 'd', '/', '1'] false).2.2 ['/', 'd', '/', '2'] false).2.2
    ['/', 'd', '/', '3'] false).2.2 ['/', 'd', '/', '4'] false).2.2
    ['/', 'd', '/', '5'] false).2.2 ['/', 'e'] true).2.2

/-- The directory `/d` of `treeD5`. -/
def dirD5 : File := (treeD5.get? [0]).getD NewTree

/-- The directory `/e` of `treeD5`. -/
def dirE : File := (treeD5.get? [1]).getD NewTree

/-- Four pairs of listings that report nothing. -/
def fourQuiet : List (Listing × Listing) :=
  [(noListing, noListing), (noListing, noListing), (noListing, noListing),
    (noListing, noListing)]

/-! ## The requests of a session -/

/-- A request of a session, with the path it carries; `Tcreate` also carries the name
of the file to make. -/
inductive Request where
  | Twalk (path : Str)
  | Topen (path : Str)
  | Tstat (path : Str)
  | Tcreate (path : Str) (Name : Str)
  | Tremove (path : Str)
  | Ttruncate (path : Str)
  | Tutimes (path : Str)

/-- A call that answers a request. -/
inductive Response where
  | Rerror (msg : Str)
  | Rwalk (f : Ptr) (err : Option Str)
  | Ropen (f : Ptr) (err : Option Str)
  | Rstat (f : Ptr) (err : Option Str)
  | Rcreate (f : Ptr) (err : Option Str)
  | Rremove (err : Option Str)
  | Rutimes (err : Option Str)

/-- What the share answers while one request is handled: `ls k` to call number `k` of
`Ls`, `dl` to the downloads, `up` to the upload, `del` to the delete. -/
structure Remote where
  ls : Nat → Listing
  dl : URL → DownloadOutcome
  up : UploadAnswer
  del : Option Str

/-- What handling a request does: the response calls in order, the tree afterwards, the
requests made to the share by the upload or the delete. -/
structure Handled where
  responses : List Response
  tree : File
  calls : List Call

/-- The call `lookup(*srv, full)` with the listing of its root sync. -/
def lookupIn (t : File) (ls : Listing) (full : Str) : Ptr × Option Str × File :=
  lookup t ls.files ls.dirs ls.keys full

/-- The body of the loop of `Serve9P` for one request. -/
def Serve9P (t : File) (rem : Remote) : Request → Handled
  | Request.Twalk p =>
    let file := path.Clean p
    let (f, err, t1) := lookupIn t (rem.ls 0) file
    let first : List Response :=
      match err with
      | some e => [Response.Rerror ("tree walk failed → ".toList ++ e)]
      | none => []
    let t2 := syncRoot t1 (rem.ls 1)
    if f.2.isDir then
      match t2.get? f.1 with
      | some d =>
        let loaded := LoadChildren rem.dl d (rem.ls 2).files (rem.ls 2).dirs
        ⟨first ++ [Response.Rwalk (f.1, loaded.2) loaded.1],
          t2.modifyAt (fun _ => loaded.2) f.1, []⟩
      | none => ⟨first ++ [Response.Rwalk f err], t2, []⟩
    else ⟨first ++ [Response.Rwalk f err], t2, []⟩
  | Request.Topen p =>
    let (f, err, t1) := lookupIn t (rem.ls 0) (path.Clean p)
    ⟨[Response.Ropen f err], t1, []⟩
  | Request.Tstat p =>
    let (f, err, t1) := lookupIn t (rem.ls 0) (path.Clean p)
    ⟨[Response.Rstat f err], t1, []⟩
  | Request.Tcreate p name =>
    let full := path.Clean p ++ name
    let (f, err, t1) := Insert t full false
    match err with
    | some e => ⟨[Response.Rerror ("tree insert failed ".toList ++ e)], t1, []⟩
    | none =>
      match Blob.Upload rem.up f.2.Blob with
      | (some e, calls) => ⟨[Response.Rerror ("azure upload failed ".toList ++ e)], t1, calls⟩
      | (none, calls) => ⟨[Response.Rcreate f none], t1, calls⟩
  | Request.Tremove p =>
    let (f, _, t1) := lookupIn t (rem.ls 0) p
    let (derr, calls) := Blob.Delete rem.del f.2.Blob
    let first : List Response :=
      match derr with
      | some e => [Response.Rerror ("azure delete failed ".toList ++ e)]
      | none => []
    let (err, t2) := Delete t1 p
    ⟨first ++ [Response.Rremove err], t2, calls⟩
  | Request.Ttruncate _ => ⟨[], t, []⟩
  | Request.Tutimes _ => ⟨[Response.Rutimes none], t, []⟩

/-- A share that answers every request with success and reports nothing. -/
def quietRemote : Remote :=
  ⟨fun _ => noListing, fun _ => DownloadOutcome.ok [], ⟨none, none⟩, none⟩

/-- A share that refuses the delete and reports nothing. -/
def refusingRemote : Remote :=
  ⟨fun _ => noListing, fun _ => DownloadOutcome.ok [], ⟨none, none⟩, some ['n', 'o']⟩

/-! ## Two calls of `Insert` on the same tree -/

/-- Where a call of `Insert` stands: it has not run yet; it has left the loop over the
children of the parent at `ploc` without meeting the name, and `NewChild` comes next;
or it has returned. -/
inductive InsertCall where
  | entered
  | checked (ploc : Loc)
  | returned (f : Ptr) (err : Option Str)

/-- The method `File.Insert` from its first line to the end of the loop over the
children of the parent. -/
def Insert.check (t : File) (full : Str) : InsertCall :=
  let (parentName, name) := path.Split full
  let found : Option Ptr × Option Str :=
    if parentName = ['/'] then (some ([], t), none) else Search t parentName
  match found with
  | (_, some err) =>
    .returned ([], t)
      (some ("could not find parent directory: \"".toList ++ parentName ++ "\" → ".toList ++ err))
  | (none, none) => .returned ([], t) none
  | (some (ploc, parent), none) =>
    match findChild name parent.Children with
    | some _ => .returned ([], t) (some ("file \"".toList ++ full ++ "\" exists".toList))
    | none => .checked ploc

/-- The next part of a call of `Insert(full, isDir)` on the tree as it is at that
moment: the part up to the end of the loop, then `parent.NewChild` and the return.  The
parent is the node that the call holds a pointer to; a call of `Insert` leaves it at its
location. -/
def InsertCall.step (t : File) (full : Str) (isDir : Bool) : InsertCall → InsertCall × File
  | .entered => (Insert.check t full, t)
  | .checked ploc =>
    match t.get? ploc with
    | some parent =>
      (.returned (ploc ++ [parent.Children.length], (NewChild parent (path.Split full).2 isDir).2)
          none,
        t.modifyAt (fun p => (NewChild p (path.Split full).2 isDir).1) ploc)
    | none => (.checked ploc, t)
  | .returned f err => (.returned f err, t)

/-- What a call has returned: the location and the name of the node, and the error. -/
def InsertCall.result : InsertCall → Option (Loc × Str × Option Str)
  | .returned f err => some (f.1, f.2.name, err)
  | _ => none

/-- Two calls `Insert(full, ka)` and `Insert(full, kb)` on the tree they share. -/
structure TwoCalls where
  tree : File
  a : InsertCall
  b : InsertCall

/-- The call that runs its next part. -/
inductive Turn where
  | A
  | B
  deriving DecidableEq, Repr

/-- One part of one of the two calls. -/
def TwoCalls.step (full : Str) (ka kb : Bool) (s : TwoCalls) : Turn → TwoCalls
  | .A => ⟨(s.a.step s.tree full ka).2, (s.a.step s.tree full ka).1, s.b⟩
  | .B => ⟨(s.b.step s.tree full kb).2, s.a, (s.b.step s.tree full kb).1⟩

/-- The two calls, their parts taking turns as the schedule says. -/
def TwoCalls.run (full : Str) (ka kb : Bool) (s : TwoCalls) (schedule : List Turn) : TwoCalls :=
  schedule.foldl (TwoCalls.step full ka kb) s

/-- The two calls before either has run. -/
def TwoCalls.start (t : File) : TwoCalls := ⟨t, .entered, .entered⟩

/-! ## Calls that end the process -/

/-- How a call ends: it returns to its caller, the process exits with a status (as
after `log.Fatal`), or the call panics. -/
inductive Ends (α : Type) where
  | returns (a : α)
  | exits (status : Nat)
  | panics

/-- What follows a call happens only when the call has returned. -/
def Ends.bind {α β : Type} : Ends α → (α → Ends β) → Ends β
  | .returns a, f => f a
  | .exits s, _ => .exits s
  | .panics, _ => .panics

/-- A result `none` of the functions above is a panic. -/
def Ends.ofOption {α : Type} : Option α → Ends α
  | some a => .returns a
  | none => .panics

/-- What the share answers to the listing requests that one call of `Ls` makes: the
segments of the listing, or an error for one of them. -/
inductive LsAnswer where
  | ok (ls : Listing)
  | failed (err : Str)

/-- The function `Ls` of `blob.go`: an error of `ListFilesAndDirectoriesSegment` goes
to `log.Fatal`, which prints it and calls `os.Exit(1)`. -/
def Ls : LsAnswer → Ends Listing
  | .ok ls => .returns ls
  | .failed _ => .exits 1

/-- The method `File.Sync` on the root, from its call of `Ls` on. -/
def SyncEnds (t : File) (a : LsAnswer) : Ends File :=
  (Ls a).bind fun ls => .returns (syncRoot t ls)

/-- The method `File.LoadChildren`, from its first line on: `Ls` is called for a
directory only. -/
def LoadChildrenEnds (dl : URL → DownloadOutcome) (t : File) (a : LsAnswer) :
    Ends (Option Str × File) :=
  if !t.isDir then .returns (some "is a file, not a dir".toList, t)
  else (Ls a).bind fun ls => .returns (LoadChildren dl t ls.files ls.dirs)

/-- The function `lookup` of `9p.go`, with the `Ls` of its root sync. -/
def lookupEnds (t : File) (a : LsAnswer) (full : Str) : Ends (Ptr × Option Str × File) :=
  (Ls a).bind fun ls => .returns (lookupIn t ls full)

/-- The method `File.WriteAt`, with the `Ls` of its root sync. -/
def WriteAtEnds (t : File) (l : Loc) (a : LsAnswer) (cap : Nat) (ans : UploadAnswer)
    (p : List Nat) (off : Int) : Ends Written :=
  (Ls a).bind fun ls => Ends.ofOption (WriteAt t l ls cap ans p off)

/-- The method `File.ReadAt`, with the `Ls` of its own root sync and of the two root
syncs of `Size`. -/
def ReadAtEnds (t : File) (l : Loc) (a₀ a₁ a₂ : LsAnswer) (dl : URL → DownloadOutcome)
    (plen : Nat) (offset : Int) : Ends ReadResult :=
  (Ls a₀).bind fun ls₀ =>
    (Ls a₁).bind fun ls₁ =>
      (Ls a₂).bind fun ls₂ => Ends.ofOption (ReadAt t l ls₀ ls₁ ls₂ dl plen offset)

/-- The method `File.Readdir`, with the `Ls` of its root sync (`a`) and, when the
channel is reloaded, the `Ls` of the root sync in `reloadInfo` (`a'`). -/
inductive ReaddirEnds (t : File) (l : Loc) (a a' : LsAnswer) (info : Option Info) (n : Int) :
    Ends Listed → Prop where
  | syncExits (s : Nat) : Ls a = .exits s → ReaddirEnds t l a a' info n (.exits s)
  | reloadExits (ls : Listing) (f : File) (s : Nat) :
      Ls a = .returns ls → (syncRoot t ls).get? l = some f → f.Children ≠ [] → info = none →
      Ls a' = .exits s → ReaddirEnds t l a a' info n (.exits s)
  | returned (ls ls' : Listing) (r : Listed) :
      Ls a = .returns ls →
      (∀ f, (syncRoot t ls).get? l = some f → f.Children ≠ [] → info = none →
        Ls a' = .returns ls') →
      Readdir t l ls ls' info n r → ReaddirEnds t l a a' info n (.returns r)

/-- The remote store `rem` with the listings that three calls of `Ls` returned. -/
def Remote.withLs (rem : Remote) (l₀ l₁ l₂ : Listing) : Remote :=
  { rem with ls := fun k => if k = 0 then l₀ else if k = 1 then l₁ else l₂ }

/-- One turn of the loop of `Serve9P`, with the calls of `Ls` that the handler of the
request makes: `lookup`, then for a walk `IsDir` and, on a directory, `LoadChildren`.
The handlers of create, truncate and utimes call no `Ls`. -/
def Serve9PEnds (t : File) (a : Nat → LsAnswer) (rem : Remote) : Request → Ends Handled
  | Request.Twalk p =>
    (Ls (a 0)).bind fun l₀ =>
      (Ls (a 1)).bind fun l₁ =>
        if (lookupIn t l₀ (path.Clean p)).1.2.isDir then
          (Ls (a 2)).bind fun l₂ =>
            .returns (Serve9P t (rem.withLs l₀ l₁ l₂) (Request.Twalk p))
        else .returns (Serve9P t (rem.withLs l₀ l₁ noListing) (Request.Twalk p))
  | Request.Topen p =>
    (Ls (a 0)).bind fun l₀ =>
      .returns (Serve9P t (rem.withLs l₀ noListing noListing) (Request.Topen p))
  | Request.Tstat p =>
    (Ls (a 0)).bind fun l₀ =>
      .returns (Serve9P t (rem.withLs l₀ noListing noListing) (Request.Tstat p))
  | Request.Tremove p =>
    (Ls (a 0)).bind fun l₀ =>
      .returns (Serve9P t (rem.withLs l₀ noListing noListing) (Request.Tremove p))
  | Request.Tcreate p name => .returns (Serve9P t rem (Request.Tcreate p name))
  | Request.Ttruncate p => .returns (Serve9P t rem (Request.Ttruncate p))
  | Request.Tutimes p => .returns (Serve9P t rem (Request.Tutimes p))

/-- The file `/f` of `treeF`. -/
def fileF : File := (treeF.get? [0]).getD NewTree

/-- An error of the share. -/
def noSuchHost : Str := "no such host".toList

/-- A share that answers every listing with an error. -/
def noHost : Nat → LsAnswer := fun _ => LsAnswer.failed noSuchHost

/-- A listing of the root of `treeD5` that names its two directories. -/
def rootListing : Listing := ⟨[], [['d'], ['e']], [['e'], ['d']]⟩

/-- Three calls, each with a root sync that finds the two directories of `treeD5`. -/
def threeCalls : List (Listing × Listing) := List.replicate 3 (rootListing, rootListing)

/-! ## Lemmas on locations -/

namespace File

theorem get?_nil (t : File) : t.get? [] = some t := rfl

theorem get?_cons (t : File) (i : Nat) (l : Loc) :
    t.get? (i :: l) = (t.Children[i]?).bind (fun c => c.get? l) := by
  rw [get?]
  cases t.Children[i]? <;> rfl

theorem get?_append (t : File) (l₁ l₂ : Loc) :
    t.get? (l₁ ++ l₂) = (t.get? l₁).bind (fun n => n.get? l₂) := by
  induction l₁ generalizing t with
  | nil => simp [get?_nil]
  | cons i l ih =>
    simp only [List.cons_append, get?_cons]
    cases t.Children[i]? with
    | none => rfl
    | some c => simpa using ih c

theorem modifyAt_nil (f : File → File) (t : File) : modifyAt f t [] = f t := rfl

theorem modifyAt_cons (f : File → File) (t : File) (i : Nat) (l : Loc) :
    modifyAt f t (i :: l) =
      { t with Children := t.Children.modify (fun c => modifyAt f c l) i } := rfl

/-- A location that holds no node is left alone by `modifyAt`. -/
theorem modifyAt_of_get?_none (f : File → File) (t : File) (l : Loc)
    (h : t.get? l = none) : modifyAt f t l = t := by
  induction l generalizing t with
  | nil => simp [get?_nil] at h
  | cons i l ih =>
    rw [modifyAt_cons]
    rw [get?_cons] at h
    cases hc : t.Children[i]? with
    | none =>
      have hlen : t.Children.length ≤ i := by
        simpa [List.getElem?_eq_none_iff] using hc
      have : t.Children.modify (fun c => modifyAt f c l) i = t.Children := by
        apply List.ext_getElem?
        intro j
        rw [List.getElem?_modify]
        by_cases hij : i = j
        · subst hij; simp [hc]
        · simp [hij]
      rw [this]; cases t; rfl
    | some c =>
      rw [hc] at h
      have hcl : c.get? l = none := by simpa using h
      have : t.Children.modify (fun c => modifyAt f c l) i = t.Children := by
        apply List.ext_getElem?
        intro j
        rw [List.getElem?_modify]
        by_cases hij : i = j
        · subst hij; simp [hc, ih c hcl]
        · simp [hij]
      rw [this]; cases t; rfl

/-- The node at the modified location is `f` of the node that was there. -/
theorem get?_modifyAt_self (f : File → File) (t : File) (l : Loc) :
    (modifyAt f t l).get? l = (t.get? l).map f := by
  induction l generalizing t with
  | nil => rfl
  | cons i l ih =>
    rw [modifyAt_cons, get?_cons, get?_cons]
    simp only [List.getElem?_modify, if_true]
    cases t.Children[i]? with
    | none => rfl
    | some c => simpa using ih c

/-- Locations that are neither above nor below the modified one keep their node. -/
theorem get?_modifyAt_of_not_prefix (f : File → File) (t : File) (l l' : Loc)
    (h₁ : ¬ l <+: l') (h₂ : ¬ l' <+: l) :
    (modifyAt f t l).get? l' = t.get? l' := by
  induction l generalizing t l' with
  | nil => exact absurd (List.nil_prefix) h₁
  | cons i l ih =>
    cases l' with
    | nil => exact absurd (List.nil_prefix) h₂
    | cons j l' =>
      rw [modifyAt_cons, get?_cons, get?_cons]
      simp only [List.getElem?_modify]
      by_cases hij : i = j
      · subst hij
        have h₁' : ¬ l <+: l' := fun h => h₁ ((List.prefix_cons_inj i).2 h)
        have h₂' : ¬ l' <+: l := fun h => h₂ ((List.prefix_cons_inj i).2 h)
        simp only [if_true]
        cases t.Children[i]? with
        | none => rfl
        | some c => simpa using ih c l' h₁' h₂'
      · simp [hij]

/-- The node above a modified location keeps its own fields. -/
theorem modifyAt_cons_name (f : File → File) (t : File) (i : Nat) (l : Loc) :
    (modifyAt f t (i :: l)).name = t.name ∧ (modifyAt f t (i :: l)).isDir = t.isDir ∧
      (modifyAt f t (i :: l)).Blob = t.Blob := ⟨rfl, rfl, rfl⟩

end File

/-! ## Lemmas on the search -/

theorem findChild_eq_none {name : Str} {cs : List File} :
    findChild name cs = none ↔ ∀ c ∈ cs, c.name ≠ name := by
  induction cs with
  | nil => simp [findChild]
  | cons c cs ih =>
    by_cases h : c.name = name
    · simp [findChild, h]
    · simp [findChild, h, ih]

theorem findChild_eq_some {name : Str} {cs : List File} {i : Nat} {c : File}
    (h : findChild name cs = some (i, c)) :
    cs[i]? = some c ∧ c.name = name ∧ ∀ j, j < i → ∀ c', cs[j]? = some c' → c'.name ≠ name := by
  induction cs generalizing i with
  | nil => simp [findChild] at h
  | cons d ds ih =>
    by_cases hd : d.name = name
    · simp only [findChild, hd, if_true, Option.some.injEq, Prod.mk.injEq] at h
      obtain ⟨rfl, rfl⟩ := h
      exact ⟨by simp, hd, fun j hj => absurd hj (Nat.not_lt_zero j)⟩
    · simp only [findChild, hd, if_false, Option.map_eq_some'] at h
      obtain ⟨⟨k, e⟩, hk, hke⟩ := h
      simp only [Prod.mk.injEq] at hke
      obtain ⟨rfl, rfl⟩ := hke
      obtain ⟨h1, h2, h3⟩ := ih hk
      refine ⟨by simpa using h1, h2, ?_⟩
      intro j hj c' hc'
      cases j with
      | zero =>
        simp only [List.getElem?_cons_zero, Option.some.injEq] at hc'
        subst hc'; exact hd
      | succ j =>
        simp only [List.getElem?_cons_succ] at hc'
        exact h3 j (by omega) c' hc'

/-- The pointer that `recurseSearch` returns points into the tree searched. -/
theorem recurseSearch_get? {t : File} {names : List Str} {l : Loc} {n : File}
    (h : recurseSearch t names = some (l, n)) : t.get? l = some n := by
  induction names generalizing t l with
  | nil =>
    simp only [recurseSearch, Option.some.injEq, Prod.mk.injEq] at h
    obtain ⟨rfl, rfl⟩ := h; rfl
  | cons a rest ih =>
    rw [recurseSearch] at h
    split at h
    · simp only [Option.some.injEq, Prod.mk.injEq] at h
      obtain ⟨rfl, rfl⟩ := h; rfl
    · split at h
      · rename_i i child hfc
        simp only [Option.map_eq_some'] at h
        obtain ⟨⟨l', n'⟩, hr, hl⟩ := h
        simp only [Prod.mk.injEq] at hl
        obtain ⟨rfl, rfl⟩ := hl
        rw [File.get?_cons, (findChild_eq_some hfc).1]
        exact ih hr
      · exact absurd h (by simp)

/-- The two results that `Search` can give. -/
theorem Search_cases (t : File) (full : Str) :
    (∃ p, Search t full = (some p, none) ∧ t.get? p.1 = some p.2) ∨
      Search t full = (none, some "could not find file".toList) := by
  cases h : recurseSearch t (List.drop 1 (strings.Split (path.Clean full))) with
  | none => right; simp only [Search, h]
  | some p => left; exact ⟨p, by simp only [Search, h], recurseSearch_get? (l := p.1) (n := p.2) h⟩

/-- Two functions that agree on the node at the location give the same tree. -/
theorem File.modifyAt_congr (f g : File → File) (t : File) (l : Loc) (n : File)
    (hn : t.get? l = some n) (hfg : f n = g n) : File.modifyAt f t l = File.modifyAt g t l := by
  induction l generalizing t with
  | nil =>
    simp only [File.get?_nil, Option.some.injEq] at hn
    subst hn; exact hfg
  | cons i l ih =>
    rw [File.get?_cons] at hn
    rw [File.modifyAt_cons, File.modifyAt_cons]
    cases hc : t.Children[i]? with
    | none => rw [hc] at hn; simp at hn
    | some c =>
      rw [hc] at hn
      have hcl : c.get? l = some n := by simpa using hn
      have : t.Children.modify (fun c => File.modifyAt f c l) i =
          t.Children.modify (fun c => File.modifyAt g c l) i := by
        apply List.ext_getElem?
        intro j
        rw [List.getElem?_modify, List.getElem?_modify]
        by_cases hij : i = j
        · subst hij; simp [hc, ih c hcl]
        · simp [hij]
      rw [this]

/-- A resolved parent is a node of the tree. -/
theorem ParentResolves.get? {t : File} {full : Str} {p : Ptr} (hp : ParentResolves t full p) :
    t.get? p.1 = some p.2 := by
  rcases hp with ⟨_, rfl⟩ | ⟨_, hs⟩
  · rfl
  · rcases Search_cases t (path.Split full).1 with ⟨q, hq, hget⟩ | hq
    · rw [hq] at hs
      simp only [Prod.mk.injEq, Option.some.injEq, and_true] at hs
      subst hs; exact hget
    · rw [hq] at hs; simp at hs

/-- What `Insert` does once the parent is resolved. -/
theorem Insert_of_resolves {t : File} {full : Str} {p : Ptr} (k : Bool)
    (hp : ParentResolves t full p) :
    Insert t full k =
      match findChild (path.Split full).2 p.2.Children with
      | some _ => (([], t), some ("file \"".toList ++ full ++ "\" exists".toList), t)
      | none =>
        ((p.1 ++ [p.2.Children.length], (NewChild p.2 (path.Split full).2 k).2), none,
          t.modifyAt (fun q => (NewChild q (path.Split full).2 k).1) p.1) := by
  obtain ⟨ploc, parent⟩ := p
  rcases hp with ⟨h1, h2⟩ | ⟨h1, h2⟩
  · simp only [Prod.mk.injEq] at h2
    obtain ⟨rfl, rfl⟩ := h2
    simp only [Insert, h1, if_true]
  · simp only [Insert, h1, if_false, h2]

/-- What `Delete` does once the parent is resolved. -/
theorem Delete_of_resolves {t : File} {full : Str} {p : Ptr}
    (hp : ParentResolves t full p) :
    Delete t full =
      match findChild (path.Split full).2 p.2.Children with
      | some (i, _) => (none, t.modifyAt (fun q => { q with Children := cut q.Children i }) p.1)
      | none => (some ("could not find child \"".toList ++ (path.Split full).2 ++ "\"".toList), t) := by
  obtain ⟨ploc, parent⟩ := p
  rcases hp with ⟨h1, h2⟩ | ⟨h1, h2⟩
  · simp only [Prod.mk.injEq] at h2
    obtain ⟨rfl, rfl⟩ := h2
    simp only [Delete, h1, if_true]
  · simp only [Delete, h1, if_false, h2]

/-- Cutting index `i` out of the slice leaves the list without its entry `i`. -/
theorem cut_eq_eraseIdx (cs : List File) (i : Nat) : cut cs i = cs.eraseIdx i := by
  rw [List.eraseIdx_eq_take_drop_succ]
  unfold cut
  split
  · rfl
  · rename_i h
    have : cs.drop (i + 1) = [] := List.drop_eq_nil_of_le (by omega)
    simp [this]

/-- Cutting out the child that the loop of `Delete` stops at removes the first child
of that name. -/
theorem cut_findChild {name : Str} {cs : List File} {i : Nat} {c : File}
    (h : findChild name cs = some (i, c)) :
    cut cs i = cs.eraseP (fun d => decide (d.name = name)) := by
  rw [cut_eq_eraseIdx]
  induction cs generalizing i with
  | nil => simp [findChild] at h
  | cons d ds ih =>
    by_cases hd : d.name = name
    · simp only [findChild, hd, if_true, Option.some.injEq, Prod.mk.injEq] at h
      obtain ⟨rfl, rfl⟩ := h
      simp [List.eraseP_cons, hd]
    · simp only [findChild, hd, if_false, Option.map_eq_some'] at h
      obtain ⟨⟨k, e⟩, hk, hke⟩ := h
      simp only [Prod.mk.injEq] at hke
      obtain ⟨rfl, rfl⟩ := hke
      simp [List.eraseP_cons, hd, ih hk]

/-! ## Insert and Delete -/

/-- C3: when the parent of `full` resolves to a node `P` that has no child with the
final name of `full`, `Insert` succeeds; the pointer it returns is the new last child
of `P`, a node with that name, the kind asked for and no children; the tree afterwards
is the old tree with that node appended to the children of `P`, and every node that is
neither above nor below `P` is the node it was. -/
theorem Insert_appends_child (t : File) (full : Str) (k : Bool) (p : Ptr)
    (hp : ParentResolves t full p)
    (hno : ∀ c ∈ p.2.Children, c.name ≠ (path.Split full).2) :
    ∃ child : File,
      Insert t full k =
        ((p.1 ++ [p.2.Children.length], child), none,
          t.modifyAt (fun q => { q with Children := q.Children ++ [child] }) p.1) ∧
      child.name = (path.Split full).2 ∧ child.isDir = k ∧ child.Children = [] ∧
      (Insert t full k).2.2.get? p.1 =
        some { p.2 with Children := p.2.Children ++ [child] } ∧
      (Insert t full k).2.2.get? (p.1 ++ [p.2.Children.length]) = some child ∧
      ∀ l, ¬ p.1 <+: l → ¬ l <+: p.1 → (Insert t full k).2.2.get? l = t.get? l := by
  have hfc : findChild (path.Split full).2 p.2.Children = none := findChild_eq_none.2 hno
  have hget := hp.get?
  have hI := Insert_of_resolves k hp
  rw [hfc] at hI
  simp only at hI
  have hmod : t.modifyAt (fun q => (NewChild q (path.Split full).2 k).1) p.1 =
      t.modifyAt
        (fun q => { q with Children := q.Children ++ [(NewChild p.2 (path.Split full).2 k).2] })
        p.1 :=
    File.modifyAt_congr _ _ t p.1 p.2 hget rfl
  rw [hmod] at hI
  refine ⟨(NewChild p.2 (path.Split full).2 k).2, hI, rfl, rfl, rfl, ?_, ?_, ?_⟩
  · rw [hI]
    simp only [File.get?_modifyAt_self, hget, Option.map_some']
  · rw [hI]
    simp only [File.get?_append, File.get?_modifyAt_self, hget, Option.map_some',
      Option.some_bind, File.get?_cons, File.get?_nil]
    simp
  · intro l h₁ h₂
    rw [hI]
    exact File.get?_modifyAt_of_not_prefix _ t p.1 l h₁ h₂

/-- Witness of C3: inserting the file `/a` into the empty tree. -/
theorem Insert_appends_child_witness :
    ∃ child : File,
      Insert NewTree ['/', 'a'] false =
        (([] ++ [NewTree.Children.length], child), none,
          NewTree.modifyAt (fun q => { q with Children := q.Children ++ [child] }) []) ∧
      child.name = (path.Split ['/', 'a']).2 ∧ child.isDir = false ∧ child.Children = [] ∧
      (Insert NewTree ['/', 'a'] false).2.2.get? [] =
        some { NewTree with Children := NewTree.Children ++ [child] } ∧
      (Insert NewTree ['/', 'a'] false).2.2.get? ([] ++ [NewTree.Children.length]) =
        some child ∧
      ∀ l, ¬ ([] : Loc) <+: l → ¬ l <+: [] →
        (Insert NewTree ['/', 'a'] false).2.2.get? l = NewTree.get? l :=
  Insert_appends_child NewTree ['/', 'a'] false ([], NewTree) (Or.inl ⟨rfl, rfl⟩)
    (by intro c hc; simp [NewTree] at hc)

/-- C4: when the parent of `full` resolves to a node that already has a child with the
final name of `full`, `Insert` fails with the error `file "full" exists` for either
kind, and the tree afterwards is the tree before. -/
theorem Insert_exists (t : File) (full : Str) (k : Bool) (p : Ptr)
    (hp : ParentResolves t full p)
    (hex : ∃ c ∈ p.2.Children, c.name = (path.Split full).2) :
    Insert t full k = (([], t), some ("file \"".toList ++ full ++ "\" exists".toList), t) := by
  rw [Insert_of_resolves k hp]
  cases hfc : findChild (path.Split full).2 p.2.Children with
  | none =>
    obtain ⟨c, hc, hn⟩ := hex
    exact absurd hn (findChild_eq_none.1 hfc c hc)
  | some r => rfl

/-- C5: when the directory part of `full` is not `/` and `Search` does not find it,
`Insert` and `Delete` both fail with their `could not find parent directory` error and
leave the tree as it was. -/
theorem Insert_Delete_parent_not_found (t : File) (full : Str) (k : Bool)
    (hne : (path.Split full).1 ≠ ['/'])
    (hfail : (Search t (path.Split full).1).1 = none) :
    Insert t full k =
        (([], t),
          some ("could not find parent directory: \"".toList ++ (path.Split full).1 ++
            "\" → ".toList ++ "could not find file".toList),
          t) ∧
      Delete t full =
        (some ("could not find parent directory: \"".toList ++ (path.Split full).1 ++
            "\" - ".toList ++ "could not find file".toList),
          t) := by
  have hs : Search t (path.Split full).1 = (none, some "could not find file".toList) := by
    rcases Search_cases t (path.Split full).1 with ⟨q, hq, _⟩ | hq
    · rw [hq] at hfail; simp at hfail
    · exact hq
  constructor
  · simp only [Insert, hne, if_false, hs]
  · simp only [Delete, hne, if_false, hs]

/-- C6: when the parent of `full` resolves to a node `P`: if `P` has a child with the
final name of `full`, `Delete` succeeds, the children of `P` afterwards are the old
children without the first child of that name, in the old order, and every node that
is neither above nor below `P` is the node it was; if `P` has no such child, `Delete`
fails with `could not find child` and the tree is the tree before. -/
theorem Delete_removes_first (t : File) (full : Str) (p : Ptr)
    (hp : ParentResolves t full p) :
    ((∃ c ∈ p.2.Children, c.name = (path.Split full).2) →
        Delete t full =
          (none, t.modifyAt (fun q =>
            { q with Children := q.Children.eraseP (fun d => decide (d.name = (path.Split full).2)) })
            p.1) ∧
        (Delete t full).2.get? p.1 =
          some
            { p.2 with Children := p.2.Children.eraseP (fun d => decide (d.name = (path.Split full).2)) } ∧
        ∀ l, ¬ p.1 <+: l → ¬ l <+: p.1 → (Delete t full).2.get? l = t.get? l) ∧
      ((∀ c ∈ p.2.Children, c.name ≠ (path.Split full).2) →
        Delete t full =
          (some ("could not find child \"".toList ++ (path.Split full).2 ++ "\"".toList), t)) := by
  have hget := hp.get?
  have hD := Delete_of_resolves hp
  constructor
  · intro hex
    cases hfc : findChild (path.Split full).2 p.2.Children with
    | none =>
      obtain ⟨c, hc, hn⟩ := hex
      exact absurd hn (findChild_eq_none.1 hfc c hc)
    | some r =>
      obtain ⟨i, c⟩ := r
      rw [hfc] at hD
      simp only at hD
      have hmod : t.modifyAt (fun q => { q with Children := cut q.Children i }) p.1 =
          t.modifyAt (fun q =>
            { q with Children := q.Children.eraseP (fun d => decide (d.name = (path.Split full).2)) })
            p.1 :=
        File.modifyAt_congr _ _ t p.1 p.2 hget (by rw [cut_findChild hfc])
      rw [hmod] at hD
      refine ⟨hD, ?_, ?_⟩
      · rw [hD]
        simp only [File.get?_modifyAt_self, hget, Option.map_some']
      · intro l h₁ h₂
        rw [hD]
        exact File.get?_modifyAt_of_not_prefix _ t p.1 l h₁ h₂
  · intro hno
    rw [hD, findChild_eq_none.2 hno]

/-- Witness of C4: inserting `/a` as a file when the directory `/a` is there. -/
theorem Insert_exists_witness :
    Insert treeA ['/', 'a'] false =
      (([], treeA), some ("file \"".toList ++ ['/', 'a'] ++ "\" exists".toList), treeA) :=
  Insert_exists treeA ['/', 'a'] false ([], treeA) (Or.inl ⟨rfl, rfl⟩)
    ⟨(NewChild NewTree ['a'] true).2, List.Mem.head _, rfl⟩

/-- Witness of C5: `/b/c` in the empty tree, where `/b/` is not found. -/
theorem Insert_Delete_parent_not_found_witness :
    Insert NewTree ['/', 'b', '/', 'c'] true =
        (([], NewTree),
          some ("could not find parent directory: \"".toList ++
            (path.Split ['/', 'b', '/', 'c']).1 ++
            "\" → ".toList ++ "could not find file".toList),
          NewTree) ∧
      Delete NewTree ['/', 'b', '/', 'c'] =
        (some ("could not find parent directory: \"".toList ++
            (path.Split ['/', 'b', '/', 'c']).1 ++
            "\" - ".toList ++ "could not find file".toList),
          NewTree) :=
  Insert_Delete_parent_not_found NewTree ['/', 'b', '/', 'c'] true (by decide) rfl

/-- Witness of C6: deleting `/a`, which is there, and `/b`, which is not, from the
tree with the one directory `/a`. -/
theorem Delete_removes_first_witness :
    (Delete treeA ['/', 'a'] =
        (none, treeA.modifyAt (fun q =>
          { q with Children := q.Children.eraseP (fun d => decide (d.name = ['a'])) }) []) ∧
      (Delete treeA ['/', 'a']).2.get? [] =
        some { treeA with Children := treeA.Children.eraseP (fun d => decide (d.name = ['a'])) } ∧
      ∀ l, ¬ ([] : Loc) <+: l → ¬ l <+: [] → (Delete treeA ['/', 'a']).2.get? l = treeA.get? l) ∧
    Delete treeA ['/', 'b'] =
      (some ("could not find child \"".toList ++ ['b'] ++ "\"".toList), treeA) :=
  ⟨(Delete_removes_first treeA ['/', 'a'] ([], treeA) (Or.inl ⟨rfl, rfl⟩)).1
      ⟨(NewChild NewTree ['a'] true).2, List.Mem.head _, rfl⟩,
    (Delete_removes_first treeA ['/', 'b'] ([], treeA) (Or.inl ⟨rfl, rfl⟩)).2
      (by
        intro c hc
        have : c = (NewChild NewTree ['a'] true).2 := by
          have h : treeA.Children = [(NewChild NewTree ['a'] true).2] := rfl
          rw [h] at hc
          simpa using hc
        subst this
        decide)⟩

/-! ## Paths of one element -/

theorem strings.Split_one_piece {a : Str} (h : '/' ∉ a) : strings.Split a = [a] := by
  induction a with
  | nil => rfl
  | cons c cs ih =>
    have hc : c ≠ '/' := fun e => h (by simp [e])
    have hcs : '/' ∉ cs := fun e => h (by simp [e])
    simp [strings.Split, hc, ih hcs]

theorem path.Split_no_directory {a : Str} (h : '/' ∉ a) : path.Split a = ([], a) := by
  induction a with
  | nil => rfl
  | cons c cs ih =>
    have hc : c ≠ '/' := fun e => h (by simp [e])
    have hcs : '/' ∉ cs := fun e => h (by simp [e])
    simp [path.Split, hc, ih hcs]

theorem path.Split_slash_cons {a : Str} (h : '/' ∉ a) : path.Split ('/' :: a) = (['/'], a) := by
  simp [path.Split, path.Split_no_directory h]

/-- A path of one clean element is its own cleaned form. -/
theorem path.Clean_slash_cons {a : Str} (ha : a ≠ []) (hs : '/' ∉ a) (hd : a ≠ ['.'])
    (hdd : a ≠ ['.', '.']) : path.Clean ('/' :: a) = '/' :: a := by
  simp [path.Clean, strings.Split, strings.Split_one_piece hs, path.cleanStep, ha, hd, hdd,
    strings.Join]

/-- The parts that `Search` hands to `recurseSearch` for a path of one clean element. -/
theorem parts_slash_cons {a : Str} (ha : a ≠ []) (hs : '/' ∉ a) (hd : a ≠ ['.'])
    (hdd : a ≠ ['.', '.']) :
    (strings.Split (path.Clean ('/' :: a))).drop 1 = [a] := by
  rw [path.Clean_slash_cons ha hs hd hdd]
  simp [strings.Split, strings.Split_one_piece hs]

theorem findChild_append_new {name : Str} {cs : List File} {c : File}
    (hno : ∀ d ∈ cs, d.name ≠ name) (hc : c.name = name) :
    findChild name (cs ++ [c]) = some (cs.length, c) := by
  induction cs with
  | nil => simp [findChild, hc]
  | cons d ds ih =>
    have hd : d.name ≠ name := hno d (by simp)
    have := ih (fun e he => hno e (by simp [he]))
    simp [findChild, hd, this]

/-- C7: for a tree whose root is called `/` and has no child called `a`, with `a` a
clean path element (not empty, no slash, not `.` and not `..`), and for either kind:
`Insert` of `/a` succeeds, `Search` of `/a` then returns the very pointer that `Insert`
returned, a node called `a` of the kind asked for; `Delete` of `/a` then succeeds, and
`Search` of `/a` after it fails with `could not find file`. -/
theorem Insert_Search_Delete_roundtrip (t : File) (a : Str) (k : Bool)
    (hroot : t.name = ['/']) (ha : a ≠ []) (hs : '/' ∉ a) (hd : a ≠ ['.'])
    (hdd : a ≠ ['.', '.']) (hno : ∀ c ∈ t.Children, c.name ≠ a) :
    (Insert t ('/' :: a) k).2.1 = none ∧
      Search (Insert t ('/' :: a) k).2.2 ('/' :: a) = (some (Insert t ('/' :: a) k).1, none) ∧
      (Insert t ('/' :: a) k).1.2.isDir = k ∧
      (Insert t ('/' :: a) k).1.2.name = a ∧
      (Delete (Insert t ('/' :: a) k).2.2 ('/' :: a)).1 = none ∧
      Search (Delete (Insert t ('/' :: a) k).2.2 ('/' :: a)).2 ('/' :: a) =
        (none, some "could not find file".toList) := by
  have hsplit := path.Split_slash_cons hs
  have hparts := parts_slash_cons ha hs hd hdd
  have hane : a ≠ ['/'] := fun e => hs (by simp [e])
  -- the insert
  have hI : Insert t ('/' :: a) k =
      (([t.Children.length], (NewChild t a k).2), none, (NewChild t a k).1) := by
    have h := @Insert_of_resolves t ('/' :: a) ([], t) k (Or.inl ⟨by rw [hsplit], rfl⟩)
    rw [hsplit, findChild_eq_none.2 hno] at h
    simpa [File.modifyAt_nil] using h
  -- the search after it
  have hfc : findChild a (NewChild t a k).1.Children =
      some (t.Children.length, (NewChild t a k).2) :=
    findChild_append_new hno rfl
  have hS : Search (NewChild t a k).1 ('/' :: a) =
      (some ([t.Children.length], (NewChild t a k).2), none) := by
    have hname : (NewChild t a k).1.name = ['/'] := hroot
    simp only [Search, hparts, recurseSearch, hname, hfc]
    simp [hane]
  -- the delete after it
  have hD : Delete (NewChild t a k).1 ('/' :: a) = (none, t) := by
    have h := @Delete_of_resolves (NewChild t a k).1 ('/' :: a) ([], (NewChild t a k).1)
      (Or.inl ⟨by rw [hsplit], rfl⟩)
    rw [hsplit] at h
    simp only [hfc, File.modifyAt_nil] at h
    rw [h]
    have hcut : cut (NewChild t a k).1.Children t.Children.length = t.Children := by
      rw [cut_eq_eraseIdx]
      show (t.Children ++ [(NewChild t a k).2]).eraseIdx t.Children.length = t.Children
      simp [List.eraseIdx_append_of_length_le]
    rw [hcut]
    cases t; rfl
  -- the search after the delete
  have hS2 : Search t ('/' :: a) = (none, some "could not find file".toList) := by
    simp only [Search, hparts, recurseSearch, hroot, findChild_eq_none.2 hno]
    simp [hane]
  rw [hI]
  refine ⟨rfl, hS, rfl, rfl, ?_, ?_⟩
  · show (Delete (NewChild t a k).1 ('/' :: a)).1 = none
    rw [hD]
  · show Search (Delete (NewChild t a k).1 ('/' :: a)).2 ('/' :: a) = _
    rw [hD]; exact hS2

/-- Witness of C7: the file `/a` in the empty tree. -/
theorem Insert_Search_Delete_roundtrip_witness :
    (Insert NewTree ['/', 'a'] false).2.1 = none ∧
      Search (Insert NewTree ['/', 'a'] false).2.2 ['/', 'a'] =
        (some (Insert NewTree ['/', 'a'] false).1, none) ∧
      (Insert NewTree ['/', 'a'] false).1.2.isDir = false ∧
      (Insert NewTree ['/', 'a'] false).1.2.name = ['a'] ∧
      (Delete (Insert NewTree ['/', 'a'] false).2.2 ['/', 'a']).1 = none ∧
      Search (Delete (Insert NewTree ['/', 'a'] false).2.2 ['/', 'a']).2 ['/', 'a'] =
        (none, some "could not find file".toList) :=
  Insert_Search_Delete_roundtrip NewTree ['a'] false rfl (by decide) (by decide) (by decide)
    (by decide) (by intro c hc; simp [NewTree] at hc)

/-! ## Properties of all nodes -/

theorem allNodes_iff (P : File → Prop) (t : File) :
    AllNodes P t ↔ P t ∧ ∀ c ∈ t.Children, AllNodes P c := by
  constructor
  · intro h
    refine ⟨h [] t rfl, ?_⟩
    intro c hc l n hn
    obtain ⟨i, hi⟩ := List.mem_iff_getElem?.1 hc
    exact h (i :: l) n (by rw [File.get?_cons, hi]; exact hn)
  · rintro ⟨h0, hc⟩ l n hn
    cases l with
    | nil =>
      simp only [File.get?_nil, Option.some.injEq] at hn
      subst hn; exact h0
    | cons i l =>
      rw [File.get?_cons] at hn
      cases hi : t.Children[i]? with
      | none => rw [hi] at hn; simp at hn
      | some c =>
        rw [hi] at hn
        exact hc c (List.mem_iff_getElem?.2 ⟨i, hi⟩) l n (by simpa using hn)

theorem AllNodes.sub {P : File → Prop} {t : File} (h : AllNodes P t) {l : Loc} {n : File}
    (hn : t.get? l = some n) : AllNodes P n := by
  intro l' n' hn'
  exact h (l ++ l') n' (by rw [File.get?_append, hn]; exact hn')

theorem modify_eq_set {cs : List File} {i : Nat} {c : File} (g : File → File)
    (h : cs[i]? = some c) : cs.modify g i = cs.set i (g c) := by
  apply List.ext_getElem?
  intro j
  rw [List.getElem?_modify, List.getElem?_set]
  by_cases hij : i = j
  · subst hij
    have hlt : i < cs.length := by
      rcases Nat.lt_or_ge i cs.length with h' | h'
      · exact h'
      · rw [List.getElem?_eq_none_iff.2 h'] at h; simp at h
    simp [h, hlt]
  · simp [hij]

theorem map_name_set {cs : List File} {i : Nat} {c c' : File}
    (h : cs[i]? = some c) (hname : c'.name = c.name) :
    (cs.set i c').map File.name = cs.map File.name := by
  apply List.ext_getElem?
  intro j
  rw [List.map_set, List.getElem?_set]
  by_cases hij : i = j
  · subst hij
    simp only [if_true, List.length_map, List.getElem?_map, h, Option.map_some', hname]
    have hlt : i < cs.length := by
      rcases Nat.lt_or_ge i cs.length with h' | h'
      · exact h'
      · rw [List.getElem?_eq_none_iff.2 h'] at h; simp at h
    simp [hlt]
  · simp [hij]

/-- A property of nodes that only reads the names of the children holds of every node
after `modifyAt`, when it holds of every node before and of every node of the new
subtree, and the new subtree keeps the name of the old one. -/
theorem AllNodes.modifyAt {P : File → Prop}
    (hP : ∀ n n' : File, n'.Children.map File.name = n.Children.map File.name → P n → P n')
    (f : File → File) (l : Loc) (t : File) (h : AllNodes P t)
    (hf : ∀ n, t.get? l = some n → (f n).name = n.name ∧ AllNodes P (f n)) :
    AllNodes P (File.modifyAt f t l) ∧ (File.modifyAt f t l).name = t.name := by
  induction l generalizing t with
  | nil => exact ⟨(hf t rfl).2, (hf t rfl).1⟩
  | cons i l ih =>
    cases hc : t.Children[i]? with
    | none =>
      rw [File.modifyAt_of_get?_none f t (i :: l) (by rw [File.get?_cons, hc]; rfl)]
      exact ⟨h, rfl⟩
    | some c =>
      have hcAll : AllNodes P c := h.sub (l := [i]) (by rw [File.get?_cons, hc]; rfl)
      obtain ⟨ih1, ih2⟩ := ih c hcAll
        (fun n hn => hf n (by rw [File.get?_cons, hc]; exact hn))
      rw [File.modifyAt_cons, modify_eq_set _ hc]
      refine ⟨?_, rfl⟩
      rw [allNodes_iff] at h ⊢
      refine ⟨hP t _ (map_name_set hc ih2) h.1, ?_⟩
      intro c' hc'
      rcases List.mem_or_eq_of_mem_set hc' with hmem | rfl
      · exact h.2 c' hmem
      · exact ih1

theorem distinctChildren_congr (n n' : File)
    (h : n'.Children.map File.name = n.Children.map File.name) (hn : DistinctChildren n) :
    DistinctChildren n' := by
  unfold DistinctChildren at *
  rw [h]; exact hn

theorem siblingsDistinct_leaf {c : File} (h : c.Children = []) : SiblingsDistinct c := by
  unfold SiblingsDistinct
  rw [allNodes_iff]
  refine ⟨by simp [DistinctChildren, h], ?_⟩
  intro d hd
  rw [h] at hd; simp at hd

/-- Appending leaves with fresh, distinct names keeps sibling names unique. -/
theorem siblingsDistinct_append {t : File} {added : List File} (h : SiblingsDistinct t)
    (hnd : ((t.Children ++ added).map File.name).Nodup)
    (hleaf : ∀ c ∈ added, c.Children = []) :
    SiblingsDistinct { t with Children := t.Children ++ added } := by
  unfold SiblingsDistinct at *
  rw [allNodes_iff] at h ⊢
  refine ⟨hnd, ?_⟩
  intro c hc
  rcases List.mem_append.1 hc with hc | hc
  · exact h.2 c hc
  · exact siblingsDistinct_leaf (hleaf c hc)

/-- Dropping children keeps sibling names unique. -/
theorem siblingsDistinct_sublist {t : File} {cs : List File} (h : SiblingsDistinct t)
    (hsub : cs.Sublist t.Children) : SiblingsDistinct { t with Children := cs } := by
  unfold SiblingsDistinct at *
  rw [allNodes_iff] at h ⊢
  refine ⟨?_, fun c hc => h.2 c (hsub.subset hc)⟩
  exact List.Nodup.sublist (hsub.map File.name) h.1

/-! ## What `Sync` and `LoadChildren` do to a node -/

theorem File.with_children_self (t : File) : { t with Children := t.Children } = t := by
  cases t; rfl

theorem NewChild_snd_congr {t t' : File} (h : t'.Blob = t.Blob) (name : Str) (k : Bool) :
    (NewChild t' name k).2 = (NewChild t name k).2 := by
  simp [NewChild, h]

theorem NewChild_snd_name (t : File) (name : Str) (k : Bool) :
    (NewChild t name k).2.name = name := rfl

theorem foldl_NewChild (kind : Str → Bool) (diff : List Str) (t : File) :
    diff.foldl (fun t name => (NewChild t name (kind name)).1) t =
      { t with
        Children := t.Children ++ diff.map (fun name => (NewChild t name (kind name)).2) } := by
  induction diff generalizing t with
  | nil => simp [File.with_children_self]
  | cons a rest ih =>
    rw [List.foldl_cons, ih]
    have hb : (NewChild t a (kind a)).1.Blob = t.Blob := rfl
    have hmap : rest.map (fun name => (NewChild (NewChild t a (kind a)).1 name (kind name)).2) =
        rest.map (fun name => (NewChild t name (kind name)).2) :=
      List.map_congr_left (fun name _ => NewChild_snd_congr hb name (kind name))
    rw [hmap]
    show ({ name := t.name, isDir := t.isDir, Blob := t.Blob,
            Children := (t.Children ++ [(NewChild t a (kind a)).2]) ++ _ } : File) = _
    simp

/-- `Sync` appends to the children of the node one new leaf for each missing name. -/
theorem Sync_eq (t : File) (files dirs keys : List Str) :
    Sync t files dirs keys =
      { t with
        Children :=
          t.Children ++
            (missingLocally keys (t.Children.map File.name) (files ++ dirs)).map
              (fun name => (NewChild t name (isADir dirs name)).2) } := by
  unfold Sync
  exact foldl_NewChild (isADir dirs) _ t

theorem isADir_iff (dirs : List Str) (n : Str) : isADir dirs n = true ↔ n ∈ dirs := by
  simp [isADir]

theorem mem_missingLocally {keys lcl remote : List Str} (hk : RangeOrder remote keys) (n : Str) :
    n ∈ missingLocally keys lcl remote ↔ n ∈ remote ∧ n ∉ lcl := by
  unfold missingLocally
  simp only [List.mem_filter, decide_eq_true_eq]
  exact ⟨fun h => ⟨hk.2.1 n h.1, h.2⟩, fun h => ⟨hk.2.2 n h.1, h.2⟩⟩

theorem map_name_new (t : File) (kind : Str → Bool) (diff : List Str) :
    (diff.map (fun name => (NewChild t name (kind name)).2)).map File.name = diff := by
  rw [List.map_map]
  have : (File.name ∘ fun name => (NewChild t name (kind name)).2) = id := funext (fun _ => rfl)
  rw [this, List.map_id]

theorem Sync_siblingsDistinct {t : File} {files dirs keys : List Str}
    (hk : RangeOrder (files ++ dirs) keys) (h : SiblingsDistinct t) :
    SiblingsDistinct (Sync t files dirs keys) := by
  rw [Sync_eq]
  apply siblingsDistinct_append h
  · rw [List.map_append, map_name_new]
    have hloc : (t.Children.map File.name).Nodup := h [] t rfl
    refine List.Nodup.append hloc (hk.1.filter _) ?_
    intro a ha hb
    exact ((mem_missingLocally hk a).1 hb).2 ha
  · intro c hc
    obtain ⟨n, _, rfl⟩ := List.mem_map.1 hc
    rfl

theorem exists_iff (t : File) (n : Str) : «exists» t n = true ↔ n ∈ t.Children.map File.name := by
  unfold «exists»
  simp only [List.any_eq_true, decide_eq_true_eq, List.mem_map]
  constructor
  · rintro ⟨c, hc, rfl⟩; exact ⟨c, hc, rfl⟩
  · rintro ⟨c, hc, rfl⟩; exact ⟨c, hc, rfl⟩

/-- A loop of `LoadChildren` appends leaves and keeps the child names distinct, also
when a download fails on the way. -/
theorem loadLoop_spec (dl : URL → DownloadOutcome) (k : Bool) (msg : Str) (names : List Str)
    (t : File) (hnd : (t.Children.map File.name).Nodup) :
    ∃ added : List File,
      (loadLoop dl k msg t names).2 = { t with Children := t.Children ++ added } ∧
      ((t.Children ++ added).map File.name).Nodup ∧ ∀ c ∈ added, c.Children = [] := by
  induction names generalizing t with
  | nil =>
    exact ⟨[], by simp [loadLoop, File.with_children_self], by simpa using hnd, by simp⟩
  | cons name rest ih =>
    by_cases hex : «exists» t name = true
    · obtain ⟨added, h1, h2, h3⟩ := ih t hnd
      exact ⟨added, by rw [loadLoop, if_pos hex]; exact h1, h2, h3⟩
    · have hfresh : name ∉ t.Children.map File.name := fun hm => hex ((exists_iff t name).2 hm)
      let f' : File :=
        File.mk name k ((NewChild t name k).2.Blob.Download dl).2 []
      have ht2 :
          File.mk t.name t.isDir t.Blob
              ((t.Children ++ [(NewChild t name k).2]).set t.Children.length f') =
            { t with Children := t.Children ++ [f'] } := by
        simp
      have hnd2 : ((t.Children ++ [f']).map File.name).Nodup := by
        rw [List.map_append]
        refine List.Nodup.append hnd (by simp) ?_
        intro a ha hb
        have : a = name := by simpa [f', NewChild_snd_name] using hb
        exact hfresh (this ▸ ha)
      cases herr : ((NewChild t name k).2.Blob.Download dl).1 with
      | some e =>
        refine ⟨[f'], ?_, hnd2, by intro c hc; simp at hc; subst hc; rfl⟩
        rw [loadLoop, if_neg hex]
        simp only [herr]
        exact ht2
      | none =>
        obtain ⟨added, h1, h2, h3⟩ := ih { t with Children := t.Children ++ [f'] } hnd2
        refine ⟨f' :: added, ?_, by simpa using h2, ?_⟩
        · rw [loadLoop, if_neg hex]
          simp only [herr]
          refine Eq.trans (congrArg (fun x => (loadLoop dl k msg x rest).2) ht2) ?_
          simp only [h1]
          simp
        · intro c hc
          rcases List.mem_cons.1 hc with rfl | hc
          · rfl
          · exact h3 c hc

theorem loadLoop_name (dl : URL → DownloadOutcome) (k : Bool) (msg : Str) (names : List Str)
    (t : File) : (loadLoop dl k msg t names).2.name = t.name := by
  induction names generalizing t with
  | nil => rfl
  | cons name rest ih =>
    rw [loadLoop]
    split
    · exact ih t
    · simp only
      split
      · rfl
      · rw [ih]; rfl

/-- `LoadChildren` appends leaves and keeps the child names distinct. -/
theorem LoadChildren_spec (dl : URL → DownloadOutcome) (t : File) (files dirs : List Str)
    (hnd : (t.Children.map File.name).Nodup) :
    ∃ added : List File,
      (LoadChildren dl t files dirs).2 = { t with Children := t.Children ++ added } ∧
      ((t.Children ++ added).map File.name).Nodup ∧ ∀ c ∈ added, c.Children = [] := by
  unfold LoadChildren
  split
  · exact ⟨[], by simp [File.with_children_self], by simpa using hnd, by simp⟩
  · obtain ⟨a1, h1, h2, h3⟩ :=
      loadLoop_spec dl false "could not new child file → ".toList files t hnd
    split
    · rename_i e t1 heq
      have : t1 = (loadLoop dl false "could not new child file → ".toList t files).2 := by
        rw [heq]
      exact ⟨a1, by rw [this]; exact h1, h2, h3⟩
    · rename_i t1 heq
      have ht1 : t1 = { t with Children := t.Children ++ a1 } := by
        rw [← h1, heq]
      obtain ⟨a2, g1, g2, g3⟩ :=
        loadLoop_spec dl true "could not new child dir → ".toList dirs
          { t with Children := t.Children ++ a1 } h2
      refine ⟨a1 ++ a2, ?_, by simpa using g2, ?_⟩
      · rw [ht1, g1]; simp
      · intro c hc
        rcases List.mem_append.1 hc with hc | hc
        · exact h3 c hc
        · exact g3 c hc

/-! ## Sibling names stay unique -/

theorem parent_cases (t : File) (full : Str) :
    (∃ p, ParentResolves t full p) ∨
      ((path.Split full).1 ≠ ['/'] ∧
        Search t (path.Split full).1 = (none, some "could not find file".toList)) := by
  by_cases h1 : (path.Split full).1 = ['/']
  · exact Or.inl ⟨([], t), Or.inl ⟨h1, rfl⟩⟩
  · rcases Search_cases t (path.Split full).1 with ⟨q, hq, _⟩ | hq
    · exact Or.inl ⟨q, Or.inr ⟨h1, hq⟩⟩
    · exact Or.inr ⟨h1, hq⟩

theorem Insert_tree_cases (t : File) (full : Str) (k : Bool) :
    (Insert t full k).2.2 = t ∨
      ∃ p, ParentResolves t full p ∧ findChild (path.Split full).2 p.2.Children = none ∧
        (Insert t full k).2.2 = t.modifyAt (fun q => (NewChild q (path.Split full).2 k).1) p.1 := by
  rcases parent_cases t full with ⟨p, hp⟩ | ⟨h1, hs⟩
  · cases hfc : findChild (path.Split full).2 p.2.Children with
    | some r => left; rw [Insert_of_resolves k hp, hfc]
    | none => right; exact ⟨p, hp, hfc, by rw [Insert_of_resolves k hp, hfc]⟩
  · left; simp only [Insert, h1, if_false, hs]

theorem Delete_tree_cases (t : File) (full : Str) :
    (Delete t full).2 = t ∨
      ∃ p i, ParentResolves t full p ∧
        (Delete t full).2 = t.modifyAt (fun q => { q with Children := cut q.Children i }) p.1 := by
  rcases parent_cases t full with ⟨p, hp⟩ | ⟨h1, hs⟩
  · cases hfc : findChild (path.Split full).2 p.2.Children with
    | some r => right; exact ⟨p, r.1, hp, by rw [Delete_of_resolves hp, hfc]⟩
    | none => left; rw [Delete_of_resolves hp, hfc]
  · left; simp only [Delete, h1, if_false, hs]

theorem Insert_siblingsDistinct {t : File} (full : Str) (k : Bool) (h : SiblingsDistinct t) :
    SiblingsDistinct (Insert t full k).2.2 := by
  rcases Insert_tree_cases t full k with he | ⟨p, hp, hfc, he⟩
  · rw [he]; exact h
  · rw [he]
    refine (AllNodes.modifyAt distinctChildren_congr _ p.1 t h ?_).1
    intro n hn
    refine ⟨rfl, ?_⟩
    have hnp : n = p.2 := by
      have := hp.get?
      rw [hn] at this
      exact Option.some.inj this
    subst hnp
    have hsub : SiblingsDistinct p.2 := AllNodes.sub h hn
    apply siblingsDistinct_append hsub
    · rw [List.map_append]
      refine List.Nodup.append (hsub [] p.2 rfl) (by simp) ?_
      intro a ha hb
      have hab : a = (path.Split full).2 := by simpa [NewChild_snd_name] using hb
      obtain ⟨c, hc, hca⟩ := List.mem_map.1 ha
      exact findChild_eq_none.1 hfc c hc (hca.trans hab)
    · intro c hc
      have : c = (NewChild p.2 (path.Split full).2 k).2 := by simpa using hc
      subst this; rfl

theorem Delete_siblingsDistinct {t : File} (full : Str) (h : SiblingsDistinct t) :
    SiblingsDistinct (Delete t full).2 := by
  rcases Delete_tree_cases t full with he | ⟨p, i, _, he⟩
  · rw [he]; exact h
  · rw [he]
    refine (AllNodes.modifyAt distinctChildren_congr _ p.1 t h ?_).1
    intro n hn
    refine ⟨rfl, ?_⟩
    apply siblingsDistinct_sublist (AllNodes.sub h hn)
    rw [cut_eq_eraseIdx]
    exact List.eraseIdx_sublist _ _

theorem LoadChildren_siblingsDistinct {t : File} (dl : URL → DownloadOutcome)
    (files dirs : List Str) (h : SiblingsDistinct t) :
    SiblingsDistinct (LoadChildren dl t files dirs).2 := by
  obtain ⟨added, h1, h2, h3⟩ := LoadChildren_spec dl t files dirs (h [] t rfl)
  rw [h1]
  exact siblingsDistinct_append h h2 h3

theorem LoadChildren_name (dl : URL → DownloadOutcome) (t : File) (files dirs : List Str) :
    (LoadChildren dl t files dirs).2.name = t.name := by
  by_cases hnd : (t.Children.map File.name).Nodup
  · obtain ⟨added, h1, _, _⟩ := LoadChildren_spec dl t files dirs hnd
    rw [h1]
  · unfold LoadChildren
    split
    · rfl
    · split
      · rename_i e t1 heq
        have : t1 = (loadLoop dl false "could not new child file → ".toList t files).2 := by
          rw [heq]
        rw [this, loadLoop_name]
      · rename_i t1 heq
        have : t1 = (loadLoop dl false "could not new child file → ".toList t files).2 := by
          rw [heq]
        rw [loadLoop_name, this, loadLoop_name]

/-- C8: sibling names are unique in every reachable tree: in `NewTree`, and after any
`Insert`, `Delete`, `Sync` and `LoadChildren`, for any remote listing (repeated names
and names in both lists included), any order of the range over the listing and any
outcome of the downloads, the names of the children of each node are pairwise
distinct. -/
theorem reachable_siblings_distinct (t : File) (h : Reachable t) :
    ∀ l n, t.get? l = some n → (n.Children.map File.name).Nodup := by
  have key : SiblingsDistinct t := by
    induction h with
    | newTree => exact siblingsDistinct_leaf rfl
    | insert t full isDir _ ih => exact Insert_siblingsDistinct full isDir ih
    | delete t full _ ih => exact Delete_siblingsDistinct full ih
    | sync t l files dirs keys _ hk ih =>
      refine (AllNodes.modifyAt distinctChildren_congr _ l t ih ?_).1
      intro n hn
      refine ⟨?_, Sync_siblingsDistinct hk (AllNodes.sub ih hn)⟩
      rw [Sync_eq]
    | loadChildren t l dl files dirs _ ih =>
      refine (AllNodes.modifyAt distinctChildren_congr _ l t ih ?_).1
      intro n hn
      exact ⟨LoadChildren_name dl n files dirs,
        LoadChildren_siblingsDistinct dl files dirs (AllNodes.sub ih hn)⟩
  exact key

/-- Witness of C8: the root after a sync whose listing names `a` twice among the files
and `b` as a file and as a directory. -/
theorem reachable_siblings_distinct_witness :
    (((NewTree.modifyAt (fun d => Sync d [['a'], ['a'], ['b']] [['b']] [['b'], ['a']])
      []).Children.map File.name).Nodup) :=
  reachable_siblings_distinct _
    (Reachable.sync NewTree [] [['a'], ['a'], ['b']] [['b']] [['b'], ['a']] Reachable.newTree
      (by decide))
    [] _ rfl

/-! ## What a sync adds -/

/-- C10: after `Sync` of a node, for any listing and any order of the range over it,
the old children are the first children of the node, unchanged and in the old order;
the node keeps its name, kind and blob; the child names are the old names together
with the names in `files` and `dirs`; each added child is a leaf whose name was not
there before, and is a directory exactly when its name is in `dirs`. -/
theorem Sync_superset (d : File) (files dirs keys : List Str)
    (hk : RangeOrder (files ++ dirs) keys) :
    ∃ added : List File,
      (Sync d files dirs keys).Children = d.Children ++ added ∧
      (Sync d files dirs keys).name = d.name ∧
      (Sync d files dirs keys).isDir = d.isDir ∧
      (Sync d files dirs keys).Blob = d.Blob ∧
      (∀ n, n ∈ (Sync d files dirs keys).Children.map File.name ↔
        n ∈ d.Children.map File.name ∨ n ∈ files ∨ n ∈ dirs) ∧
      (∀ c ∈ added, (c.isDir = true ↔ c.name ∈ dirs) ∧ c.Children = [] ∧
        c.name ∉ d.Children.map File.name) := by
  refine ⟨(missingLocally keys (d.Children.map File.name) (files ++ dirs)).map
      (fun name => (NewChild d name (isADir dirs name)).2), ?_, ?_, ?_, ?_, ?_, ?_⟩
  · rw [Sync_eq]
  · rw [Sync_eq]
  · rw [Sync_eq]
  · rw [Sync_eq]
  · intro n
    rw [Sync_eq]
    simp only [List.map_append, map_name_new, List.mem_append, mem_missingLocally hk]
    constructor
    · rintro (h | ⟨h | h, _⟩)
      · exact Or.inl h
      · exact Or.inr (Or.inl h)
      · exact Or.inr (Or.inr h)
    · intro h
      by_cases hl : n ∈ d.Children.map File.name
      · exact Or.inl hl
      · rcases h with h | h | h
        · exact absurd h hl
        · exact Or.inr ⟨Or.inl h, hl⟩
        · exact Or.inr ⟨Or.inr h, hl⟩
  · intro c hc
    obtain ⟨n, hn, rfl⟩ := List.mem_map.1 hc
    refine ⟨?_, rfl, ?_⟩
    · show isADir dirs n = true ↔ n ∈ dirs
      exact isADir_iff dirs n
    · show n ∉ d.Children.map File.name
      exact ((mem_missingLocally hk n).1 hn).2

/-- Witness of C10: a sync of the tree with the directory `/a` against a listing with
the files `a`, `b` and the directories `b`, `c`. -/
theorem Sync_superset_witness :
    ∃ added : List File,
      (Sync treeA [['a'], ['b']] [['b'], ['c']] [['c'], ['a'], ['b']]).Children =
        treeA.Children ++ added ∧
      (Sync treeA [['a'], ['b']] [['b'], ['c']] [['c'], ['a'], ['b']]).name = treeA.name ∧
      (Sync treeA [['a'], ['b']] [['b'], ['c']] [['c'], ['a'], ['b']]).isDir = treeA.isDir ∧
      (Sync treeA [['a'], ['b']] [['b'], ['c']] [['c'], ['a'], ['b']]).Blob = treeA.Blob ∧
      (∀ n, n ∈ (Sync treeA [['a'], ['b']] [['b'], ['c']]
            [['c'], ['a'], ['b']]).Children.map File.name ↔
        n ∈ treeA.Children.map File.name ∨ n ∈ [['a'], ['b']] ∨ n ∈ [['b'], ['c']]) ∧
      (∀ c ∈ added, (c.isDir = true ↔ c.name ∈ [['b'], ['c']]) ∧ c.Children = [] ∧
        c.name ∉ treeA.Children.map File.name) :=
  Sync_superset treeA [['a'], ['b']] [['b'], ['c']] [['c'], ['a'], ['b']] (by decide)

/-! ## Where the code departs from the specification -/

/-- C1: in the reachable tree with the directory `/a` and the file `/a/a`, the node at
location `[0, 0]` has the absolute path `/a/a`, and `Search` of `/a/a` returns, with
no error, the node at location `[0]`, the directory `/a`. -/
theorem Search_nested_same_name :
    Reachable treeAA ∧
      treeAA.pathOf [0, 0] = some ['/', 'a', '/', 'a'] ∧
      (treeAA.get? [0, 0]).map File.isDir = some false ∧
      (Search treeAA ['/', 'a', '/', 'a']).1.map Prod.fst = some [0] ∧
      (Search treeAA ['/', 'a', '/', 'a']).2 = none :=
  ⟨Reachable.insert _ _ _ (Reachable.insert _ _ _ Reachable.newTree), by decide, by decide,
    by decide, by decide⟩

/-- C2: in the tree with the one directory `/a`, which has no children, `Search` of
`/a/a` returns the node `/a` and no error, although `/a` has no child called `a`; the
path of the node returned is `/a`, the cleaned path searched is `/a/a`. -/
theorem Search_missing_child_found :
    (treeA.get? [0]).map (fun n => n.Children.length) = some 0 ∧
      path.Clean ['/', 'a', '/', 'a'] = ['/', 'a', '/', 'a'] ∧
      (Search treeA ['/', 'a', '/', 'a']).1.map Prod.fst = some [0] ∧
      (Search treeA ['/', 'a', '/', 'a']).2 = none ∧
      treeA.pathOf [0] = some ['/', 'a'] :=
  ⟨by decide, by decide, by decide, by decide, by decide⟩

/-- C9: in the reachable tree made by inserting the file `/f` and then `/f/x`, the
node `/f` is a file and has one child. -/
theorem Insert_under_file :
    Reachable treeFX ∧
      (treeFX.get? [0]).map (fun n => (n.isDir, n.Children.length)) = some (false, 1) ∧
      (Insert (Insert NewTree ['/', 'f'] false).2.2 ['/', 'f', '/', 'x'] false).2.1 = none :=
  ⟨Reachable.insert _ _ _ (Reachable.insert _ _ _ Reachable.newTree), by decide, by decide⟩

/-! ## Running the reconciliation twice -/

theorem missingLocally_nil_of_subset {keys lcl remote : List Str}
    (h : ∀ k ∈ keys, k ∈ lcl) : missingLocally keys lcl remote = [] := by
  unfold missingLocally
  rw [List.filter_eq_nil_iff]
  intro k hk
  simpa using h k hk

/-- One turn of a loop of `LoadChildren` for a name that is not there yet. -/
theorem loadLoop_cons_new (dl : URL → DownloadOutcome) (k : Bool) (msg : Str) (name : Str)
    (rest : List Str) (t : File) (hex : ¬ «exists» t name = true) :
    loadLoop dl k msg t (name :: rest) =
      match ((NewChild t name k).2.Blob.Download dl).1 with
      | some e => (some (msg ++ e), withLoaded dl t name k)
      | none => loadLoop dl k msg (withLoaded dl t name k) rest := by
  have ht2 :
      File.mk t.name t.isDir t.Blob
          ((t.Children ++ [(NewChild t name k).2]).set t.Children.length
            (File.mk name k ((NewChild t name k).2.Blob.Download dl).2 [])) =
        withLoaded dl t name k := by
    simp [withLoaded]
  rw [loadLoop, if_neg hex]
  simp only
  cases ((NewChild t name k).2.Blob.Download dl).1 with
  | some e => exact congrArg (fun x => (some (msg ++ e), x)) ht2
  | none => exact congrArg (fun x => loadLoop dl k msg x rest) ht2

theorem loadLoop_cons_old (dl : URL → DownloadOutcome) (k : Bool) (msg : Str) (name : Str)
    (rest : List Str) (t : File) (hex : «exists» t name = true) :
    loadLoop dl k msg t (name :: rest) = loadLoop dl k msg t rest := by
  rw [loadLoop, if_pos hex]

theorem exists_withLoaded (dl : URL → DownloadOutcome) (t : File) (name : Str) (k : Bool)
    (n : Str) : «exists» (withLoaded dl t name k) n = true ↔ «exists» t n = true ∨ n = name := by
  rw [exists_iff, exists_iff]
  simp [withLoaded]

/-- A loop of `LoadChildren` appends to the children, whatever they were. -/
theorem loadLoop_append (dl : URL → DownloadOutcome) (k : Bool) (msg : Str) (names : List Str)
    (t : File) :
    ∃ added : List File,
      (loadLoop dl k msg t names).2 = { t with Children := t.Children ++ added } := by
  induction names generalizing t with
  | nil => exact ⟨[], by simp [loadLoop, File.with_children_self]⟩
  | cons name rest ih =>
    by_cases hex : «exists» t name = true
    · rw [loadLoop_cons_old dl k msg name rest t hex]
      exact ih t
    · rw [loadLoop_cons_new dl k msg name rest t hex]
      cases ((NewChild t name k).2.Blob.Download dl).1 with
      | some e => exact ⟨_, rfl⟩
      | none =>
        obtain ⟨added, h⟩ := ih (withLoaded dl t name k)
        refine ⟨File.mk name k ((NewChild t name k).2.Blob.Download dl).2 [] :: added, ?_⟩
        simp only [h]
        simp [withLoaded]

/-- A loop of `LoadChildren` that returns no error leaves every name of its list among
the children, and keeps the names that were there. -/
theorem loadLoop_ok_exists (dl : URL → DownloadOutcome) (k : Bool) (msg : Str)
    (names : List Str) (t : File) (hok : (loadLoop dl k msg t names).1 = none) :
    ∀ n, (n ∈ names ∨ «exists» t n = true) → «exists» (loadLoop dl k msg t names).2 n = true := by
  induction names generalizing t with
  | nil =>
    intro n hn
    rcases hn with hn | hn
    · simp at hn
    · exact hn
  | cons name rest ih =>
    intro n hn
    by_cases hex : «exists» t name = true
    · rw [loadLoop_cons_old dl k msg name rest t hex] at hok ⊢
      apply ih t hok
      rcases hn with hn | hn
      · rcases List.mem_cons.1 hn with rfl | hn
        · exact Or.inr hex
        · exact Or.inl hn
      · exact Or.inr hn
    · rw [loadLoop_cons_new dl k msg name rest t hex] at hok ⊢
      cases herr : ((NewChild t name k).2.Blob.Download dl).1 with
      | some e => rw [herr] at hok; exact absurd hok (by simp)
      | none =>
        rw [herr] at hok
        simp only at hok ⊢
        apply ih _ hok
        rcases hn with hn | hn
        · rcases List.mem_cons.1 hn with rfl | hn
          · exact Or.inr ((exists_withLoaded dl t n k n).2 (Or.inr rfl))
          · exact Or.inl hn
        · exact Or.inr ((exists_withLoaded dl t name k n).2 (Or.inl hn))

/-- A loop of `LoadChildren` over names that are all there changes nothing. -/
theorem loadLoop_skip (dl : URL → DownloadOutcome) (k : Bool) (msg : Str) (names : List Str)
    (t : File) (h : ∀ n ∈ names, «exists» t n = true) : loadLoop dl k msg t names = (none, t) := by
  induction names with
  | nil => rfl
  | cons name rest ih =>
    rw [loadLoop_cons_old dl k msg name rest t (h name (by simp))]
    exact ih (fun n hn => h n (by simp [hn]))

theorem loadLoop_isDir (dl : URL → DownloadOutcome) (k : Bool) (msg : Str) (names : List Str)
    (t : File) : (loadLoop dl k msg t names).2.isDir = t.isDir := by
  obtain ⟨added, h⟩ := loadLoop_append dl k msg names t
  rw [h]

/-- `LoadChildren` on a directory runs the loop over the files and, when that returns
no error, the loop over the directories. -/
theorem LoadChildren_of_dir (dl : URL → DownloadOutcome) (t : File) (files dirs : List Str)
    (hdir : t.isDir = true) :
    LoadChildren dl t files dirs =
      match loadLoop dl false "could not new child file → ".toList t files with
      | (some e, t1) => (some e, t1)
      | (none, t1) => loadLoop dl true "could not new child dir → ".toList t1 dirs := by
  unfold LoadChildren
  rw [if_neg (by rw [hdir]; decide)]

theorem LoadChildren_of_not_dir (dl : URL → DownloadOutcome) (t : File) (files dirs : List Str)
    (hdir : ¬ t.isDir = true) :
    LoadChildren dl t files dirs = (some "is a file, not a dir".toList, t) := by
  unfold LoadChildren
  rw [if_pos (by simpa using hdir)]

/-- C11: for every node, listing and orders of the two ranges, a second `Sync` with the
same listing adds nothing: the node after it is the node after the first. And when
`LoadChildren` returns no error (the node is a directory and every download works),
a second `LoadChildren` with the same listing returns no error and leaves the node
as the first left it, whatever the store would answer. -/
theorem Sync_LoadChildren_idempotent (d : File) (files dirs keys keys' : List Str)
    (hk : RangeOrder (files ++ dirs) keys) (hk' : RangeOrder (files ++ dirs) keys') :
    Sync (Sync d files dirs keys) files dirs keys' = Sync d files dirs keys ∧
      ∀ dl dl' : URL → DownloadOutcome, (LoadChildren dl d files dirs).1 = none →
        LoadChildren dl' (LoadChildren dl d files dirs).2 files dirs =
          (none, (LoadChildren dl d files dirs).2) := by
  constructor
  · have hall : ∀ k ∈ keys', k ∈ (Sync d files dirs keys).Children.map File.name := by
      intro k hkk
      rw [Sync_eq]
      simp only [List.map_append, map_name_new, List.mem_append, mem_missingLocally hk]
      by_cases hl : k ∈ d.Children.map File.name
      · exact Or.inl hl
      · exact Or.inr ⟨List.mem_append.1 (hk'.2.1 k hkk), hl⟩
    rw [Sync_eq (Sync d files dirs keys), missingLocally_nil_of_subset hall]
    simp [File.with_children_self]
  · intro dl dl' hok
    by_cases hdir : d.isDir = true
    · rw [LoadChildren_of_dir dl d files dirs hdir] at hok ⊢
      cases h : loadLoop dl false "could not new child file → ".toList d files with
      | mk e t1 =>
        rw [h] at hok
        cases e with
        | some e => exact absurd hok (by simp)
        | none =>
          simp only at hok ⊢
          have hf : ∀ n ∈ files, «exists» t1 n = true := by
            intro n hn
            have := loadLoop_ok_exists dl false "could not new child file → ".toList files d
              (by rw [h]) n (Or.inl hn)
            rw [h] at this
            exact this
          have hall := loadLoop_ok_exists dl true "could not new child dir → ".toList dirs t1 hok
          have hdir2 : (loadLoop dl true "could not new child dir → ".toList t1 dirs).2.isDir =
              true := by
            rw [loadLoop_isDir]
            have := loadLoop_isDir dl false "could not new child file → ".toList files d
            rw [h] at this
            exact this.trans hdir
          rw [LoadChildren_of_dir dl' _ files dirs hdir2,
            loadLoop_skip dl' false "could not new child file → ".toList files _
              (fun n hn => hall n (Or.inr (hf n hn)))]
          exact loadLoop_skip dl' true "could not new child dir → ".toList dirs _
            (fun n hn => hall n (Or.inl hn))
    · rw [LoadChildren_of_not_dir dl d files dirs hdir] at hok
      exact absurd hok (by simp)

/-- Witness of C11: two syncs of the tree with the directory `/a` against the files
`a`, `b` and the directories `b`, `c`, the two ranges in different orders. -/
theorem Sync_LoadChildren_idempotent_witness :
    Sync (Sync treeA [['a'], ['b']] [['b'], ['c']] [['c'], ['a'], ['b']])
        [['a'], ['b']] [['b'], ['c']] [['b'], ['c'], ['a']] =
      Sync treeA [['a'], ['b']] [['b'], ['c']] [['c'], ['a'], ['b']] ∧
      ∀ dl dl' : URL → DownloadOutcome,
        (LoadChildren dl treeA [['a'], ['b']] [['b'], ['c']]).1 = none →
        LoadChildren dl' (LoadChildren dl treeA [['a'], ['b']] [['b'], ['c']]).2
            [['a'], ['b']] [['b'], ['c']] =
          (none, (LoadChildren dl treeA [['a'], ['b']] [['b'], ['c']]).2) :=
  Sync_LoadChildren_idempotent treeA [['a'], ['b']] [['b'], ['c']] [['c'], ['a'], ['b']]
    [['b'], ['c'], ['a']] (by decide) (by decide)

/-! ## The order of the children that a sync adds -/

/-- Counterexample to C12: on the empty tree with the files `a`, `b` listed, a range
that visits `b` before `a` is one of the orders a Go map allows, and `Sync` then adds
`b` before `a`, not in the listing order `a`, `b`; a second run whose range visits `a`
first gives another children sequence for the same tree and listing. -/
theorem Sync_order_not_fixed :
    RangeOrder ([['a'], ['b']] ++ []) [['b'], ['a']] ∧
      RangeOrder ([['a'], ['b']] ++ []) [['a'], ['b']] ∧
      (Sync NewTree [['a'], ['b']] [] [['b'], ['a']]).Children.map File.name = [['b'], ['a']] ∧
      listingOrder (NewTree.Children.map File.name) [['a'], ['b']] [] = [['a'], ['b']] ∧
      (Sync NewTree [['a'], ['b']] [] [['a'], ['b']]).Children.map File.name ≠
        (Sync NewTree [['a'], ['b']] [] [['b'], ['a']]).Children.map File.name := by
  refine ⟨by decide, by decide, by decide, by decide, by decide⟩

/-- C12, amended: the children that `Sync` appends are one for each name of the
listing that the node lacks, each once, in the order in which the range over the map
of remote names visits them; that order is a rearrangement of the distinct missing
names of the listing. -/
theorem Sync_appends_in_range_order (d : File) (files dirs keys : List Str)
    (hk : RangeOrder (files ++ dirs) keys) :
    ∃ added : List File,
      (Sync d files dirs keys).Children = d.Children ++ added ∧
      added.map File.name = keys.filter (fun n => decide (n ∉ d.Children.map File.name)) ∧
      (added.map File.name).Nodup ∧
      (added.map File.name).Perm
        ((files ++ dirs).dedup.filter (fun n => decide (n ∉ d.Children.map File.name))) := by
  refine ⟨(missingLocally keys (d.Children.map File.name) (files ++ dirs)).map
      (fun name => (NewChild d name (isADir dirs name)).2), ?_, ?_, ?_, ?_⟩
  · rw [Sync_eq]
  · rw [map_name_new]; rfl
  · rw [map_name_new]; exact hk.1.filter _
  · rw [map_name_new]
    unfold missingLocally
    apply List.Perm.filter
    rw [List.perm_ext_iff_of_nodup hk.1 (List.nodup_dedup _)]
    intro a
    rw [List.mem_dedup]
    exact ⟨hk.2.1 a, hk.2.2 a⟩

/-- Witness of C12, amended: the sync of the counterexample. -/
theorem Sync_appends_in_range_order_witness :
    ∃ added : List File,
      (Sync NewTree [['a'], ['b']] [] [['b'], ['a']]).Children = NewTree.Children ++ added ∧
      added.map File.name =
        [['b'], ['a']].filter (fun n => decide (n ∉ NewTree.Children.map File.name)) ∧
      (added.map File.name).Nodup ∧
      (added.map File.name).Perm
        (([['a'], ['b']] ++ []).dedup.filter
          (fun n => decide (n ∉ NewTree.Children.map File.name))) :=
  Sync_appends_in_range_order NewTree [['a'], ['b']] [] [['b'], ['a']] (by decide)

/-! ## Writing and reading the content of a file -/

/-- A root sync leaves every node where it was, with its blob, kind and name. -/
theorem syncRoot_get? {t : File} {l : Loc} {f : File} (ls : Listing) (h : t.get? l = some f) :
    ∃ f', (syncRoot t ls).get? l = some f' ∧ f'.Blob = f.Blob ∧ f'.isDir = f.isDir ∧
      f'.name = f.name ∧ (l ≠ [] → f' = f) := by
  unfold syncRoot
  rw [Sync_eq]
  cases l with
  | nil =>
    simp only [File.get?_nil, Option.some.injEq] at h
    subst h
    exact ⟨_, rfl, rfl, rfl, rfl, fun hne => absurd rfl hne⟩
  | cons i l =>
    rw [File.get?_cons] at h
    cases hc : t.Children[i]? with
    | none => rw [hc] at h; simp at h
    | some c =>
      rw [hc] at h
      have hlt : i < t.Children.length := by
        rcases Nat.lt_or_ge i t.Children.length with h' | h'
        · exact h'
        · rw [List.getElem?_eq_none_iff.2 h'] at hc; simp at hc
      refine ⟨f, ?_, rfl, rfl, rfl, fun _ => rfl⟩
      rw [File.get?_cons]
      show ((t.Children ++ _)[i]?).bind _ = _
      rw [List.getElem?_append_left hlt, hc]
      exact h

theorem setBlob_get? (t : File) (l : Loc) (b : Blob) :
    (setBlob t l b).get? l = (t.get? l).map (fun f => { f with Blob := b }) :=
  File.get?_modifyAt_self _ t l

/-- C13: for a node with cached content `c` and an offset beyond the length of `c`,
`WriteAt` returns `0` and `io.EOF`, makes no request to the share, and leaves the
cached content of the node equal to `c`. -/
theorem WriteAt_beyond_end (t : File) (l : Loc) (ls : Listing) (cap : Nat)
    (ans : UploadAnswer) (p : List Nat) (off : Int) (f : File)
    (hf : t.get? l = some f) (hoff : off > (f.Blob.Contents.length : Int)) :
    ∃ w f', WriteAt t l ls cap ans p off = some w ∧
      w.n = 0 ∧ w.err = some io.EOF ∧ w.calls = [] ∧
      w.tree.get? l = some f' ∧ f'.Blob.Contents = f.Blob.Contents := by
  obtain ⟨f1, hget, hblob, _, _, _⟩ := syncRoot_get? ls hf
  have hoff' : off > ((({ f1.Blob with tracked := true } : Blob).Contents.length : Nat) : Int) := by
    show off > ((f1.Blob.body.length : Nat) : Int)
    rw [hblob]; exact hoff
  refine ⟨⟨0, some io.EOF, setBlob (syncRoot t ls) l { f1.Blob with tracked := true }, []⟩,
    { f1 with Blob := { f1.Blob with tracked := true } }, ?_, rfl, rfl, rfl, ?_, ?_⟩
  · simp only [WriteAt, hget]
    rw [if_pos hoff']
  · rw [setBlob_get?, hget]; rfl
  · show f1.Blob.body = f.Blob.body
    rw [hblob]

/-- Witness of C13: writing one byte at offset 10 of a file whose content has five
bytes. -/
theorem WriteAt_beyond_end_witness :
    ∃ w f', WriteAt treeHello [0] noListing 64 ⟨none, none⟩ [122] 10 = some w ∧
      w.n = 0 ∧ w.err = some io.EOF ∧ w.calls = [] ∧
      w.tree.get? [0] = some f' ∧
      f'.Blob.Contents =
        ({ (NewChild NewTree ['f'] false).2.Blob with body := hello } : Blob).Contents :=
  WriteAt_beyond_end treeHello [0] noListing 64 ⟨none, none⟩ [122] 10 _ rfl (by decide)

/-- C14: for a node with cached content `c`, an offset from `0` to the length of `c` and
bytes `p`, when the upload of the new content returns no error `WriteAt` returns the
length of `p` and no error, and the cached content afterwards is the first `off` bytes
of `c` followed by `p`. -/
theorem WriteAt_overwrites (t : File) (l : Loc) (ls : Listing) (cap : Nat)
    (ans : UploadAnswer) (p : List Nat) (off : Int) (f : File)
    (hf : t.get? l = some f) (h0 : 0 ≤ off) (hle : off ≤ (f.Blob.Contents.length : Int))
    (hup : (Blob.Upload ans
      { f.Blob with tracked := true, body := f.Blob.Contents.take off.toNat ++ p }).1 = none) :
    ∃ w f', WriteAt t l ls cap ans p off = some w ∧
      w.n = p.length ∧ w.err = none ∧
      w.tree.get? l = some f' ∧ f'.Blob.Contents = f.Blob.Contents.take off.toNat ++ p := by
  obtain ⟨f1, hget, hblob, _, _, _⟩ := syncRoot_get? ls hf
  have hkept : (if off < ((f1.Blob.body.length : Nat) : Int) then f1.Blob.body.take off.toNat
      else f1.Blob.body) = f.Blob.body.take off.toNat := by
    rw [hblob]
    split
    · rfl
    · rename_i hnlt
      have heq : off.toNat = f.Blob.body.length := by
        have : off = (f.Blob.body.length : Int) := le_antisymm hle (not_lt.1 hnlt)
        rw [this]; simp
      rw [heq, List.take_length]
  have hnot : ¬ off > ((f1.Blob.body.length : Nat) : Int) := by
    rw [hblob]; exact not_lt.2 hle
  cases hu : Blob.Upload ans
      { f.Blob with tracked := true, body := f.Blob.Contents.take off.toNat ++ p } with
  | mk e calls =>
    rw [hu] at hup
    simp only at hup
    subst hup
    refine ⟨⟨p.length, none, setBlob (syncRoot t ls) l
        { f.Blob with tracked := true, body := f.Blob.Contents.take off.toNat ++ p }, calls⟩,
      { f1 with Blob :=
          { f.Blob with tracked := true, body := f.Blob.Contents.take off.toNat ++ p } },
      ?_, rfl, rfl, ?_, rfl⟩
    · simp only [WriteAt, hget, Blob.Contents]
      rw [if_neg hnot, if_neg (not_lt.2 h0), hkept, hblob]
      simp only [Blob.Contents] at hu
      rw [hu]
    · rw [setBlob_get?, hget]; rfl

/-- Witness of C14: writing `XY` at offset 2 of a file whose content is `hello`, the
share accepting the upload. -/
theorem WriteAt_overwrites_witness :
    ∃ w f', WriteAt treeHello [0] noListing 64 ⟨none, none⟩ XY 2 = some w ∧
      w.n = XY.length ∧ w.err = none ∧
      w.tree.get? [0] = some f' ∧
      f'.Blob.Contents =
        ({ (NewChild NewTree ['f'] false).2.Blob with body := hello } : Blob).Contents.take
          (2 : Int).toNat ++ XY :=
  WriteAt_overwrites treeHello [0] noListing 64 ⟨none, none⟩ XY 2 _ rfl (by decide) (by decide)
    (by decide)

/-- C15: the file `/f` holds `hello`; `WriteAt` of `XY` at offset 2 with a share that
refuses the upload returns `0` and the error of the share, and the cached content
afterwards is `heXYo`, for a buffer of capacity 64 and for one of capacity 5. -/
theorem WriteAt_restore_overwritten :
    (WriteAt treeHello [0] noListing 64 ⟨some ['n', 'o'], none⟩ XY 2).map
        (fun w => (w.n, w.err, (w.tree.get? [0]).map (fun f => f.Blob.Contents))) =
      some (0, some ['n', 'o'], some [104, 101, 88, 89, 111]) ∧
    (WriteAt treeHello [0] noListing 5 ⟨some ['n', 'o'], none⟩ XY 2).map
        (fun w => (w.n, w.err, (w.tree.get? [0]).map (fun f => f.Blob.Contents))) =
      some (0, some ['n', 'o'], some [104, 101, 88, 89, 111]) ∧
    (treeHello.get? [0]).map (fun f => f.Blob.Contents) = some hello ∧
    [104, 101, 88, 89, 111] ≠ hello := by
  refine ⟨by decide, by decide, by decide, by decide⟩

theorem take_min_length (xs : List Nat) (n : Nat) : xs.take n = xs.take (min n xs.length) := by
  rcases le_total n xs.length with h | h
  · rw [min_eq_left h]
  · rw [min_eq_right h, List.take_length, List.take_of_length_le h]

/-- What `ReadAt` does on a file: `c` is the content of the node after the download. -/
theorem ReadAt_of_file (t : File) (l : Loc) (ls₀ ls₁ ls₂ : Listing)
    (dl : URL → DownloadOutcome) (plen : Nat) (offset : Int) (f : File)
    (hf : t.get? l = some f) (hfile : f.isDir = false) :
    ∃ t3 f3, t3.get? l = some f3 ∧
      f3.Blob.Contents = (Blob.Download dl { f.Blob with tracked := true }).2.Contents ∧
      ReadAt t l ls₀ ls₁ ls₂ dl plen offset =
        if offset ≥ ((Blob.Download dl { f.Blob with tracked := true }).2.Contents.length : Int)
        then some ⟨0, some io.EOF, [], t3⟩
        else if offset < 0 then none
        else
          some ⟨(((Blob.Download dl { f.Blob with tracked := true }).2.Contents.drop
                offset.toNat).take plen).length,
            none,
            ((Blob.Download dl { f.Blob with tracked := true }).2.Contents.drop
              offset.toNat).take plen,
            t3⟩ := by
  obtain ⟨f1, hget1, hblob1, hdir1, _, _⟩ := syncRoot_get? ls₀ hf
  -- the node after the download
  have hget2 : (setBlob (syncRoot t ls₀) l
      (Blob.Download dl { f.Blob with tracked := true }).2).get? l =
      some { f1 with Blob := (Blob.Download dl { f.Blob with tracked := true }).2 } := by
    rw [setBlob_get?, hget1]; rfl
  -- the node after the first sync of `Size`
  obtain ⟨g1, hg1, hgb1, _, _, _⟩ := syncRoot_get? ls₁ hget2
  -- the node after `tracked = true`
  have hg2 : ((syncRoot (setBlob (syncRoot t ls₀) l
      (Blob.Download dl { f.Blob with tracked := true }).2) ls₁).modifyAt
      (fun g => { g with Blob := { g.Blob with tracked := true } }) l).get? l =
      some { g1 with Blob := { g1.Blob with tracked := true } } := by
    rw [File.get?_modifyAt_self, hg1]; rfl
  -- the node after the sync of `IsDir`
  obtain ⟨g3, hg3, hgb3, _, _, _⟩ := syncRoot_get? ls₂ hg2
  refine ⟨_, g3, hg3, ?_, ?_⟩
  · show g3.Blob.body = _
    rw [hgb3]
    show g1.Blob.body = _
    rw [hgb1]
    rfl
  · simp only [ReadAt, hget1, hblob1, Size, hget2, hdir1, hfile]
    rfl

/-- C16: for a file whose content after the download of `ReadAt` is `c`, a destination
of length `plen` and an offset: when the offset is not below the length of `c`,
`ReadAt` returns `0` and `io.EOF`; when the offset is from `0` to below that length, it
returns no error and the count `min plen (length c - offset)`, the bytes copied are
the bytes of `c` from the offset on, that many; in both cases the cached content
afterwards is `c`. -/
theorem ReadAt_copies (t : File) (l : Loc) (ls₀ ls₁ ls₂ : Listing)
    (dl : URL → DownloadOutcome) (plen : Nat) (offset : Int) (f : File)
    (hf : t.get? l = some f) (hfile : f.isDir = false) :
    (offset ≥ ((Blob.Download dl { f.Blob with tracked := true }).2.Contents.length : Int) →
        ∃ r f', ReadAt t l ls₀ ls₁ ls₂ dl plen offset = some r ∧
          r.n = 0 ∧ r.err = some io.EOF ∧ r.data = [] ∧ r.tree.get? l = some f' ∧
          f'.Blob.Contents = (Blob.Download dl { f.Blob with tracked := true }).2.Contents) ∧
      (0 ≤ offset →
        offset < ((Blob.Download dl { f.Blob with tracked := true }).2.Contents.length : Int) →
        ∃ r f', ReadAt t l ls₀ ls₁ ls₂ dl plen offset = some r ∧
          r.n = min plen
            ((Blob.Download dl { f.Blob with tracked := true }).2.Contents.length -
              offset.toNat) ∧
          r.err = none ∧
          r.data =
            ((Blob.Download dl { f.Blob with tracked := true }).2.Contents.drop
              offset.toNat).take r.n ∧
          r.data.length = r.n ∧ r.tree.get? l = some f' ∧
          f'.Blob.Contents = (Blob.Download dl { f.Blob with tracked := true }).2.Contents) := by
  obtain ⟨t3, f3, hget, hbody, hR⟩ := ReadAt_of_file t l ls₀ ls₁ ls₂ dl plen offset f hf hfile
  constructor
  · intro hge
    rw [if_pos hge] at hR
    exact ⟨_, f3, hR, rfl, rfl, rfl, hget, hbody⟩
  · intro h0 hlt
    rw [if_neg (not_le.2 hlt), if_neg (not_lt.2 h0)] at hR
    refine ⟨_, f3, hR, ?_, rfl, ?_, rfl, hget, hbody⟩
    · show (List.take plen (List.drop offset.toNat _)).length = _
      rw [List.length_take, List.length_drop]
    · show List.take plen (List.drop offset.toNat _) =
        List.take (List.take plen (List.drop offset.toNat _)).length _
      rw [List.length_take]
      exact take_min_length _ plen

/-- Witness of C16: reading three bytes at offset 1, and reading at offset 5, from the
file `/f` when the share holds `hello` for it. -/
theorem ReadAt_copies_witness :
    (∃ r f', ReadAt treeF [0] noListing noListing noListing
          (fun _ => DownloadOutcome.ok hello) 3 5 = some r ∧
        r.n = 0 ∧ r.err = some io.EOF ∧ r.data = [] ∧ r.tree.get? [0] = some f' ∧
        f'.Blob.Contents = hello) ∧
      (∃ r f', ReadAt treeF [0] noListing noListing noListing
          (fun _ => DownloadOutcome.ok hello) 3 1 = some r ∧
        r.n = min 3 (hello.length - (1 : Int).toNat) ∧ r.err = none ∧
        r.data = (hello.drop (1 : Int).toNat).take r.n ∧
        r.data.length = r.n ∧ r.tree.get? [0] = some f' ∧
        f'.Blob.Contents = hello) :=
  ⟨(ReadAt_copies treeF [0] noListing noListing noListing (fun _ => DownloadOutcome.ok hello)
      3 5 _ rfl rfl).1 (by decide),
    (ReadAt_copies treeF [0] noListing noListing noListing (fun _ => DownloadOutcome.ok hello)
      3 1 _ rfl rfl).2 (by decide) (by decide)⟩

/-- What `WriteAt` does for an offset from `0` to the length of the content. -/
theorem WriteAt_of_within (t : File) (l : Loc) (ls : Listing) (cap : Nat)
    (ans : UploadAnswer) (p : List Nat) (off : Int) (f : File)
    (hf : t.get? l = some f) (h0 : 0 ≤ off) (hle : off ≤ (f.Blob.Contents.length : Int)) :
    ∃ w f', WriteAt t l ls cap ans p off = some w ∧
      w.err = (Blob.Upload ans
        { f.Blob with tracked := true, body := f.Blob.Contents.take off.toNat ++ p }).1 ∧
      w.calls = (Blob.Upload ans
        { f.Blob with tracked := true, body := f.Blob.Contents.take off.toNat ++ p }).2 ∧
      w.tree.get? l = some f' ∧ f'.isDir = f.isDir ∧ f'.Blob.isDir = f.Blob.isDir ∧
      f'.Blob.fileURL = f.Blob.fileURL ∧
      (w.err = none → f'.Blob.Contents = f.Blob.Contents.take off.toNat ++ p) := by
  obtain ⟨f1, hget, hblob, hdir, _, _⟩ := syncRoot_get? ls hf
  have hkept : (if off < ((f1.Blob.body.length : Nat) : Int) then f1.Blob.body.take off.toNat
      else f1.Blob.body) = f.Blob.body.take off.toNat := by
    rw [hblob]
    split
    · rfl
    · rename_i hnlt
      have heq : off.toNat = f.Blob.body.length := by
        have : off = (f.Blob.body.length : Int) := le_antisymm hle (not_lt.1 hnlt)
        rw [this]; simp
      rw [heq, List.take_length]
  have hnot : ¬ off > ((f1.Blob.body.length : Nat) : Int) := by
    rw [hblob]; exact not_lt.2 hle
  have hW : WriteAt t l ls cap ans p off =
      match Blob.Upload ans
        { f.Blob with tracked := true, body := f.Blob.body.take off.toNat ++ p } with
      | (none, calls) =>
        some ⟨p.length, none, setBlob (syncRoot t ls) l
          { f.Blob with tracked := true, body := f.Blob.body.take off.toNat ++ p }, calls⟩
      | (some e, calls) =>
        some ⟨0, some e, setBlob (syncRoot t ls) l
          { f.Blob with
            tracked := true
            body :=
              if decide ((f.Blob.body.take off.toNat).length + p.length ≤ cap) = true then
                (f.Blob.body.take off.toNat ++ p ++
                  f.Blob.body.drop (off.toNat + p.length)).take f.Blob.body.length
              else f.Blob.body }, calls⟩ := by
    simp only [WriteAt, hget, Blob.Contents]
    rw [if_neg hnot, if_neg (not_lt.2 h0), hkept, hblob]
  cases hu : Blob.Upload ans
      { f.Blob with tracked := true, body := f.Blob.body.take off.toNat ++ p } with
  | mk e calls =>
    rw [hu] at hW
    cases e with
    | none =>
      refine ⟨_, { f1 with Blob :=
          { f.Blob with tracked := true, body := f.Blob.body.take off.toNat ++ p } },
        hW, ?_, ?_, ?_, hdir, rfl, rfl, fun _ => rfl⟩
      · show none = (Blob.Upload ans _).1
        simp only [Blob.Contents, hu]
      · show calls = (Blob.Upload ans _).2
        simp only [Blob.Contents, hu]
      · show (setBlob _ _ _).get? l = _
        rw [setBlob_get?, hget]; rfl
    | some e =>
      refine ⟨_, { f1 with Blob :=
          { f.Blob with
            tracked := true
            body :=
              if decide ((f.Blob.body.take off.toNat).length + p.length ≤ cap) = true then
                (f.Blob.body.take off.toNat ++ p ++
                  f.Blob.body.drop (off.toNat + p.length)).take f.Blob.body.length
              else f.Blob.body } }, hW, ?_, ?_, ?_, hdir, rfl, rfl, ?_⟩
      · show some e = (Blob.Upload ans _).1
        simp only [Blob.Contents, hu]
      · show calls = (Blob.Upload ans _).2
        simp only [Blob.Contents, hu]
      · show (setBlob _ _ _).get? l = _
        rw [setBlob_get?, hget]; rfl
      · intro h; exact absurd h (by simp)

/-- An upload of a file with content that returns no error has created the file and
written the content. -/
theorem Upload_ok_calls (ans : UploadAnswer) (b : Blob) (hfile : b.isDir = false)
    (hne : b.body ≠ []) (hok : (Blob.Upload ans b).1 = none) :
    (Blob.Upload ans b).2 =
      [Call.createFile b.fileURL b.body.length, Call.uploadRange b.fileURL b.body] := by
  have hlen : ¬ (b.body.length < 1 ∧ b.isDir = false) := by
    intro h
    exact hne (List.length_eq_zero.1 (by omega))
  have h1 : Blob.Upload ans b =
      match ans.create with
      | some e => (some e, [Call.createFile b.fileURL b.body.length])
      | none =>
        (ans.range,
          [Call.createFile b.fileURL b.body.length, Call.uploadRange b.fileURL b.body]) := by
    unfold Blob.Upload
    dsimp only
    rw [if_neg hlen, if_neg (by rw [hfile]; decide)]
  rw [h1] at hok ⊢
  cases hc : ans.create with
  | some e => rw [hc] at hok; exact absurd hok (by simp)
  | none => rfl

theorem Upload_empty (ans : UploadAnswer) (b : Blob) (hfile : b.isDir = false)
    (he : b.body = []) : Blob.Upload ans b = (none, []) := by
  unfold Blob.Upload
  rw [if_pos ⟨by rw [he]; decide, hfile⟩]

/-- A share that has run the requests of an upload holds the content uploaded. -/
theorem Share.run_upload (s : Share) (u : URL) (x : List Nat) :
    Share.run s [Call.createFile u x.length, Call.uploadRange u x] u = some x := by
  simp [Share.run, Share.apply]

/-- A download from a share that holds the file brings its content. -/
theorem Download_of_share (s : Share) (b : Blob) (x : List Nat) (hfile : b.isDir = false)
    (h : s b.fileURL = some x) : (Blob.Download (Share.dl s) b).2.Contents = x := by
  unfold Blob.Download
  rw [if_neg (by rw [hfile]; decide)]
  simp only [Share.dl, h]
  rfl

/-- C17: with a share that keeps what is uploaded and answers downloads with what it
holds: for a file with content `c`, an offset from `0` to the length of `c` and bytes
`p`, after a `WriteAt` that returned no error, `ReadAt` at offset 0 into a destination
as long as `c[0:off] ++ p` copies exactly `c[0:off] ++ p`; when `c[0:off] ++ p` is not
empty the same holds for every longer destination. -/
theorem WriteAt_ReadAt_roundtrip (t : File) (l : Loc) (ls : Listing) (cap : Nat)
    (ans : UploadAnswer) (p : List Nat) (off : Int) (f : File) (w : Written)
    (hf : t.get? l = some f) (hfile : f.isDir = false) (hblob : f.Blob.isDir = false)
    (h0 : 0 ≤ off) (hle : off ≤ (f.Blob.Contents.length : Int))
    (hw : WriteAt t l ls cap ans p off = some w) (herr : w.err = none) :
    ∀ (s : Share) (ls₀ ls₁ ls₂ : Listing) (plen : Nat),
      (f.Blob.Contents.take off.toNat ++ p).length ≤ plen →
      (plen = (f.Blob.Contents.take off.toNat ++ p).length ∨
        f.Blob.Contents.take off.toNat ++ p ≠ []) →
      ∃ r, ReadAt w.tree l ls₀ ls₁ ls₂ (Share.dl (Share.run s w.calls)) plen 0 = some r ∧
        r.data = f.Blob.Contents.take off.toNat ++ p ∧
        r.n = (f.Blob.Contents.take off.toNat ++ p).length := by
  intro s ls₀ ls₁ ls₂ plen hplen hx
  obtain ⟨w', f', hw', he, hc, hget, hdir', hbdir', hurl', hbody'⟩ :=
    WriteAt_of_within t l ls cap ans p off f hf h0 hle
  rw [hw] at hw'
  have hww : w = w' := Option.some.inj hw'
  subst hww
  have hbody := hbody' herr
  obtain ⟨t3, f3, _, _, hR⟩ :=
    ReadAt_of_file w.tree l ls₀ ls₁ ls₂ (Share.dl (Share.run s w.calls)) plen 0 f' hget
      (hdir'.trans hfile)
  by_cases hxe : f.Blob.Contents.take off.toNat ++ p = []
  · -- nothing to read: the destination is empty
    have hp0 : plen = 0 := by
      rcases hx with h | h
      · rw [h, hxe]; rfl
      · exact absurd hxe h
    rw [hxe]
    subst hp0
    rw [hR]
    split
    · exact ⟨_, rfl, rfl, rfl⟩
    · rw [if_neg (by decide)]
      exact ⟨_, rfl, by simp, by simp⟩
  · -- the upload has stored the new content, and the download brings it back
    have hup : (Blob.Upload ans
        { f.Blob with tracked := true, body := f.Blob.Contents.take off.toNat ++ p }).1 = none :=
      he ▸ herr
    have hcalls := Upload_ok_calls ans
      { f.Blob with tracked := true, body := f.Blob.Contents.take off.toNat ++ p } hblob hxe hup
    have hdl : (Blob.Download (Share.dl (Share.run s w.calls))
        { f'.Blob with tracked := true }).2.Contents = f.Blob.Contents.take off.toNat ++ p := by
      have hsh : Share.run s w.calls f'.Blob.fileURL =
          some (f.Blob.Contents.take off.toNat ++ p) := by
        rw [hc, hcalls, hurl']
        exact Share.run_upload s _ _
      exact Download_of_share _ { f'.Blob with tracked := true } _ (hbdir'.trans hblob) hsh
    rw [hdl] at hR
    have hlen : ¬ ((0 : Int) ≥ ((f.Blob.Contents.take off.toNat ++ p).length : Int)) := by
      have : 0 < (f.Blob.Contents.take off.toNat ++ p).length :=
        List.length_pos.2 hxe
      omega
    rw [if_neg hlen, if_neg (by decide)] at hR
    refine ⟨_, hR, ?_, ?_⟩
    · show List.take plen (List.drop (0 : Int).toNat _) = _
      simp only [Int.toNat_zero, List.drop_zero]
      exact List.take_of_length_le hplen
    · show (List.take plen (List.drop (0 : Int).toNat _)).length = _
      simp only [Int.toNat_zero, List.drop_zero]
      rw [List.take_of_length_le hplen]

/-- Witness of C17: `hello` written at offset 0 of the empty file `/f` and read back
into a destination of five bytes. -/
theorem WriteAt_ReadAt_roundtrip_witness :
    ∃ r, ReadAt wroteHello.tree [0] noListing noListing noListing
        (Share.dl (Share.run (fun _ => none) wroteHello.calls)) 5 0 = some r ∧
      r.data = (NewChild NewTree ['f'] false).2.Blob.Contents.take (0 : Int).toNat ++ hello ∧
      r.n = ((NewChild NewTree ['f'] false).2.Blob.Contents.take (0 : Int).toNat ++
        hello).length :=
  WriteAt_ReadAt_roundtrip treeF [0] noListing 0 ⟨none, none⟩ hello 0
    (NewChild NewTree ['f'] false).2 wroteHello rfl rfl rfl (by decide) (by decide) rfl rfl
    (fun _ => none) noListing noListing noListing 5 (by decide) (Or.inl (by decide))

/-- The example of the specification: `hello` written at offset 0 of an empty file and
read into five bytes gives `hello`; `XY` then written at offset 2 and read into five
bytes gives the four bytes `heXY`. -/
theorem hello_heXY :
    ((WriteAt treeF [0] noListing 0 ⟨none, none⟩ hello 0).bind fun w₁ =>
      (ReadAt w₁.tree [0] noListing noListing noListing
        (Share.dl (Share.run (fun _ => none) w₁.calls)) 5 0).bind fun r₁ =>
      (WriteAt r₁.tree [0] noListing 517 ⟨none, none⟩ XY 2).bind fun w₂ =>
      (ReadAt w₂.tree [0] noListing noListing noListing
        (Share.dl (Share.run (Share.run (fun _ => none) w₁.calls) w₂.calls)) 5 0).map fun r₂ =>
      (w₁.err, r₁.err, r₁.data, w₂.err, r₂.err, r₂.n, r₂.data)) =
      some (none, none, hello, none, none, 4, [104, 101, 88, 89]) := rfl

/-! ## Draining a directory with `Readdir` -/

/-- While no earlier goroutine runs, a step of the goroutine changes nothing in what
the channel will hand out. -/
theorem Feed.keeps_pending {cs : List File} {ch ch' : Info} (ho : ch.others = [])
    (h : Feed cs ch ch') : Info.pending cs ch' = Info.pending cs ch ∧ ch'.others = [] := by
  cases h with
  | send c hcl hc hq =>
    have hlt : ch.i < cs.length := by
      rcases Nat.lt_or_ge ch.i cs.length with h' | h'
      · exact h'
      · rw [List.getElem?_eq_none_iff.2 h'] at hc; simp at hc
    have hdrop : cs.drop ch.i = c :: cs.drop (ch.i + 1) := by
      rw [List.drop_eq_getElem_cons hlt]
      congr 1
      rw [List.getElem?_eq_getElem hlt] at hc
      exact Option.some.inj hc
    exact ⟨by simp [Info.pending, hcl, hdrop], ho⟩
  | close hcl hlen =>
    exact ⟨by simp [Info.pending, hcl, List.drop_eq_nil_of_le hlen], ho⟩
  | sendOther j k c hcl hj _ _ => rw [ho] at hj; simp at hj
  | closeOther j k hcl hj _ => rw [ho] at hj; simp at hj

theorem Feeds.pending_same {cs : List File} {ch ch' : Info} (h : Feeds cs ch ch') :
    ch.others = [] → Info.pending cs ch' = Info.pending cs ch ∧ ch'.others = [] := by
  induction h with
  | refl => exact fun ho => ⟨rfl, ho⟩
  | step ch ch' ch'' h1 _ ih =>
    intro ho
    obtain ⟨hp, ho'⟩ := h1.keeps_pending ho
    obtain ⟨hp', ho''⟩ := ih ho'
    exact ⟨by rw [hp', hp], ho''⟩

theorem Take.pending_some {cs : List File} {ch ch' : Info} {c : File}
    (h : Take ch (some c) ch') :
    Info.pending cs ch = c :: Info.pending cs ch' ∧ ch'.others = ch.others := by
  cases h with
  | item _ q hq => exact ⟨by simp [Info.pending, hq], rfl⟩

theorem Take.pending_none {cs : List File} {ch ch' : Info} (h : Take ch none ch') :
    Info.pending cs ch = [] ∧ ch' = ch ∧ ch.closed = true := by
  cases h with
  | closed hq hcl => exact ⟨by simp [Info.pending, hq, hcl], rfl, hcl⟩

/-- While no earlier goroutine runs, whatever the goroutine does in between, the loop
of `Readdir` hands out the next `n` pending entries, with `io.EOF` exactly when fewer
than `n` are pending. -/
theorem Drain.takes_pending {cs : List File} {n : Nat} {ch ch' : Info} {fi : List File}
    {err : Option Str} (h : Drain cs n ch fi err ch') :
    ch.others = [] →
      fi = (Info.pending cs ch).take n ∧
      err = (if (Info.pending cs ch).length < n then some io.EOF else none) ∧
      Info.pending cs ch' = (Info.pending cs ch).drop n ∧ ch'.others = [] := by
  induction h with
  | done ch => exact fun ho => ⟨by simp, by simp, by simp, ho⟩
  | recv n ch ch₁ ch₂ ch₃ c fi err hf ht _ ih =>
    intro ho
    obtain ⟨hp₁, ho₁⟩ := hf.pending_same ho
    obtain ⟨hp₂, ho₂⟩ := @Take.pending_some cs _ _ _ ht
    obtain ⟨ih1, ih2, ih3, ih4⟩ := ih (by rw [ho₂, ho₁])
    have hp : Info.pending cs ch = c :: Info.pending cs ch₂ := by rw [← hp₁, hp₂]
    rw [hp]
    refine ⟨by simp [ih1], ?_, by simp [ih3], ih4⟩
    rw [ih2]
    simp
  | eof n ch ch₁ ch₂ hf ht =>
    intro ho
    obtain ⟨hp₁, ho₁⟩ := hf.pending_same ho
    obtain ⟨h1, h2, _⟩ := @Take.pending_none cs _ _ ht
    have hp : Info.pending cs ch = [] := by rw [← hp₁, h1]
    subst h2
    rw [hp]
    exact ⟨rfl, by simp, by rw [hp₁, hp]; rfl, ho₁⟩

/-- The loop of `Readdir` reports `io.EOF` only when it has found the channel closed. -/
theorem Drain.closed_of_eof {cs : List File} {n : Nat} {ch ch' : Info} {fi : List File}
    {err : Option Str} (h : Drain cs n ch fi err ch') :
    err = some io.EOF → ch'.closed = true := by
  induction h with
  | done ch => intro he; simp at he
  | recv n ch ch₁ ch₂ ch₃ c fi err _ _ _ ih => exact ih
  | eof n ch ch₁ ch₂ _ ht =>
    intro _
    obtain ⟨_, h2, h3⟩ := @Take.pending_none cs _ _ ht
    rw [h2]; exact h3

/-- A receive can always be completed: the goroutine sends or closes when the buffer is
empty. -/
theorem receive_exists (cs : List File) (ch : Info) :
    ∃ ch₁ r ch₂, Feeds cs ch ch₁ ∧ Take ch₁ r ch₂ := by
  cases hq : ch.queue with
  | cons c q => exact ⟨ch, some c, _, Feeds.refl ch, Take.item ch c q hq⟩
  | nil =>
    cases hcl : ch.closed with
    | true => exact ⟨ch, none, ch, Feeds.refl ch, Take.closed ch hq hcl⟩
    | false =>
      rcases Nat.lt_or_ge ch.i cs.length with hlt | hge
      · have hc : cs[ch.i]? = some cs[ch.i] := List.getElem?_eq_getElem hlt
        refine ⟨⟨ch.i + 1, ch.queue ++ [cs[ch.i]], false, ch.others⟩, some cs[ch.i], _,
          Feeds.step _ _ _ (Feed.send ch _ hcl hc (by rw [hq]; decide)) (Feeds.refl _),
          Take.item _ cs[ch.i] [] (by simp [hq])⟩
      · exact ⟨⟨ch.i, ch.queue, true, ch.others⟩, none, _,
          Feeds.step _ _ _ (Feed.close ch hcl hge) (Feeds.refl _),
          Take.closed _ hq rfl⟩

/-- The loop of `Readdir` ends, for every number of turns. -/
theorem Drain.runs (cs : List File) (n : Nat) (ch : Info) :
    ∃ fi err ch', Drain cs n ch fi err ch' := by
  induction n generalizing ch with
  | zero => exact ⟨[], none, ch, Drain.done ch⟩
  | succ n ih =>
    obtain ⟨ch₁, r, ch₂, hf, ht⟩ := receive_exists cs ch
    cases r with
    | none => exact ⟨[], some io.EOF, ch₂, Drain.eof n ch ch₁ ch₂ hf ht⟩
    | some c =>
      obtain ⟨fi, err, ch₃, hd⟩ := ih ch₂
      exact ⟨c :: fi, err, ch₃, Drain.recv n ch ch₁ ch₂ ch₃ c fi err hf ht hd⟩

theorem batch_zero (q : List File) (n : Nat) :
    batch q n 0 = (q.take n, if q.length < n then some io.EOF else none) := by
  simp [batch]

theorem batch_succ (q : List File) (n j : Nat) : batch q n (j + 1) = batch (q.drop n) n j := by
  have h : (j + 1) * n = n + j * n := by rw [Nat.succ_mul, Nat.add_comm]
  simp only [batch, List.drop_drop, h]

theorem batches_succ (q : List File) (n m : Nat) :
    batches q n (m + 1) = batch q n 0 :: batches (q.drop n) n m := by
  unfold batches
  rw [List.range_succ_eq_map, List.map_cons, List.map_map]
  congr 1
  apply List.map_congr_left
  intro j _
  exact batch_succ q n j

/-- The entries that the channel of a directory will still hand out: those of a new
channel when there is none yet. -/
theorem pending_fresh (cs : List File) : Info.pending cs Info.fresh = cs := by
  simp [Info.pending, Info.fresh]

/-- A root sync with a quiet listing leaves the tree as it is. -/
theorem syncRoot_of_quiet {t : File} {ls : Listing} (h : ls.quiet t) : syncRoot t ls = t := by
  unfold syncRoot
  rw [Sync_eq]
  unfold Listing.quiet at h
  rw [h]
  cases t
  simp

theorem mem_listingsOf {lss : List (Listing × Listing)} {lsp : Listing × Listing}
    (h : lsp ∈ lss) : lsp.1 ∈ listingsOf lss ∧ lsp.2 ∈ listingsOf lss := by
  unfold listingsOf
  simp only [List.mem_flatMap]
  exact ⟨⟨lsp, h, by simp⟩, ⟨lsp, h, by simp⟩⟩

/-- A root sync keeps the directory as it is. -/
theorem Stable.sync {l : Loc} {cs : List File} {Q : Listing → Prop} {t : File}
    (h : Stable l cs Q t) {ls : Listing} (hq : Q ls) : Stable l cs Q (syncRoot t ls) := by
  obtain ⟨d, hd, hcs, hdir, hquiet⟩ := h
  by_cases hl : l = []
  · rw [syncRoot_of_quiet (hquiet hl ls hq)]
    exact ⟨d, hd, hcs, hdir, hquiet⟩
  · obtain ⟨f', hget, _, _, _, heq⟩ := syncRoot_get? ls hd
    rw [heq hl] at hget
    exact ⟨d, hget, hcs, hdir, fun h0 => absurd h0 hl⟩

/-- Setting `tracked` in the blob of the directory keeps its children. -/
theorem Stable.tracked {l : Loc} {cs : List File} {Q : Listing → Prop} {t : File}
    (h : Stable l cs Q t) :
    Stable l cs Q
      (t.modifyAt (fun g => { g with Blob := { g.Blob with tracked := true } }) l) := by
  obtain ⟨d, hd, hcs, hdir, hquiet⟩ := h
  refine ⟨{ d with Blob := { d.Blob with tracked := true } }, ?_, hcs, hdir, ?_⟩
  · rw [File.get?_modifyAt_self, hd]; rfl
  · intro hl ls hq
    subst hl
    exact hquiet rfl ls hq

/-- One call of `Readdir` on a directory that root syncs leave alone, while no earlier
goroutine runs. -/
theorem Readdir.gives_batch {l : Loc} {cs : List File} {Q : Listing → Prop} {t : File}
    {ls ls' : Listing} {info : Option Info} {n : Int} {r : Listed}
    (hcs : cs ≠ []) (hst : Stable l cs Q t) (hq : Q ls) (hq' : Q ls')
    (ho : ∀ ch, info = some ch → ch.others = [])
    (hr : Readdir t l ls ls' info n r) :
    r.fi = (pendingOf cs info).take n.toNat ∧
      r.err = (if (pendingOf cs info).length < n.toNat then some io.EOF else none) ∧
      pendingOf cs r.info = (pendingOf cs info).drop n.toNat ∧
      Stable l cs Q r.tree ∧ (∀ ch, r.info = some ch → ch.others = []) ∧
      (r.err = some io.EOF → ∃ ch, r.info = some ch ∧ ch.closed = true) := by
  have hst₁ := hst.sync hq
  have hst₂ := hst₁.sync hq'
  cases hr with
  | empty f hget hempty =>
    obtain ⟨d, hd, hdc, _⟩ := hst₁
    rw [hget] at hd
    have : f = d := Option.some.inj hd
    subst this
    exact absurd (hdc ▸ hempty) hcs
  | drain f ch ch' fi err hget _ hinfo hdrain =>
    obtain ⟨d, hd, hdc, _⟩ := hst₁
    rw [hget] at hd
    have : f = d := Option.some.inj hd
    subst this
    rw [hdc] at hdrain
    subst hinfo
    obtain ⟨h1, h2, h3, h4⟩ := hdrain.takes_pending (ho ch rfl)
    refine ⟨h1, h2, h3, hst.sync hq, ?_, ?_⟩
    · intro c hc
      rw [← Option.some.inj hc]; exact h4
    · intro he
      exact ⟨ch', rfl, hdrain.closed_of_eof he⟩
  | reload f f' ch' fi err hget _ hinfo hget' hdrain =>
    obtain ⟨d, hd, hdc, _⟩ := hst₂
    rw [hget'] at hd
    have : f' = d := Option.some.inj hd
    subst this
    rw [hdc] at hdrain
    subst hinfo
    obtain ⟨h1, h2, h3, h4⟩ := hdrain.takes_pending rfl
    rw [pending_fresh] at h1 h2 h3
    refine ⟨h1, h2, h3, (hst.sync hq).sync hq', ?_, ?_⟩
    · intro c hc
      rw [← Option.some.inj hc]; exact h4
    · intro he
      exact ⟨ch', rfl, hdrain.closed_of_eof he⟩

/-- The results of successive calls of `Readdir` are fixed by the entries pending at
the start; once a call has reported `io.EOF`, the channel is closed. -/
theorem ReaddirCalls.gives_batches {l : Loc} {cs : List File} {Q : Listing → Prop} {n : Int}
    (hcs : cs ≠ []) {t₀ : File} {info₀ : Option Info} {lss : List (Listing × Listing)}
    {rs : List (List File × Option Str)} {t' : File} {info' : Option Info}
    (h : ReaddirCalls l n t₀ info₀ lss rs t' info') :
    Stable l cs Q t₀ → (∀ lsp ∈ lss, Q lsp.1 ∧ Q lsp.2) →
      (∀ ch, info₀ = some ch → ch.others = []) →
      rs = batches (pendingOf cs info₀) n.toNat lss.length ∧ Stable l cs Q t' ∧
        (∀ ch, info' = some ch → ch.others = []) ∧
        ((pendingOf cs info₀).length < lss.length * n.toNat →
          ∃ ch, info' = some ch ∧ ch.closed = true) := by
  induction h with
  | nil t₀ info₀ =>
    intro hst _ ho
    exact ⟨rfl, hst, ho, fun hlt => absurd hlt (by simp)⟩
  | cons t₀ info₀ lsp rest r rs t' info' hr hrest ih =>
    intro hst hQ ho
    obtain ⟨hq, hq'⟩ := hQ lsp (List.mem_cons_self _ _)
    obtain ⟨h1, h2, h3, h4, h5, h6⟩ := Readdir.gives_batch hcs hst hq hq' ho hr
    obtain ⟨i1, i2, i3, i4⟩ := ih h4 (fun p hp => hQ p (List.mem_cons_of_mem _ hp)) h5
    refine ⟨?_, i2, i3, ?_⟩
    · rw [List.length_cons, batches_succ, batch_zero, i1, h3, h1, h2]
    · intro hlt
      rw [List.length_cons] at hlt
      cases hrest with
      | nil =>
        apply h6
        rw [h2, if_pos (by simpa using hlt)]
      | cons t₁ info₁ lsp₁ rest₁ r₁ rs₁ t₁' info₁' hr₁ hrest₁ =>
        apply i4
        rw [h3, List.length_drop]
        have hm : (rest₁.length + 1 + 1) * n.toNat =
            (rest₁.length + 1) * n.toNat + n.toNat := Nat.succ_mul _ _
        simp only [List.length_cons] at hlt ⊢
        have hpos : 0 < (rest₁.length + 1) * n.toNat ∨ n.toNat = 0 := by
          rcases Nat.eq_zero_or_pos n.toNat with h0 | h0
          · exact Or.inr h0
          · exact Or.inl (Nat.mul_pos (Nat.succ_pos _) h0)
        rcases hpos with hp | h0
        · omega
        · rw [h0] at hlt; simp at hlt

/-- Successive calls of `Readdir` can always be completed. -/
theorem ReaddirCalls.run_exists {l : Loc} {cs : List File} {Q : Listing → Prop} (n : Int)
    (lss : List (Listing × Listing)) (t₀ : File) (info₀ : Option Info)
    (hst : Stable l cs Q t₀) (hQ : ∀ lsp ∈ lss, Q lsp.1 ∧ Q lsp.2) :
    ∃ rs t' info', ReaddirCalls l n t₀ info₀ lss rs t' info' := by
  induction lss generalizing t₀ info₀ with
  | nil => exact ⟨[], t₀, info₀, ReaddirCalls.nil t₀ info₀⟩
  | cons lsp rest ih =>
    obtain ⟨hq, hq'⟩ := hQ lsp (List.mem_cons_self _ _)
    have hst₁ := hst.sync hq
    have hst₂ := hst₁.sync hq'
    have hr : ∃ r, Readdir t₀ l lsp.1 lsp.2 info₀ n r ∧ Stable l cs Q r.tree := by
      obtain ⟨d, hd, _⟩ := hst₁
      by_cases hempty : d.Children = []
      · exact ⟨_, Readdir.empty d hd hempty, hst.sync hq⟩
      · cases info₀ with
        | some ch =>
          obtain ⟨fi, err, ch', hdr⟩ := Drain.runs d.Children n.toNat ch
          exact ⟨_, Readdir.drain d ch ch' fi err hd hempty rfl hdr, hst.sync hq⟩
        | none =>
          obtain ⟨d', hd', _⟩ := hst₂
          obtain ⟨fi, err, ch', hdr⟩ := Drain.runs d'.Children n.toNat Info.fresh
          exact ⟨_, Readdir.reload d d' ch' fi err hd hempty rfl hd' hdr, (hst.sync hq).sync hq'⟩
    obtain ⟨r, hr, htr⟩ := hr
    obtain ⟨rs, t', info', hrest⟩ :=
      ih r.tree r.info htr (fun p hp => hQ p (List.mem_cons_of_mem _ hp))
    exact ⟨_, t', info', ReaddirCalls.cons t₀ info₀ lsp rest r rs t' info' hr hrest⟩

/-- On a directory whose goroutine has closed the channel, with no earlier goroutine
running, `Close` can be completed, and it leaves a new channel with the new goroutine
alone and the directory as it was. -/
theorem Close.after_eof {l : Loc} {cs : List File} {Q : Listing → Prop} {t : File}
    {ls ls' : Listing} {ch : Info} (hst : Stable l cs Q t) (hq : Q ls) (hq' : Q ls')
    (hcl : ch.closed = true) (ho : ch.others = []) :
    (∃ c, Close t l ls ls' (some ch) c) ∧
      ∀ c, Close t l ls ls' (some ch) c → c.info = some Info.fresh ∧ Stable l cs Q c.tree := by
  have hrun : ch.running = [] := by simp [Info.running, hcl, ho]
  have hst₂ := (hst.sync hq).sync hq'
  obtain ⟨d, hd, _, hdir, _⟩ := hst
  constructor
  · obtain ⟨d', hd', _⟩ := hst₂
    exact ⟨_, Close.dir d d' _ hd hdir hd'
      (reloadInfo.again ch [] (List.nil_sublist _) (by rw [hrun]; simp))⟩
  · intro c hc
    cases hc with
    | file f hf hfile =>
      rw [hd] at hf
      rw [← Option.some.inj hf, hdir] at hfile
      exact absurd hfile (by simp)
    | dir f f' ch' hf _ hf' hre =>
      refine ⟨?_, hst₂.tracked⟩
      cases hre with
      | again _ keep hsub _ =>
        rw [hrun] at hsub
        rw [List.sublist_nil.1 hsub]
        rfl

/-- The batches of a drain, put end to end, are the first entries of the list. -/
theorem flatten_batches (q : List File) (n m : Nat) :
    ((batches q n m).map Prod.fst).flatten = q.take (m * n) := by
  induction m generalizing q with
  | zero => simp [batches]
  | succ m ih =>
    rw [batches_succ, batch_zero, List.map_cons, List.flatten_cons, ih, Nat.succ_mul,
      Nat.add_comm, List.take_add]

/-- C18, as stated: in the directory `/d` with its five files, `Readdir(1)` returns the
first file; a `Close` of the directory then comes while the goroutine of the channel
still runs, its loop variable at the second file; the goroutine finds the new channel
in `f.info` and sends the second file on it, and the next `Readdir(1)` returns the
second file, not the first. -/
theorem Close_while_goroutine_runs :
    ∃ r₁ c r₂,
      Readdir treeD5 [0] noListing noListing none 1 r₁ ∧
        r₁.fi.map File.name = [['1']] ∧ r₁.err = none ∧
        Close r₁.tree [0] noListing noListing r₁.info c ∧
        Readdir c.tree [0] noListing noListing c.info 1 r₂ ∧
        r₂.fi.map File.name = [['2']] ∧ r₂.err = none := by
  have h0 : dirD5.Children[0]? = some ((dirD5.Children[0]?).getD NewTree) := rfl
  have h1 : dirD5.Children[1]? = some ((dirD5.Children[1]?).getD NewTree) := rfl
  have hne : dirD5.Children ≠ [] := fun h => absurd (congrArg List.length h) (by decide)
  refine ⟨⟨[(dirD5.Children[0]?).getD NewTree], none, some ⟨1, [], false, []⟩,
      syncRoot (syncRoot treeD5 noListing) noListing⟩,
    ⟨some ⟨0, [], false, [1]⟩,
      (syncRoot (syncRoot (syncRoot (syncRoot treeD5 noListing) noListing) noListing)
        noListing).modifyAt (fun g => { g with Blob := { g.Blob with tracked := true } }) [0]⟩,
    ⟨[(dirD5.Children[1]?).getD NewTree], none, some ⟨0, [], false, [2]⟩,
      syncRoot
        ((syncRoot (syncRoot (syncRoot (syncRoot treeD5 noListing) noListing) noListing)
          noListing).modifyAt (fun g => { g with Blob := { g.Blob with tracked := true } }) [0])
        noListing⟩,
    ?_, by decide, rfl, ?_, ?_, by decide, rfl⟩
  · exact Readdir.reload dirD5 dirD5 _ _ _ rfl hne rfl rfl
      (Drain.recv 0 Info.fresh ⟨1, [(dirD5.Children[0]?).getD NewTree], false, []⟩ _ _ _ [] none
        (Feeds.step _ _ _ (Feed.send Info.fresh _ rfl h0 (by decide)) (Feeds.refl _))
        (Take.item _ _ [] rfl) (Drain.done _))
  · exact Close.dir dirD5 dirD5 _ rfl rfl rfl
      (reloadInfo.again ⟨1, [], false, []⟩ [1] (by decide) (by decide))
  · exact Readdir.drain { dirD5 with Blob := { dirD5.Blob with tracked := true } }
      ⟨0, [], false, [1]⟩ _ _ _ rfl hne rfl
      (Drain.recv 0 ⟨0, [], false, [1]⟩ ⟨0, [(dirD5.Children[1]?).getD NewTree], false, [2]⟩
        _ _ _ [] none
        (Feeds.step _ _ _ (Feed.sendOther ⟨0, [], false, [1]⟩ 0 1 _ rfl rfl h1 (by decide))
          (Feeds.refl _))
        (Take.item _ _ [] rfl) (Drain.done _))

/-- C18, amended: for a directory at `l` with children `cs`, not empty, a batch size `n`
of at least 1, root syncs that add nothing when the directory is the root, and a field
`info` that is nil or a channel just made by `reloadInfo` with no earlier goroutine
running: successive calls of `Readdir(n)` run to their end, and whatever the goroutine
does in between, call number `j` returns the entries `cs[j*n : j*n+n]`, at most `n` of
them, with `io.EOF` exactly when fewer than `n` entries were left, so from the batch
that exhausts the children or the call after it, and on every later call; the batches
put end to end are `cs`, and some number of calls exhausts it.  When a call has
reported `io.EOF`, a `Close` of the directory runs to its end and leaves a new channel
with its goroutine alone, and the calls of `Readdir(n)` after it return the same
batches again, from the first child on.  A node with no children gets no entries and
`io.EOF` from `Readdir`. -/
theorem Readdir_drains (t : File) (l : Loc) (d : File) (n : Int)
    (lss lss' : List (Listing × Listing)) (lsc : Listing × Listing) (info : Option Info)
    (hd : t.get? l = some d) (hdir : d.isDir = true) (hcs : d.Children ≠ []) (hn : 1 ≤ n)
    (hquiet : l = [] → ∀ ls ∈ listingsOf (lss ++ lsc :: lss'), ls.quiet t)
    (hinfo : info = none ∨ info = some Info.fresh) :
    (∃ rs t' info', ReaddirCalls l n t info lss rs t' info') ∧
      (∀ rs t' info', ReaddirCalls l n t info lss rs t' info' →
        rs = batches d.Children n.toNat lss.length) ∧
      (∀ j, (batch d.Children n.toNat j).1 = (d.Children.drop (j * n.toNat)).take n.toNat ∧
        (batch d.Children n.toNat j).1.length ≤ n.toNat ∧
        ((batch d.Children n.toNat j).2 = some io.EOF ↔
          d.Children.length < (j + 1) * n.toNat) ∧
        ((batch d.Children n.toNat j).2 = none ↔ (j + 1) * n.toNat ≤ d.Children.length)) ∧
      (∀ m, d.Children.length ≤ m * n.toNat →
        ((batches d.Children n.toNat m).map Prod.fst).flatten = d.Children) ∧
      (∃ m, d.Children.length ≤ m * n.toNat) ∧
      (∀ rs t' info', ReaddirCalls l n t info lss rs t' info' →
        d.Children.length < lss.length * n.toNat →
        (∃ c, Close t' l lsc.1 lsc.2 info' c) ∧
          ∀ c, Close t' l lsc.1 lsc.2 info' c →
            c.info = some Info.fresh ∧
            (∃ rs' t'' info'', ReaddirCalls l n c.tree c.info lss' rs' t'' info'') ∧
            ∀ rs' t'' info'', ReaddirCalls l n c.tree c.info lss' rs' t'' info'' →
              rs' = batches d.Children n.toNat lss'.length) ∧
      (∀ (l₀ : Loc) (ls ls' : Listing) (info₀ : Option Info) (d₀ : File),
        (syncRoot t ls).get? l₀ = some d₀ → d₀.Children = [] →
        (∃ r, Readdir t l₀ ls ls' info₀ n r) ∧
          ∀ r, Readdir t l₀ ls ls' info₀ n r → r.fi = [] ∧ r.err = some io.EOF) := by
  have hstart : pendingOf d.Children info = d.Children := by
    rcases hinfo with h | h
    · rw [h]; rfl
    · rw [h]; exact pending_fresh d.Children
  have ho : ∀ ch, info = some ch → ch.others = [] := by
    intro ch hch
    rcases hinfo with h | h
    · rw [h] at hch; simp at hch
    · rw [h] at hch; rw [← Option.some.inj hch]; rfl
  have hn1 : 1 ≤ n.toNat := by omega
  have hst : Stable l d.Children (fun ls => ls ∈ listingsOf (lss ++ lsc :: lss')) t :=
    ⟨d, hd, rfl, hdir, hquiet⟩
  have hmem : ∀ (part : List (Listing × Listing)), (∀ p ∈ part, p ∈ lss ++ lsc :: lss') →
      ∀ lsp ∈ part, lsp.1 ∈ listingsOf (lss ++ lsc :: lss') ∧
        lsp.2 ∈ listingsOf (lss ++ lsc :: lss') :=
    fun part hpart lsp hlsp => mem_listingsOf (hpart lsp hlsp)
  have hQ : ∀ lsp ∈ lss, lsp.1 ∈ listingsOf (lss ++ lsc :: lss') ∧
      lsp.2 ∈ listingsOf (lss ++ lsc :: lss') :=
    hmem lss (fun p hp => List.mem_append_left _ hp)
  have hQ' : ∀ lsp ∈ lss', lsp.1 ∈ listingsOf (lss ++ lsc :: lss') ∧
      lsp.2 ∈ listingsOf (lss ++ lsc :: lss') :=
    hmem lss' (fun p hp => List.mem_append_right _ (List.mem_cons_of_mem _ hp))
  have hQc : lsc.1 ∈ listingsOf (lss ++ lsc :: lss') ∧
      lsc.2 ∈ listingsOf (lss ++ lsc :: lss') :=
    mem_listingsOf (List.mem_append_right _ (List.mem_cons_self _ _))
  refine ⟨ReaddirCalls.run_exists n lss t info hst hQ, ?_, ?_, ?_, ?_, ?_, ?_⟩
  · intro rs t' info' h
    rw [(ReaddirCalls.gives_batches hcs h hst hQ ho).1, hstart]
  · intro j
    have hlen : (d.Children.drop (j * n.toNat)).length = d.Children.length - j * n.toNat :=
      List.length_drop _ _
    have hmul : (j + 1) * n.toNat = j * n.toNat + n.toNat := Nat.succ_mul j n.toNat
    refine ⟨rfl, ?_, ?_, ?_⟩
    · show ((d.Children.drop (j * n.toNat)).take n.toNat).length ≤ n.toNat
      rw [List.length_take]; exact Nat.min_le_left _ _
    · show (if (d.Children.drop (j * n.toNat)).length < n.toNat then some io.EOF else none) =
        some io.EOF ↔ _
      rw [hlen, hmul]
      constructor
      · intro h
        by_contra hc
        rw [if_neg (by omega)] at h
        simp at h
      · intro h
        rw [if_pos (by omega)]
    · show (if (d.Children.drop (j * n.toNat)).length < n.toNat then some io.EOF else none) =
        none ↔ _
      rw [hlen, hmul]
      constructor
      · intro h
        by_contra hc
        rw [if_pos (by omega)] at h
        simp at h
      · intro h
        rw [if_neg (by omega)]
  · intro m hm
    rw [flatten_batches, List.take_of_length_le hm]
  · exact ⟨d.Children.length, Nat.le_mul_of_pos_right _ (by omega)⟩
  · intro rs t' info' h hlt
    obtain ⟨_, hst', ho', hclosed⟩ := ReaddirCalls.gives_batches hcs h hst hQ ho
    rw [hstart] at hclosed
    obtain ⟨ch, hch, hcl⟩ := hclosed hlt
    subst hch
    obtain ⟨hex, hall⟩ := Close.after_eof hst' hQc.1 hQc.2 hcl (ho' ch rfl)
    refine ⟨hex, ?_⟩
    intro c hc
    obtain ⟨hfresh, hstc⟩ := hall c hc
    refine ⟨hfresh, ReaddirCalls.run_exists n lss' c.tree c.info hstc hQ', ?_⟩
    intro rs' t'' info'' h'
    have ho'' : ∀ ch, c.info = some ch → ch.others = [] := by
      intro ch₂ hch₂
      rw [hfresh] at hch₂
      rw [← Option.some.inj hch₂]; rfl
    rw [(ReaddirCalls.gives_batches hcs h' hstc hQ' ho'').1, hfresh]
    show batches (Info.pending d.Children Info.fresh) _ _ = _
    rw [pending_fresh]
  · intro l₀ ls ls' info₀ d₀ hd₀ hempty
    refine ⟨⟨_, Readdir.empty d₀ hd₀ hempty⟩, ?_⟩
    intro r hr
    cases hr with
    | empty f _ _ => exact ⟨rfl, rfl⟩
    | drain f ch ch' fi err hget hne _ _ =>
      rw [hd₀] at hget
      exact absurd ((Option.some.inj hget) ▸ hempty) hne
    | reload f f' ch' fi err hget hne _ _ _ =>
      rw [hd₀] at hget
      exact absurd ((Option.some.inj hget) ▸ hempty) hne

/-- Witness of C18, amended: the root of `treeD5` with its two directories, listed by
`Readdir(1)` with root syncs that find these two, and the directory `/d` with its five
files, listed by `Readdir(2)`; each is closed after the drain and listed again.  The
empty directory is `/e`. -/
theorem Readdir_drains_witness :
    (treeD5.get? [] = some treeD5 ∧ treeD5.isDir = true ∧ treeD5.Children ≠ [] ∧
      (1 : Int) ≤ 1 ∧
      (([] : Loc) = [] →
        ∀ ls ∈ listingsOf (threeCalls ++ (rootListing, rootListing) :: threeCalls),
          ls.quiet treeD5) ∧
      (∃ rs t' info', ReaddirCalls [] 1 treeD5 none threeCalls rs t' info') ∧
      (∀ rs t' info', ReaddirCalls [] 1 treeD5 none threeCalls rs t' info' →
        rs = batches treeD5.Children (1 : Int).toNat threeCalls.length) ∧
      (∀ j, (batch treeD5.Children (1 : Int).toNat j).1 =
          (treeD5.Children.drop (j * (1 : Int).toNat)).take (1 : Int).toNat ∧
        (batch treeD5.Children (1 : Int).toNat j).1.length ≤ (1 : Int).toNat ∧
        ((batch treeD5.Children (1 : Int).toNat j).2 = some io.EOF ↔
          treeD5.Children.length < (j + 1) * (1 : Int).toNat) ∧
        ((batch treeD5.Children (1 : Int).toNat j).2 = none ↔
          (j + 1) * (1 : Int).toNat ≤ treeD5.Children.length)) ∧
      (∀ m, treeD5.Children.length ≤ m * (1 : Int).toNat →
        ((batches treeD5.Children (1 : Int).toNat m).map Prod.fst).flatten = treeD5.Children) ∧
      (∃ m, treeD5.Children.length ≤ m * (1 : Int).toNat) ∧
      (∀ rs t' info', ReaddirCalls [] 1 treeD5 none threeCalls rs t' info' →
        treeD5.Children.length < threeCalls.length * (1 : Int).toNat →
        (∃ c, Close t' [] (rootListing, rootListing).1 (rootListing, rootListing).2 info' c) ∧
          ∀ c, Close t' [] (rootListing, rootListing).1 (rootListing, rootListing).2 info' c →
            c.info = some Info.fresh ∧
            (∃ rs' t'' info'', ReaddirCalls [] 1 c.tree c.info threeCalls rs' t'' info'') ∧
            ∀ rs' t'' info'', ReaddirCalls [] 1 c.tree c.info threeCalls rs' t'' info'' →
              rs' = batches treeD5.Children (1 : Int).toNat threeCalls.length) ∧
      ((∃ r, Readdir treeD5 [1] noListing noListing none 1 r) ∧
        ∀ r, Readdir treeD5 [1] noListing noListing none 1 r →
          r.fi = [] ∧ r.err = some io.EOF)) ∧
    (treeD5.get? [0] = some dirD5 ∧ dirD5.isDir = true ∧ dirD5.Children ≠ [] ∧
      (1 : Int) ≤ 2 ∧
      (∃ rs t' info', ReaddirCalls [0] 2 treeD5 none fourQuiet rs t' info') ∧
      (∀ rs t' info', ReaddirCalls [0] 2 treeD5 none fourQuiet rs t' info' →
        rs = batches dirD5.Children (2 : Int).toNat fourQuiet.length) ∧
      (∀ j, (batch dirD5.Children (2 : Int).toNat j).1 =
          (dirD5.Children.drop (j * (2 : Int).toNat)).take (2 : Int).toNat ∧
        (batch dirD5.Children (2 : Int).toNat j).1.length ≤ (2 : Int).toNat ∧
        ((batch dirD5.Children (2 : Int).toNat j).2 = some io.EOF ↔
          dirD5.Children.length < (j + 1) * (2 : Int).toNat) ∧
        ((batch dirD5.Children (2 : Int).toNat j).2 = none ↔
          (j + 1) * (2 : Int).toNat ≤ dirD5.Children.length)) ∧
      (∀ m, dirD5.Children.length ≤ m * (2 : Int).toNat →
        ((batches dirD5.Children (2 : Int).toNat m).map Prod.fst).flatten = dirD5.Children) ∧
      (∃ m, dirD5.Children.length ≤ m * (2 : Int).toNat) ∧
      (∀ rs t' info', ReaddirCalls [0] 2 treeD5 none fourQuiet rs t' info' →
        dirD5.Children.length < fourQuiet.length * (2 : Int).toNat →
        (∃ c, Close t' [0] (noListing, noListing).1 (noListing, noListing).2 info' c) ∧
          ∀ c, Close t' [0] (noListing, noListing).1 (noListing, noListing).2 info' c →
            c.info = some Info.fresh ∧
            (∃ rs' t'' info'', ReaddirCalls [0] 2 c.tree c.info fourQuiet rs' t'' info'') ∧
            ∀ rs' t'' info'', ReaddirCalls [0] 2 c.tree c.info fourQuiet rs' t'' info'' →
              rs' = batches dirD5.Children (2 : Int).toNat fourQuiet.length) ∧
      ((∃ r, Readdir treeD5 [1] noListing noListing none 2 r) ∧
        ∀ r, Readdir treeD5 [1] noListing noListing none 2 r →
          r.fi = [] ∧ r.err = some io.EOF)) :=
  have hroot : ∀ ls ∈ listingsOf (threeCalls ++ (rootListing, rootListing) :: threeCalls),
      ls.quiet treeD5 := by decide
  have hne : treeD5.Children ≠ [] := fun h0 => absurd (congrArg List.length h0) (by decide)
  have hne5 : dirD5.Children ≠ [] := fun h0 => absurd (congrArg List.length h0) (by decide)
  have h := Readdir_drains treeD5 [] treeD5 1 threeCalls threeCalls (rootListing, rootListing)
    none rfl rfl hne (by decide) (fun _ => hroot) (Or.inl rfl)
  have h5 := Readdir_drains treeD5 [0] dirD5 2 fourQuiet fourQuiet (noListing, noListing)
    none rfl rfl hne5 (by decide) (fun h0 => absurd h0 (by decide)) (Or.inl rfl)
  ⟨⟨rfl, rfl, hne, by decide, fun _ => hroot, h.1, h.2.1, h.2.2.1, h.2.2.2.1, h.2.2.2.2.1,
      h.2.2.2.2.2.1, h.2.2.2.2.2.2 [1] noListing noListing none dirE rfl rfl⟩,
    ⟨rfl, rfl, hne5, by decide, h5.1, h5.2.1, h5.2.2.1, h5.2.2.2.1, h5.2.2.2.2.1,
      h5.2.2.2.2.2.1, h5.2.2.2.2.2.2 [1] noListing noListing none dirE rfl rfl⟩⟩

/-- The example of the specification: five children drained by `Readdir(2)` come in
batches of 2, 2 and 1, the third with `io.EOF`, and a fourth call gets nothing and
`io.EOF`. -/
theorem batches_five_by_two :
    (batches dirD5.Children 2 4).map (fun b => (b.1.map File.name, b.2)) =
      [([['1'], ['2']], none), ([['3'], ['4']], none), ([['5']], some io.EOF),
        ([], some io.EOF)] := by
  decide

/-! ## One request, its responses and the tree -/

/-- The two ways `Insert` ends: with an error and the tree it was given, or with the
new child of the resolved parent. -/
theorem Insert_cases (t : File) (full : Str) (k : Bool) :
    (∃ e, Insert t full k = (([], t), some e, t)) ∨
      ∃ p, ParentResolves t full p ∧
        Insert t full k =
          ((p.1 ++ [p.2.Children.length], (NewChild p.2 (path.Split full).2 k).2), none,
            t.modifyAt (fun q => (NewChild q (path.Split full).2 k).1) p.1) := by
  rcases parent_cases t full with ⟨p, hp⟩ | ⟨h1, hs⟩
  · cases hfc : findChild (path.Split full).2 p.2.Children with
    | some r => left; exact ⟨_, by rw [Insert_of_resolves k hp, hfc]⟩
    | none => right; exact ⟨p, hp, by rw [Insert_of_resolves k hp, hfc]⟩
  · left
    exact ⟨"could not find parent directory: \"".toList ++ (path.Split full).1 ++
        "\" → ".toList ++ "could not find file".toList,
      by simp only [Insert, h1, if_false, hs]⟩

/-- Counterexample to C19: a `Ttruncate` request gets no response call. -/
theorem Serve9P_truncate_no_response :
    (Serve9P treeA quietRemote (Request.Ttruncate ['/', 'a'])).responses.length = 0 ∧
      ¬ (Serve9P treeA quietRemote (Request.Ttruncate ['/', 'a'])).responses.length = 1 :=
  ⟨rfl, by decide⟩

/-- A `Twalk` request for a path that does not resolve, and a `Tremove` request whose
remote delete fails, each get two response calls. -/
theorem Serve9P_two_responses :
    (Serve9P treeA quietRemote (Request.Twalk ['/', 'z'])).responses.length = 2 ∧
      (Serve9P treeA refusingRemote (Request.Tremove ['/', 'a'])).responses.length = 2 :=
  ⟨by decide, by decide⟩

/-- C19, amended: an `Topen`, `Tstat`, `Tcreate` or `Tutimes` request gets exactly one
response call; so does a `Twalk` request whose path `lookup` resolves, and a `Tremove`
request whose remote delete returns no error; a `Ttruncate` request gets none. -/
theorem Serve9P_response_count (t : File) (rem : Remote) :
    (∀ p, (Serve9P t rem (Request.Topen p)).responses.length = 1) ∧
      (∀ p, (Serve9P t rem (Request.Tstat p)).responses.length = 1) ∧
      (∀ p name, (Serve9P t rem (Request.Tcreate p name)).responses.length = 1) ∧
      (∀ p, (Serve9P t rem (Request.Tutimes p)).responses.length = 1) ∧
      (∀ p, (lookupIn t (rem.ls 0) (path.Clean p)).2.1 = none →
        (Serve9P t rem (Request.Twalk p)).responses.length = 1) ∧
      (∀ p, (Blob.Delete rem.del (lookupIn t (rem.ls 0) p).1.2.Blob).1 = none →
        (Serve9P t rem (Request.Tremove p)).responses.length = 1) ∧
      (∀ p, (Serve9P t rem (Request.Ttruncate p)).responses.length = 0) := by
  refine ⟨fun p => rfl, fun p => rfl, ?_, fun p => rfl, ?_, ?_, fun p => rfl⟩
  · intro p name
    simp only [Serve9P]
    cases (Insert t (path.Clean p ++ name) false).2.1 with
    | some e => rfl
    | none =>
      simp only
      cases h : Blob.Upload rem.up (Insert t (path.Clean p ++ name) false).1.2.Blob with
      | mk e calls =>
        cases e with
        | some e => rfl
        | none => rfl
  · intro p hp
    simp only [Serve9P, hp]
    split
    · split <;> rfl
    · rfl
  · intro p hp
    simp only [Serve9P, hp]
    rfl

/-- Witness of C19, amended: a walk to `/a`, which resolves, and a remove of `/a` that
the share accepts. -/
theorem Serve9P_response_count_witness :
    (Serve9P treeA quietRemote (Request.Twalk ['/', 'a'])).responses.length = 1 ∧
      (Serve9P treeA quietRemote (Request.Tremove ['/', 'a'])).responses.length = 1 :=
  ⟨(Serve9P_response_count treeA quietRemote).2.2.2.2.1 ['/', 'a'] (by decide),
    (Serve9P_response_count treeA quietRemote).2.2.2.2.2.1 ['/', 'a'] (by decide)⟩

/-- C20: for every tree, every answer of the share and every `Tcreate` request: when
the insert succeeds, the upload that the handler runs on the new node is the upload
of an empty file, which returns no error and makes no request; so the handler makes no
request to the share, and it ends either with the error of the insert and the tree it
started with, or with `Rcreate` of the new node.  No node whose upload failed is ever
in the tree. -/
theorem Serve9P_create_upload_never_fails (t : File) (rem : Remote) (p name : Str) :
    ((Insert t (path.Clean p ++ name) false).2.1 = none →
        Blob.Upload rem.up (Insert t (path.Clean p ++ name) false).1.2.Blob = (none, [])) ∧
      (Serve9P t rem (Request.Tcreate p name)).calls = [] ∧
      ((∃ e, (Insert t (path.Clean p ++ name) false).2.1 = some e ∧
          (Serve9P t rem (Request.Tcreate p name)).responses =
            [Response.Rerror ("tree insert failed ".toList ++ e)] ∧
          (Serve9P t rem (Request.Tcreate p name)).tree = t) ∨
        ((Insert t (path.Clean p ++ name) false).2.1 = none ∧
          (Serve9P t rem (Request.Tcreate p name)).responses =
            [Response.Rcreate (Insert t (path.Clean p ++ name) false).1 none] ∧
          (Serve9P t rem (Request.Tcreate p name)).tree =
            (Insert t (path.Clean p ++ name) false).2.2)) := by
  rcases Insert_cases t (path.Clean p ++ name) false with ⟨e, he⟩ | ⟨q, _, hq⟩
  · refine ⟨?_, ?_, Or.inl ⟨e, ?_, ?_, ?_⟩⟩
    · intro h; rw [he] at h; exact absurd h (by simp)
    · simp only [Serve9P, he]
    · rw [he]
    · simp only [Serve9P, he]
    · simp only [Serve9P, he]
  · have hup : Blob.Upload rem.up
        (NewChild q.2 (path.Split (path.Clean p ++ name)).2 false).2.Blob = (none, []) :=
      Upload_empty rem.up _ rfl rfl
    refine ⟨?_, ?_, Or.inr ⟨?_, ?_, ?_⟩⟩
    · intro _; rw [hq]; exact hup
    · simp only [Serve9P, hq, hup]
    · rw [hq]
    · simp only [Serve9P, hq, hup]
    · simp only [Serve9P, hq, hup]

/-! ## The size of a directory -/

/-- C22: on the empty root, with a listing that reports the file `a`, `Size` returns 0,
and the root has one child after the call: the count is the one of the copy of the
node that the value receiver made before the sync. -/
theorem Size_root_before_sync :
    (Size NewTree [] ⟨[['a']], [], [['a']]⟩ noListing).map
        (fun r => (r.1, r.2.Children.map File.name)) = some (0, [['a']]) ∧
      NewTree.isDir = true ∧ RangeOrder ([['a']] ++ []) [['a']] := by
  refine ⟨by decide, rfl, by decide⟩

/-- Below the root, `Size` of a directory returns the number of its children, which
the root syncs of the call leave as they were. -/
theorem Size_below_root (t : File) (l : Loc) (ls₁ ls₂ : Listing) (f : File) (hl : l ≠ [])
    (hf : t.get? l = some f) (hdir : f.isDir = true) :
    ∃ t' f', Size t l ls₁ ls₂ = some ((f.Children.length : Int), t') ∧
      t'.get? l = some f' ∧ f'.Children = f.Children := by
  obtain ⟨f1, hg1, _, _, _, he1⟩ := syncRoot_get? ls₁ hf
  have hf1 : f1 = f := he1 hl
  subst hf1
  have hg2 : ((syncRoot t ls₁).modifyAt
      (fun g => { g with Blob := { g.Blob with tracked := true } }) l).get? l =
      some { f1 with Blob := { f1.Blob with tracked := true } } := by
    rw [File.get?_modifyAt_self, hg1]; rfl
  obtain ⟨f3, hg3, _, _, _, he3⟩ := syncRoot_get? ls₂ hg2
  refine ⟨_, f3, ?_, hg3, ?_⟩
  · simp only [Size, hf, hdir, if_true]
  · rw [he3 hl]

/-! ## Create and remove requests -/

/-- C24: in the tree with the directory `/a`, the request to create `b` in `/a` is
answered with `Rcreate` of a node called `ab` that is the second child of the root;
the directory `/a` still has no children, and `lookup` of `/a/b` afterwards fails. -/
theorem Serve9P_create_below_root :
    (Serve9P treeA quietRemote (Request.Tcreate ['/', 'a'] ['b'])).responses.map
        (fun r =>
          match r with
          | Response.Rcreate f err => some (f.1, f.2.name, err)
          | _ => none) = [some ([1], ['a', 'b'], none)] ∧
      (Serve9P treeA quietRemote (Request.Tcreate ['/', 'a'] ['b'])).tree.Children.map
        File.name = [['a'], ['a', 'b']] ∧
      ((Serve9P treeA quietRemote (Request.Tcreate ['/', 'a'] ['b'])).tree.get? [0]).map
        (fun d => (d.isDir, d.Children.length)) = some (true, 0) ∧
      (lookupIn (Serve9P treeA quietRemote (Request.Tcreate ['/', 'a'] ['b'])).tree noListing
        ['/', 'a', '/', 'b']).2.1 = some "could not find file".toList := by
  refine ⟨by decide, by decide, by decide, by decide⟩

/-- C25: in the tree with the directory `/a`, the path `/zz` does not resolve; the
request to remove it sends a delete of the root directory to the share (the URL of the
root is the empty path), and is answered with the error of the tree's `Delete`. -/
theorem Serve9P_remove_unresolved_deletes_root :
    (lookupIn treeA noListing ['/', 'z', 'z']).2.1 = some "could not find file".toList ∧
      treeA.Blob.dirURL = [] ∧
      (Serve9P treeA quietRemote (Request.Tremove ['/', 'z', 'z'])).calls =
        [Call.deleteDir []] ∧
      (Serve9P treeA quietRemote (Request.Tremove ['/', 'z', 'z'])).responses.map
        (fun r =>
          match r with
          | Response.Rremove err => err
          | _ => none) = [some "could not find child \"zz\"".toList] := by
  refine ⟨by decide, rfl, by decide, by decide⟩

/-! ## Two calls of `Insert` for the same path -/

theorem File.modifyAt_name (g : File → File) (hg : ∀ n, (g n).name = n.name) (t : File)
    (l : Loc) : (File.modifyAt g t l).name = t.name := by
  cases l with
  | nil => exact hg t
  | cons i l => rfl

/-- The loop over the children stops at the same child when that child is replaced by
one of the same name. -/
theorem findChild_modify {name : Str} {cs : List File} {i : Nat} {c : File} (h : File → File)
    (hname : ∀ n, (h n).name = n.name) (hfc : findChild name cs = some (i, c)) :
    findChild name (cs.modify h i) = some (i, h c) := by
  induction cs generalizing i with
  | nil => simp [findChild] at hfc
  | cons d ds ih =>
    by_cases hd : d.name = name
    · simp only [findChild, hd, if_true, Option.some.injEq, Prod.mk.injEq] at hfc
      obtain ⟨rfl, rfl⟩ := hfc
      simp [findChild, hname, hd]
    · simp only [findChild, hd, if_false, Option.map_eq_some'] at hfc
      obtain ⟨⟨k, e⟩, hk, hke⟩ := hfc
      simp only [Prod.mk.injEq] at hke
      obtain ⟨rfl, rfl⟩ := hke
      rw [List.modify_succ_cons]
      simp [findChild, hd, ih hk]

/-- A change of the node that the search ends at, which keeps the name of that node,
does not change where the search ends. -/
theorem recurseSearch_modifyAt (g : File → File) (hg : ∀ n, (g n).name = n.name)
    {t : File} {names : List Str} {l : Loc} {n : File}
    (h : recurseSearch t names = some (l, n)) :
    recurseSearch (File.modifyAt g t l) names = some (l, g n) := by
  induction names generalizing t l with
  | nil =>
    simp only [recurseSearch, Option.some.injEq, Prod.mk.injEq] at h
    obtain ⟨rfl, rfl⟩ := h
    rfl
  | cons a rest ih =>
    rw [recurseSearch] at h
    split at h
    · rename_i hq
      simp only [Option.some.injEq, Prod.mk.injEq] at h
      obtain ⟨rfl, rfl⟩ := h
      rw [File.modifyAt_nil, recurseSearch, if_pos ⟨hq.1, by rw [hg]; exact hq.2⟩]
    · rename_i hq
      split at h
      · rename_i i child hfc
        simp only [Option.map_eq_some'] at h
        obtain ⟨⟨l', n'⟩, hr, hl⟩ := h
        simp only [Prod.mk.injEq] at hl
        obtain ⟨rfl, rfl⟩ := hl
        have hfc' := findChild_modify (fun c => File.modifyAt g c l')
          (fun c => File.modifyAt_name g hg c l') hfc
        rw [recurseSearch, show (File.modifyAt g t (i :: l')).name = t.name from rfl, if_neg hq]
        show (match findChild a (t.Children.modify (fun c => File.modifyAt g c l') i) with
          | some (i, child) =>
            (recurseSearch child rest).map (fun (r : Ptr) => ((i :: r.1, r.2) : Ptr))
          | none => none) = _
        rw [hfc']
        simp only [ih hr, Option.map_some']
      · exact absurd h (by simp)

/-- After `NewChild` on the resolved parent, the parent of `full` resolves to the same
location. -/
theorem ParentResolves.after_NewChild {t : File} {full : Str} {p : Ptr}
    (hp : ParentResolves t full p) (name : Str) (k : Bool) :
    ParentResolves (t.modifyAt (fun q => (NewChild q name k).1) p.1) full
      (p.1, (NewChild p.2 name k).1) := by
  obtain ⟨ploc, parent⟩ := p
  rcases hp with ⟨h1, h2⟩ | ⟨h1, h2⟩
  · simp only [Prod.mk.injEq] at h2
    obtain ⟨rfl, rfl⟩ := h2
    exact Or.inl ⟨h1, rfl⟩
  · refine Or.inr ⟨h1, ?_⟩
    cases hr : recurseSearch t (List.drop 1 (strings.Split (path.Clean (path.Split full).1))) with
    | none => simp only [Search, hr] at h2; simp at h2
    | some q =>
      simp only [Search, hr, Prod.mk.injEq, Option.some.injEq, and_true] at h2
      subst h2
      have := recurseSearch_modifyAt (fun q => (NewChild q name k).1) (fun _ => rfl) hr
      simp only [Search, this]

/-- The first part of `Insert` once the parent is resolved. -/
theorem Insert.check_of_resolves {t : File} {full : Str} {p : Ptr}
    (hp : ParentResolves t full p) :
    Insert.check t full =
      match findChild (path.Split full).2 p.2.Children with
      | some _ =>
        InsertCall.returned ([], t) (some ("file \"".toList ++ full ++ "\" exists".toList))
      | none => InsertCall.checked p.1 := by
  obtain ⟨ploc, parent⟩ := p
  rcases hp with ⟨h1, h2⟩ | ⟨h1, h2⟩
  · simp only [Prod.mk.injEq] at h2
    obtain ⟨rfl, rfl⟩ := h2
    simp only [Insert.check, h1, if_true]
  · simp only [Insert.check, h1, if_false, h2]

/-- The parts of one call of `Insert`, run with nothing in between, are `Insert`. -/
theorem InsertCall.step_step (t : File) (full : Str) (k : Bool) :
    ((InsertCall.entered.step t full k).1.step (InsertCall.entered.step t full k).2 full k) =
      (InsertCall.returned (Insert t full k).1 (Insert t full k).2.1, (Insert t full k).2.2) := by
  rcases parent_cases t full with ⟨p, hp⟩ | ⟨hne, hs⟩
  · have hget := hp.get?
    rw [Insert_of_resolves k hp]
    simp only [InsertCall.step, Insert.check_of_resolves hp]
    cases findChild (path.Split full).2 p.2.Children with
    | some r => rfl
    | none => simp only [InsertCall.step, hget]
  · simp only [InsertCall.step, Insert.check, Insert, hne, if_false, hs]

/-- C23, as stated: on the empty tree, two calls of `Insert` for `/a` of which each has
left the loop over the children of the root before the other calls `NewChild` both
return the nil error, and the root then has two children called `a`. -/
theorem Insert_two_calls_both_succeed :
    (TwoCalls.run ['/', 'a'] false false (TwoCalls.start NewTree)
        [Turn.A, Turn.B, Turn.A, Turn.B]).a.result = some ([0], ['a'], none) ∧
      (TwoCalls.run ['/', 'a'] false false (TwoCalls.start NewTree)
        [Turn.A, Turn.B, Turn.A, Turn.B]).b.result = some ([1], ['a'], none) ∧
      (TwoCalls.run ['/', 'a'] false false (TwoCalls.start NewTree)
        [Turn.A, Turn.B, Turn.A, Turn.B]).tree.Children.map File.name = [['a'], ['a']] := by
  refine ⟨by decide, by decide, by decide⟩

/-- C23, amended: let the parent of `full` resolve to a node `P` that has no child with
the final name of `full`.  When the second of two calls of `Insert` for `full` starts
after the first has returned, the first succeeds and the second fails with
`file "full" exists` and leaves the tree as the first left it.  When both calls have
left the loop over the children of `P` before either calls `NewChild`, both succeed,
and `P` ends with two more children of that name. -/
theorem Insert_one_after_the_other (t : File) (full : Str) (ka kb : Bool) (p : Ptr)
    (hp : ParentResolves t full p)
    (hno : ∀ c ∈ p.2.Children, c.name ≠ (path.Split full).2) :
    (Insert t full ka).2.1 = none ∧
      Insert (Insert t full ka).2.2 full kb =
        (([], (Insert t full ka).2.2), some ("file \"".toList ++ full ++ "\" exists".toList),
          (Insert t full ka).2.2) ∧
      TwoCalls.run full ka kb (TwoCalls.start t) [Turn.A, Turn.A, Turn.B, Turn.B] =
        ⟨(Insert t full ka).2.2, InsertCall.returned (Insert t full ka).1 none,
          InsertCall.returned ([], (Insert t full ka).2.2)
            (some ("file \"".toList ++ full ++ "\" exists".toList))⟩ ∧
      ∃ ca cb : File,
        (TwoCalls.run full ka kb (TwoCalls.start t) [Turn.A, Turn.B, Turn.A, Turn.B]).a =
          InsertCall.returned (p.1 ++ [p.2.Children.length], ca) none ∧
        (TwoCalls.run full ka kb (TwoCalls.start t) [Turn.A, Turn.B, Turn.A, Turn.B]).b =
          InsertCall.returned (p.1 ++ [p.2.Children.length + 1], cb) none ∧
        (TwoCalls.run full ka kb (TwoCalls.start t) [Turn.A, Turn.B, Turn.A, Turn.B]).tree.get?
          p.1 = some { p.2 with Children := p.2.Children ++ [ca, cb] } ∧
        ca.name = (path.Split full).2 ∧ cb.name = (path.Split full).2 := by
  have hfc : findChild (path.Split full).2 p.2.Children = none := findChild_eq_none.2 hno
  have hget := hp.get?
  have hI := Insert_of_resolves ka hp
  rw [hfc] at hI
  simp only at hI
  have hp' := hp.after_NewChild (path.Split full).2 ka
  have hfc' : findChild (path.Split full).2 (NewChild p.2 (path.Split full).2 ka).1.Children =
      some (p.2.Children.length, (NewChild p.2 (path.Split full).2 ka).2) :=
    findChild_append_new hno rfl
  have hI' := Insert_of_resolves kb hp'
  rw [hfc'] at hI'
  simp only at hI'
  have hc := Insert.check_of_resolves hp
  rw [hfc] at hc
  simp only at hc
  have hc' := Insert.check_of_resolves hp'
  rw [hfc'] at hc'
  simp only at hc'
  refine ⟨by rw [hI], by rw [hI]; exact hI', ?_, ?_⟩
  · rw [hI]
    simp only [TwoCalls.run, List.foldl, TwoCalls.step, TwoCalls.start, InsertCall.step, hc,
      hget, hc']
  · have hget₁ : (t.modifyAt (fun q => (NewChild q (path.Split full).2 ka).1) p.1).get? p.1 =
        some (NewChild p.2 (path.Split full).2 ka).1 := by
      rw [File.get?_modifyAt_self, hget]; rfl
    refine ⟨(NewChild p.2 (path.Split full).2 ka).2,
      (NewChild (NewChild p.2 (path.Split full).2 ka).1 (path.Split full).2 kb).2, ?_, ?_, ?_,
      rfl, rfl⟩
    · simp only [TwoCalls.run, List.foldl, TwoCalls.step, TwoCalls.start, InsertCall.step, hc,
        hget]
    · simp only [TwoCalls.run, List.foldl, TwoCalls.step, TwoCalls.start, InsertCall.step, hc,
        hget, hget₁]
      simp [NewChild]
    · simp only [TwoCalls.run, List.foldl, TwoCalls.step, TwoCalls.start, InsertCall.step, hc,
        hget, hget₁, File.get?_modifyAt_self, Option.map_some']
      simp [NewChild]

/-- Witness of C23, amended: two calls of `Insert` for `/a` on the empty tree. -/
theorem Insert_one_after_the_other_witness :
    (Insert NewTree ['/', 'a'] true).2.1 = none ∧
      Insert (Insert NewTree ['/', 'a'] true).2.2 ['/', 'a'] false =
        (([], (Insert NewTree ['/', 'a'] true).2.2),
          some ("file \"".toList ++ ['/', 'a'] ++ "\" exists".toList),
          (Insert NewTree ['/', 'a'] true).2.2) ∧
      TwoCalls.run ['/', 'a'] true false (TwoCalls.start NewTree)
          [Turn.A, Turn.A, Turn.B, Turn.B] =
        ⟨(Insert NewTree ['/', 'a'] true).2.2,
          InsertCall.returned (Insert NewTree ['/', 'a'] true).1 none,
          InsertCall.returned ([], (Insert NewTree ['/', 'a'] true).2.2)
            (some ("file \"".toList ++ ['/', 'a'] ++ "\" exists".toList))⟩ ∧
      ∃ ca cb : File,
        (TwoCalls.run ['/', 'a'] true false (TwoCalls.start NewTree)
          [Turn.A, Turn.B, Turn.A, Turn.B]).a =
          InsertCall.returned ([] ++ [NewTree.Children.length], ca) none ∧
        (TwoCalls.run ['/', 'a'] true false (TwoCalls.start NewTree)
          [Turn.A, Turn.B, Turn.A, Turn.B]).b =
          InsertCall.returned ([] ++ [NewTree.Children.length + 1], cb) none ∧
        (TwoCalls.run ['/', 'a'] true false (TwoCalls.start NewTree)
          [Turn.A, Turn.B, Turn.A, Turn.B]).tree.get? [] =
          some { NewTree with Children := NewTree.Children ++ [ca, cb] } ∧
        ca.name = (path.Split ['/', 'a']).2 ∧ cb.name = (path.Split ['/', 'a']).2 :=
  Insert_one_after_the_other NewTree ['/', 'a'] true false ([], NewTree) (Or.inl ⟨rfl, rfl⟩)
    (by intro c hc; simp [NewTree] at hc)

/-! ## Calls that return and calls that end the process -/

/-- With a node at `l` and an offset that is not negative, `WriteAt` does not panic. -/
theorem WriteAt_isSome (t : File) (l : Loc) (f : File) (hf : t.get? l = some f) (ls : Listing)
    (cap : Nat) (ans : UploadAnswer) (p : List Nat) (off : Int) (hoff : 0 ≤ off) :
    ∃ w, WriteAt t l ls cap ans p off = some w := by
  obtain ⟨f', hg, _⟩ := syncRoot_get? ls hf
  unfold WriteAt
  simp only [hg]
  split_ifs <;> first | exact ⟨_, rfl⟩ | omega | (split <;> exact ⟨_, rfl⟩)

/-- With a node at `l` and an offset that is not negative, `ReadAt` does not panic. -/
theorem ReadAt_isSome (t : File) (l : Loc) (f : File) (hf : t.get? l = some f)
    (ls₀ ls₁ ls₂ : Listing) (dl : URL → DownloadOutcome) (plen : Nat) (offset : Int)
    (hoff : 0 ≤ offset) : ∃ r, ReadAt t l ls₀ ls₁ ls₂ dl plen offset = some r := by
  obtain ⟨f', hg, _⟩ := syncRoot_get? ls₀ hf
  have hg2 : (setBlob (syncRoot t ls₀) l
      (Blob.Download dl { f'.Blob with tracked := true }).2).get? l =
      some { f' with Blob := (Blob.Download dl { f'.Blob with tracked := true }).2 } := by
    rw [setBlob_get?, hg]; rfl
  unfold ReadAt
  simp only [hg, Size, hg2]
  cases f'.isDir <;> simp only [if_true, if_false, Bool.false_eq_true] <;>
    split_ifs <;> first | exact ⟨_, rfl⟩ | omega

/-- With a node at `l`, a call of `Readdir` has a result. -/
theorem Readdir_exists (t : File) (l : Loc) (f : File) (hf : t.get? l = some f)
    (ls ls' : Listing) (info : Option Info) (n : Int) : ∃ r, Readdir t l ls ls' info n r := by
  obtain ⟨f', hg, _⟩ := syncRoot_get? ls hf
  by_cases hc : f'.Children = []
  · exact ⟨_, Readdir.empty f' hg hc⟩
  · cases info with
    | some ch =>
      obtain ⟨fi, err, ch', hd⟩ := Drain.runs f'.Children n.toNat ch
      exact ⟨_, Readdir.drain f' ch ch' fi err hg hc rfl hd⟩
    | none =>
      obtain ⟨f'', hg', _⟩ := syncRoot_get? ls' hg
      obtain ⟨fi, err, ch', hd⟩ := Drain.runs f''.Children n.toNat Info.fresh
      exact ⟨_, Readdir.reload f' f'' ch' fi err hg hc rfl hg' hd⟩

/-- With listings that succeed, a handler returns what `Serve9P` gives for them. -/
theorem Serve9PEnds_ok (t : File) (rem : Remote) (req : Request) :
    Serve9PEnds t (fun k => .ok (rem.ls k)) rem req = .returns (Serve9P t rem req) := by
  cases req with
  | Twalk q =>
    simp only [Serve9PEnds, Ls, Ends.bind]
    split_ifs with h
    · simp only [Serve9P, Remote.withLs]
      simp
    · simp only [Serve9P, Remote.withLs]
      simp only [if_true, h]
      simp
  | Topen q => simp [Serve9PEnds, Ls, Ends.bind, Serve9P, Remote.withLs]
  | Tstat q => simp [Serve9PEnds, Ls, Ends.bind, Serve9P, Remote.withLs]
  | Tcreate q nm => rfl
  | Tremove q => simp [Serve9PEnds, Ls, Ends.bind, Serve9P, Remote.withLs]
  | Ttruncate q => rfl
  | Tutimes q => rfl

/-- C21, as stated: when the share answers the listing with an error, `Sync` on the
root of the empty tree does not return, the process exits with status 1; so do `lookup`
and the handler of an open request. -/
theorem Sync_failed_listing_exits :
    SyncEnds NewTree (LsAnswer.failed noSuchHost) = Ends.exits 1 ∧
      lookupEnds NewTree (LsAnswer.failed noSuchHost) ['/'] = Ends.exits 1 ∧
      Serve9PEnds NewTree noHost quietRemote
        (Request.Topen ['/']) = Ends.exits 1 :=
  ⟨rfl, rfl, rfl⟩

/-- C21, amended: for every tree, every node `f` at a location `l` of it, and every
answer of the share to downloads, uploads and deletes: when the listings succeed,
`Sync`, `LoadChildren`, `lookup`, `Readdir` and every request handler return, and so do
`WriteAt` and `ReadAt` for an offset that is not negative; the handlers of create,
truncate and utimes, which ask for no listing, return whatever the share would answer
to one; when the first listing they ask for fails, `Sync`, `LoadChildren` on a
directory, `lookup`, `WriteAt`, `ReadAt`, `Readdir` and the handlers of walk, open, stat
and remove do not return: the process exits with status 1 (`LoadChildren` on a file
returns its error before it asks for a listing). -/
theorem core_returns_unless_listing_fails (t : File) (l : Loc) (f : File)
    (hf : t.get? l = some f) (off : Int) (hoff : 0 ≤ off)
    (ls₀ ls₁ ls₂ : Listing) (e : Str) (a' a'' : LsAnswer) (a : Nat → LsAnswer)
    (dl : URL → DownloadOutcome) (ans : UploadAnswer) (rem : Remote)
    (full name : Str) (cap plen : Nat) (p : List Nat) (info : Option Info) (n : Int)
    (req : Request) :
    (SyncEnds t (.ok ls₀) = .returns (syncRoot t ls₀) ∧
      LoadChildrenEnds dl f (.ok ls₀) = .returns (LoadChildren dl f ls₀.files ls₀.dirs) ∧
      lookupEnds t (.ok ls₀) full = .returns (lookupIn t ls₀ full) ∧
      (∃ w, WriteAtEnds t l (.ok ls₀) cap ans p off = .returns w) ∧
      (∃ r, ReadAtEnds t l (.ok ls₀) (.ok ls₁) (.ok ls₂) dl plen off = .returns r) ∧
      (∃ r, ReaddirEnds t l (.ok ls₀) (.ok ls₁) info n (.returns r)) ∧
      Serve9PEnds t (fun k => .ok (rem.ls k)) rem req = .returns (Serve9P t rem req)) ∧
    (Serve9PEnds t a rem (Request.Tcreate full name) =
        .returns (Serve9P t rem (Request.Tcreate full name)) ∧
      Serve9PEnds t a rem (Request.Ttruncate full) =
        .returns (Serve9P t rem (Request.Ttruncate full)) ∧
      Serve9PEnds t a rem (Request.Tutimes full) =
        .returns (Serve9P t rem (Request.Tutimes full))) ∧
    (SyncEnds t (.failed e) = .exits 1 ∧
      LoadChildrenEnds dl f (.failed e) =
        (if f.isDir then .exits 1 else .returns (some "is a file, not a dir".toList, f)) ∧
      lookupEnds t (.failed e) full = .exits 1 ∧
      WriteAtEnds t l (.failed e) cap ans p off = .exits 1 ∧
      ReadAtEnds t l (.failed e) a' a'' dl plen off = .exits 1 ∧
      ReaddirEnds t l (.failed e) a' info n (.exits 1) ∧
      (∀ r, ¬ ReaddirEnds t l (.failed e) a' info n (.returns r)) ∧
      Serve9PEnds t (fun k => if k = 0 then .failed e else a k) rem (Request.Twalk full) =
        .exits 1 ∧
      Serve9PEnds t (fun k => if k = 0 then .failed e else a k) rem (Request.Topen full) =
        .exits 1 ∧
      Serve9PEnds t (fun k => if k = 0 then .failed e else a k) rem (Request.Tstat full) =
        .exits 1 ∧
      Serve9PEnds t (fun k => if k = 0 then .failed e else a k) rem (Request.Tremove full) =
        .exits 1) := by
  refine ⟨⟨rfl, ?_, rfl, ?_, ?_, ?_, ?_⟩, ⟨rfl, rfl, rfl⟩,
    ⟨rfl, ?_, rfl, rfl, rfl, ?_, ?_, rfl, rfl, rfl, rfl⟩⟩
  · unfold LoadChildrenEnds
    cases hd : f.isDir with
    | false => simp [LoadChildren, hd]
    | true => simp [Ls, Ends.bind]
  · obtain ⟨w, hw⟩ := WriteAt_isSome t l f hf ls₀ cap ans p off hoff
    exact ⟨w, by simp only [WriteAtEnds, Ls, Ends.bind, hw, Ends.ofOption]⟩
  · obtain ⟨r, hr⟩ := ReadAt_isSome t l f hf ls₀ ls₁ ls₂ dl plen off hoff
    exact ⟨r, by simp only [ReadAtEnds, Ls, Ends.bind, hr, Ends.ofOption]⟩
  · obtain ⟨r, hr⟩ := Readdir_exists t l f hf ls₀ ls₁ info n
    exact ⟨r, ReaddirEnds.returned ls₀ ls₁ r rfl (fun _ _ _ _ => rfl) hr⟩
  · exact Serve9PEnds_ok t rem req
  · cases hd : f.isDir <;> simp [LoadChildrenEnds, hd, Ls, Ends.bind]
  · exact ReaddirEnds.syncExits 1 rfl
  · intro r h
    cases h with
    | returned ls ls' r h1 _ _ => simp [Ls] at h1

/-- Witness of C21, amended: the file `/f`, the offset 0 and an open request. -/
theorem core_returns_unless_listing_fails_witness :
    treeF.get? [0] = some fileF ∧ (0 : Int) ≤ 0 ∧
    ((SyncEnds treeF (.ok noListing) = .returns (syncRoot treeF noListing) ∧
      LoadChildrenEnds quietRemote.dl fileF (.ok noListing) =
        .returns (LoadChildren quietRemote.dl fileF noListing.files noListing.dirs) ∧
      lookupEnds treeF (.ok noListing) ['/', 'f'] =
        .returns (lookupIn treeF noListing ['/', 'f']) ∧
      (∃ w, WriteAtEnds treeF [0] (.ok noListing) 0 quietRemote.up [] 0 = .returns w) ∧
      (∃ r, ReadAtEnds treeF [0] (.ok noListing) (.ok noListing) (.ok noListing)
        quietRemote.dl 0 0 = .returns r) ∧
      (∃ r, ReaddirEnds treeF [0] (.ok noListing) (.ok noListing) none 1 (.returns r)) ∧
      Serve9PEnds treeF (fun k => .ok (quietRemote.ls k)) quietRemote
        (Request.Topen ['/', 'f']) =
        .returns (Serve9P treeF quietRemote (Request.Topen ['/', 'f']))) ∧
    (Serve9PEnds treeF noHost quietRemote (Request.Tcreate ['/', 'f'] ['g']) =
        .returns (Serve9P treeF quietRemote (Request.Tcreate ['/', 'f'] ['g'])) ∧
      Serve9PEnds treeF noHost quietRemote (Request.Ttruncate ['/', 'f']) =
        .returns (Serve9P treeF quietRemote (Request.Ttruncate ['/', 'f'])) ∧
      Serve9PEnds treeF noHost quietRemote (Request.Tutimes ['/', 'f']) =
        .returns (Serve9P treeF quietRemote (Request.Tutimes ['/', 'f']))) ∧
    (SyncEnds treeF (.failed noSuchHost) = .exits 1 ∧
      LoadChildrenEnds quietRemote.dl fileF (.failed noSuchHost) =
        (if fileF.isDir then .exits 1
          else .returns (some "is a file, not a dir".toList, fileF)) ∧
      lookupEnds treeF (.failed noSuchHost) ['/', 'f'] = .exits 1 ∧
      WriteAtEnds treeF [0] (.failed noSuchHost) 0 quietRemote.up [] 0 = .exits 1 ∧
      ReadAtEnds treeF [0] (.failed noSuchHost) (.ok noListing) (.ok noListing) quietRemote.dl 0 0 =
        .exits 1 ∧
      ReaddirEnds treeF [0] (.failed noSuchHost) (.ok noListing) none 1 (.exits 1) ∧
      (∀ r, ¬ ReaddirEnds treeF [0] (.failed noSuchHost) (.ok noListing) none 1 (.returns r)) ∧
      Serve9PEnds treeF (fun k => if k = 0 then .failed noSuchHost else noHost k) quietRemote
        (Request.Twalk ['/', 'f']) = .exits 1 ∧
      Serve9PEnds treeF (fun k => if k = 0 then .failed noSuchHost else noHost k) quietRemote
        (Request.Topen ['/', 'f']) = .exits 1 ∧
      Serve9PEnds treeF (fun k => if k = 0 then .failed noSuchHost else noHost k) quietRemote
        (Request.Tstat ['/', 'f']) = .exits 1 ∧
      Serve9PEnds treeF (fun k => if k = 0 then .failed noSuchHost else noHost k) quietRemote
        (Request.Tremove ['/', 'f']) = .exits 1)) :=
  ⟨rfl, by decide,
    core_returns_unless_listing_fails treeF [0] fileF rfl 0 (by decide) noListing noListing
      noListing noSuchHost (.ok noListing) (.ok noListing) noHost quietRemote.dl quietRemote.up
      quietRemote ['/', 'f'] ['g'] 0 0 [] none 1 (Request.Topen ['/', 'f'])⟩

end Dlfs
